import Mathlib

/-!
# MyMalloc: a fixed-region first-fit allocator (`smalloc.c`)

A shallow embedding of `my_init`, `smalloc` and `sfree` together with the
properties of the block manager.

Modelling conventions.

* Memory is byte addressed: `Mem` gives the byte stored at every address.  An
  `int` access reads or writes four bytes, a pointer access eight bytes, both
  little endian.
* A C `int` is an `Int` kept in the range `[-2^31, 2^31)` by `wrap32` after
  every arithmetic operation.  `%` on `int` is `Int.tmod` (C truncates).
* A pointer is a `Nat` below `2^64`; `NULL` is `0`.  Pointer arithmetic that
  yields a pointer value is `padd` (modulo `2^64`).  The address of a header
  field (`(char*)p + 8`) is computed in `Nat`.
* The `while` loops take a fuel argument and return `none` when it runs out.
-/

namespace MyMalloc

/-! ## Memory and machine arithmetic -/

/-- Byte-addressed memory. -/
abbrev Mem := Nat → Nat

/-- Little-endian read of `k` bytes starting at address `a`. -/
def rdBytes (m : Mem) (a : Nat) : Nat → Nat
  | 0 => 0
  | k + 1 => m a % 256 + 256 * rdBytes m (a + 1) k

/-- Little-endian write of the `k` low bytes of `v` starting at address `a`. -/
def wrBytes (m : Mem) (a k v : Nat) : Mem :=
  fun x => if a ≤ x ∧ x < a + k then v / 256 ^ (x - a) % 256 else m x

/-- Reduction of an integer to the range of a 32-bit signed `int`. -/
def wrap32 (x : Int) : Int := (x + 2147483648) % 4294967296 - 2147483648

/-- The load `*((int*) a)`. -/
def rd32 (m : Mem) (a : Nat) : Int := wrap32 (rdBytes m a 4)

/-- The store `*((int*) a) = v`. -/
def wr32 (m : Mem) (a : Nat) (v : Int) : Mem := wrBytes m a 4 (v % 4294967296).toNat

/-- The load `*((void**) a)`. -/
def rd64 (m : Mem) (a : Nat) : Nat := rdBytes m a 8

/-- The store `*((void**) a) = v`. -/
def wr64 (m : Mem) (a : Nat) (v : Nat) : Mem := wrBytes m a 8 v

/-- Pointer plus integer, on 64-bit pointers. -/
def padd (p : Nat) (i : Int) : Nat := (((p : Int) + i) % 18446744073709551616).toNat

/-- The global `PAGE_SIZE`. -/
def PAGE_SIZE : Int := 4096

/-- The value `MAP_FAILED`, that is `(void*) -1`. -/
def MAP_FAILED : Nat := 18446744073709551615

/-- The memory together with the globals `free_list_head`, `heap_address` and
`heap_size`. -/
structure State where
  mem : Mem
  free_list_head : Nat
  heap_address : Nat
  heap_size : Int

/-- Modelled from the spec: the record `Malloc_Status` of `smalloc.h`, which is
not among the sources; its three `int` fields are `success`, `payload_offset`
and `hops`. -/
structure Malloc_Status where
  success : Int
  payload_offset : Int
  hops : Int
deriving DecidableEq, Repr

/-! ## `my_init` -/

/-- The function `my_init`.  `mmap_result` is the pointer returned by `mmap`
(`MAP_FAILED` when the region cannot be acquired). -/
def my_init (mmap_result : Nat) (size_of_region : Int) (s : State) : Int × State :=
  let heap_padding := Int.tmod size_of_region PAGE_SIZE
  let size_of_region :=
    if heap_padding ≠ 0 then wrap32 (size_of_region + wrap32 (PAGE_SIZE - heap_padding))
    else size_of_region
  let s := { s with heap_size := size_of_region }
  let s := { s with heap_address := mmap_result }
  if s.heap_address = MAP_FAILED then (-1, s)
  else
    let m := wr32 s.mem s.heap_address size_of_region
    let m := wr32 m (s.heap_address + 4) 0
    let m := wr64 m (s.heap_address + 8) 0
    let m := wr64 m (s.heap_address + 16) 0
    (0, { s with mem := m, free_list_head := s.heap_address })

/-! ## `smalloc` -/

/-- The locals of `smalloc` that are live after its search loop. -/
structure SearchState where
  free_block_found : Bool
  split_block : Bool
  hops : Int
  leftover : Int
  block_head : Nat
  size_of_payload : Int
deriving DecidableEq, Repr

/-- The `while (block_head != NULL)` loop of `smalloc`. -/
def smalloc_search (m : Mem) :
    Nat → Nat → Int → Int → Int → Option SearchState
  | 0, _, _, _, _ => none
  | fuel + 1, block_head, size_of_payload, hops, leftover =>
    if block_head = 0 then
      some ⟨false, false, hops, leftover, block_head, size_of_payload⟩
    else
      let free_block_size := rd32 m block_head
      let leftover := wrap32 (free_block_size - wrap32 (size_of_payload + 24))
      if leftover ≥ 0 then
        if leftover < 24 then
          if Int.tmod leftover 8 = 0 then
            some ⟨true, false, hops, leftover, block_head, wrap32 (size_of_payload + leftover)⟩
          else
            smalloc_search m fuel (rd64 m (block_head + 8)) size_of_payload
              (wrap32 (hops + 1)) leftover
        else
          some ⟨true, true, hops, leftover, block_head, size_of_payload⟩
      else
        smalloc_search m fuel (rd64 m (block_head + 8)) size_of_payload
          (wrap32 (hops + 1)) leftover

/-- The part of `smalloc` after a block was found: lines 115 to 164. -/
def smalloc_take (s : State) (r : SearchState) : State :=
  let block_head := r.block_head
  let prev_block_head := rd64 s.mem (block_head + 16)
  let next_block_head := rd64 s.mem (block_head + 8)
  let s1 : State :=
    if r.split_block then
      let new_free_block_head := padd (padd block_head 24) r.size_of_payload
      let m := wr32 s.mem new_free_block_head r.leftover
      let m := wr32 m (new_free_block_head + 4) 0
      let head := if prev_block_head = 0 then new_free_block_head else s.free_list_head
      let m := if prev_block_head ≠ 0 then wr64 m (prev_block_head + 8) new_free_block_head else m
      let m := if next_block_head ≠ 0 then wr64 m (next_block_head + 16) new_free_block_head else m
      let m := wr64 m (new_free_block_head + 8) next_block_head
      let m := wr64 m (new_free_block_head + 16) prev_block_head
      { s with mem := m, free_list_head := head }
    else
      let head := if prev_block_head = 0 then next_block_head else s.free_list_head
      let m := s.mem
      let m := if prev_block_head ≠ 0 then wr64 m (prev_block_head + 8) next_block_head else m
      let m := if next_block_head ≠ 0 then wr64 m (next_block_head + 16) prev_block_head else m
      { s with mem := m, free_list_head := head }
  let m := wr32 s1.mem block_head (wrap32 (r.size_of_payload + 24))
  let m := wr32 m (block_head + 4) 1
  { s1 with mem := m }

/-- The function `smalloc`: the returned pointer, the status record written
through `status`, and the state after the call. -/
def smalloc (fuel : Nat) (s : State) (size_of_payload : Int) :
    Option (Nat × Malloc_Status × State) :=
  if size_of_payload < 0 then some (0, ⟨0, -1, -1⟩, s)
  else
    let block_padding := Int.tmod size_of_payload 8
    let size_of_payload :=
      if block_padding ≠ 0 then wrap32 (size_of_payload + wrap32 (8 - block_padding))
      else size_of_payload
    match smalloc_search s.mem fuel s.free_list_head size_of_payload 0 0 with
    | none => none
    | some r =>
      if r.free_block_found = false then some (0, ⟨0, -1, -1⟩, s)
      else
        some (padd r.block_head 24,
          ⟨1, wrap32 ((padd r.block_head 24 : Int) - (s.heap_address : Int)), r.hops⟩,
          smalloc_take s r)

/-! ## `sfree` -/

/-- The body of `if (ptr < traverse_block_head || traverse_block_head == NULL)`
in `sfree`: coalescing and the update of the free-list head. -/
def sfree_insert (s : State)
    (ptr_block_head prev_block_head next_block_head next_next_block_head
      traverse_block_head : Nat) : State :=
  let m := s.mem
  let left_coalesce : Bool :=
    decide (prev_block_head ≠ 0) && decide (rd32 m (prev_block_head + 4) = 0) &&
      decide (padd prev_block_head (rd32 m prev_block_head) = ptr_block_head)
  let right_coalesce : Bool :=
    decide (next_block_head ≠ 0) && decide (rd32 m (next_block_head + 4) = 0) &&
      decide (padd ptr_block_head (rd32 m ptr_block_head) = next_block_head)
  let full_coalesce : Bool := left_coalesce && right_coalesce
  let m : Mem :=
    if full_coalesce then
      let m := wr32 m prev_block_head
        (wrap32 (rd32 m prev_block_head +
          wrap32 (rd32 m ptr_block_head + rd32 m next_block_head)))
      let m := wr64 m (prev_block_head + 8) (rd64 m (next_block_head + 8))
      let m := if next_next_block_head ≠ 0 then
        wr64 m (next_next_block_head + 16) prev_block_head else m
      m
    else if right_coalesce then
      let m := wr32 m ptr_block_head
        (wrap32 (rd32 m ptr_block_head + rd32 m next_block_head))
      let m := wr64 m (ptr_block_head + 8) (rd64 m (next_block_head + 8))
      let m := if next_next_block_head ≠ 0 then
        wr64 m (next_next_block_head + 16) ptr_block_head else m
      let m := wr64 m (ptr_block_head + 16) prev_block_head
      let m := if prev_block_head ≠ 0 then
        wr64 m (prev_block_head + 8) ptr_block_head else m
      let m := wr32 m (ptr_block_head + 4) 0
      m
    else if left_coalesce then
      let m := wr32 m prev_block_head
        (wrap32 (rd32 m prev_block_head + rd32 m ptr_block_head))
      let m := wr64 m (prev_block_head + 8) next_block_head
      let m := if next_block_head ≠ 0 then
        wr64 m (next_block_head + 16) prev_block_head else m
      m
    else
      let m := if prev_block_head ≠ 0 then
        wr64 m (prev_block_head + 8) ptr_block_head else m
      let m := if next_block_head ≠ 0 then
        wr64 m (next_block_head + 16) ptr_block_head else m
      let m := wr64 m (ptr_block_head + 8) next_block_head
      let m := wr64 m (ptr_block_head + 16) prev_block_head
      let m := wr32 m (ptr_block_head + 4) 0
      m
  let head :=
    if traverse_block_head = s.free_list_head ∨ s.free_list_head = 0 then ptr_block_head
    else s.free_list_head
  { s with mem := m, free_list_head := head }

/-- The `while (1)` loop of `sfree`.  `next_block_head` is carried from one
iteration to the next; it is read only when `hops` is not zero. -/
def sfree_walk (s : State) (ptr : Nat) : Nat → Nat → Nat → Int → Option State
  | 0, _, _, _ => none
  | fuel + 1, traverse_block_head, next_block_head, hops =>
    let ptr_block_head := padd ptr (-24)
    let prev_block_head : Nat :=
      if traverse_block_head = 0 then (if hops = 0 then 0 else next_block_head)
      else (if traverse_block_head ≠ 0 then rd64 s.mem (traverse_block_head + 16) else 0)
    let next_block_head' : Nat :=
      if traverse_block_head = 0 then 0 else traverse_block_head
    let next_next_block_head : Nat :=
      if traverse_block_head = 0 then 0
      else (if next_block_head' ≠ 0 then rd64 s.mem (next_block_head' + 8) else 0)
    if ptr < traverse_block_head ∨ traverse_block_head = 0 then
      some (sfree_insert s ptr_block_head prev_block_head next_block_head'
        next_next_block_head traverse_block_head)
    else
      sfree_walk s ptr fuel next_next_block_head next_block_head' (wrap32 (hops + 1))

/-- The function `sfree`. -/
def sfree (fuel : Nat) (s : State) (ptr : Nat) : Option State :=
  if ptr = 0 ∨ ptr < s.heap_address ∨ ptr > padd s.heap_address s.heap_size then some s
  else sfree_walk s ptr fuel s.free_list_head 0 0

/-! ## Block-level description of a state -/

/-- A block of the arena: the address of its header, its total size and
whether it is free. -/
structure Blk where
  addr : Nat
  size : Nat
  free : Bool
deriving DecidableEq, Repr

/-- The blocks `bs` lie end to end from address `a` to address `e`; every size
is at least 24 and a multiple of 8. -/
def Tiles : Nat → List Blk → Nat → Prop
  | a, [], e => a = e
  | a, b :: bs, e => b.addr = a ∧ 24 ≤ b.size ∧ b.size % 8 = 0 ∧ Tiles (a + b.size) bs e

instance decTiles : (a : Nat) → (bs : List Blk) → (e : Nat) → Decidable (Tiles a bs e)
  | a, [], e => inferInstanceAs (Decidable (a = e))
  | a, b :: bs, e =>
    have := decTiles (a + b.size) bs e
    inferInstanceAs (Decidable (b.addr = a ∧ 24 ≤ b.size ∧ b.size % 8 = 0 ∧
      Tiles (a + b.size) bs e))

/-- The header stored at `b.addr` carries the size and the allocation flag of
`b`. -/
def HdrOK (m : Mem) (b : Blk) : Prop :=
  rd32 m b.addr = (b.size : Int) ∧ rd32 m (b.addr + 4) = if b.free then 0 else 1

/-- A doubly-linked segment: the `prev` field of the first entry is `p`, the
`next` field of the last entry is `q`, and neighbours point to each other. -/
def DL (m : Mem) : Nat → List Nat → Nat → Prop
  | _, [], _ => True
  | p, a :: rest, q => rd64 m (a + 16) = p ∧ rd64 m (a + 8) = rest.headD q ∧ DL m a rest q

instance decDL (m : Mem) : (p : Nat) → (fl : List Nat) → (q : Nat) → Decidable (DL m p fl q)
  | _, [], _ => inferInstanceAs (Decidable True)
  | p, a :: rest, q =>
    have := decDL m a rest q
    inferInstanceAs (Decidable (rd64 m (a + 16) = p ∧ rd64 m (a + 8) = rest.headD q ∧
      DL m a rest q))

instance decHdrOK (m : Mem) (b : Blk) : Decidable (HdrOK m b) :=
  inferInstanceAs (Decidable (rd32 m b.addr = (b.size : Int) ∧
    rd32 m (b.addr + 4) = if b.free then 0 else 1))

/-- The last entry of a list, or `d` when the list is empty. -/
def lastD : List Nat → Nat → Nat
  | [], d => d
  | a :: rest, _ => lastD rest a

/-- The addresses of the free blocks, in address order. -/
def freeAddrs (bs : List Blk) : List Nat := (bs.filter (fun b => b.free)).map (fun b => b.addr)

/-- The allocated blocks, in address order. -/
def allocBlks (bs : List Blk) : List Blk := bs.filter (fun b => !b.free)

/-- The structural invariant: the blocks `bs` tile the arena, their headers are
in memory, and the free list `fl` (in list order from `free_list_head`) is a
doubly-linked list of exactly the free blocks. -/
structure Inv (s : State) (bs : List Blk) (fl : List Nat) : Prop where
  base_pos : 0 < s.heap_address
  base_al : s.heap_address % 8 = 0
  size_nn : 0 ≤ s.heap_size
  size_lt : s.heap_size < 2147483648
  top : (s.heap_address : Int) + s.heap_size < 18446744073709551616
  tiles : Tiles s.heap_address bs (s.heap_address + s.heap_size.toNat)
  hdr : ∀ b ∈ bs, HdrOK s.mem b
  perm : fl.Perm (freeAddrs bs)
  head : s.free_list_head = fl.headD 0
  links : DL s.mem 0 fl 0

/-- No two blocks that are adjacent in address order are both free. -/
def NoAdjFree (bs : List Blk) : Prop :=
  List.Chain' (fun x y => ¬ (x.free = true ∧ y.free = true)) bs

/-- Well-formed state: the structural invariant with the free list in address
order, and no two adjacent free blocks. -/
def WF (s : State) (bs : List Blk) : Prop := Inv s bs (freeAddrs bs) ∧ NoAdjFree bs

/-! ## The free list as seen by the search loop -/

/-- The entries `fl` are reached from `h` along the `next` fields, ending at
`NULL`. -/
def NextChain (m : Mem) : Nat → List Nat → Prop
  | h, [] => h = 0
  | h, a :: rest => h = a ∧ a ≠ 0 ∧ NextChain m (rd64 m (a + 8)) rest

instance decNextChain (m : Mem) : (h : Nat) → (fl : List Nat) → Decidable (NextChain m h fl)
  | h, [] => inferInstanceAs (Decidable (h = 0))
  | h, a :: rest =>
    have := decNextChain m (rd64 m (a + 8)) rest
    inferInstanceAs (Decidable (h = a ∧ a ≠ 0 ∧ NextChain m (rd64 m (a + 8)) rest))

/-- The test of the search loop: a free block of size `free_block_size` is
taken for the rounded payload `size_of_payload`. -/
def fits (size_of_payload free_block_size : Int) : Bool :=
  let leftover := wrap32 (free_block_size - wrap32 (size_of_payload + 24))
  decide (0 ≤ leftover) && (decide (24 ≤ leftover) || decide (Int.tmod leftover 8 = 0))

/-- The request rounded up to a multiple of 8, as an integer. -/
def roundUp8 (n : Int) : Int := (n + 7) / 8 * 8

/-! ## The outcome of a successful search, at block level -/

/-- The locals of `smalloc` after its loop stopped at the block `B` of size `F`
with `hops` entries before it, for the request `n`. -/
def found (n : Int) (F B hops : Nat) : SearchState :=
  if 24 ≤ (F : Int) - roundUp8 n - 24 then
    ⟨true, true, hops, (F : Int) - roundUp8 n - 24, B, roundUp8 n⟩
  else
    ⟨true, false, hops, (F : Int) - roundUp8 n - 24, B, (F : Int) - 24⟩

/-- The blocks after the free block `⟨B, F, true⟩` between `xs` and `ys` was
taken for a rounded payload of `P` bytes. -/
def takeBlocks (xs ys : List Blk) (B F P : Nat) : List Blk :=
  if 24 ≤ F - (P + 24) then
    xs ++ ⟨B, P + 24, false⟩ :: ⟨B + 24 + P, F - (P + 24), true⟩ :: ys
  else
    xs ++ ⟨B, F, false⟩ :: ys

/-- The free list after the entry `B` of size `F` between `pre` and `post` was
taken for a rounded payload of `P` bytes. -/
def takeFree (pre post : List Nat) (B F P : Nat) : List Nat :=
  if 24 ≤ F - (P + 24) then pre ++ (B + 24 + P) :: post else pre ++ post

/-! ## Initialisation -/

/-- What the operating system guarantees when `mmap` succeeds for `length`
bytes: the length is positive and the region returned is not `MAP_FAILED`, is
page aligned, does not start at `NULL` and ends below `2^64`. -/
def MmapOK (mmap_result : Nat) (length : Int) : Prop :=
  mmap_result ≠ MAP_FAILED ∧ 0 < mmap_result ∧ mmap_result % 4096 = 0 ∧ 0 < length ∧
    (mmap_result : Int) + length < 18446744073709551616

instance decMmapOK (mmap_result : Nat) (length : Int) : Decidable (MmapOK mmap_result length) :=
  inferInstanceAs (Decidable (mmap_result ≠ MAP_FAILED ∧ 0 < mmap_result ∧
    mmap_result % 4096 = 0 ∧ 0 < length ∧ (mmap_result : Int) + length < 18446744073709551616))

/-- The value of an `int`. -/
def IsInt32 (n : Int) : Prop := -2147483648 ≤ n ∧ n < 2147483648

instance decIsInt32 (n : Int) : Decidable (IsInt32 n) :=
  inferInstanceAs (Decidable (-2147483648 ≤ n ∧ n < 2147483648))

/-! ## Separated header addresses -/

/-- Two header addresses that are at least 24 bytes apart. -/
def Far (x a : Nat) : Prop := x + 24 ≤ a ∨ a + 24 ≤ x

instance decFar (x a : Nat) : Decidable (Far x a) :=
  inferInstanceAs (Decidable (x + 24 ≤ a ∨ a + 24 ≤ x))

/-- The payload addresses of the allocated blocks. -/
def payloads (bs : List Blk) : List Nat := (allocBlks bs).map (fun b => b.addr + 24)

/-! ## Reachable states -/

/-- The blocks met when walking from address `a` up to address `e` by the size
fields stored in memory. -/
def walkBlocks (m : Mem) : Nat → Nat → Nat → List Blk
  | 0, _, _ => []
  | fuel + 1, a, e =>
    if a < e then
      ⟨a, (rd32 m a).toNat, decide (rd32 m (a + 4) = 0)⟩ ::
        walkBlocks m fuel (a + (rd32 m a).toNat) e
    else []

/-- The blocks of the arena of `s`, read from memory by walking from
`heap_address` by the size fields. -/
def blocksOf (s : State) : List Blk :=
  walkBlocks s.mem s.heap_size.toNat s.heap_address (s.heap_address + s.heap_size.toNat)

/-- The states reached from a successful `my_init` by calls of `smalloc` (any
`int` request) and of `sfree`, each `sfree` given `NULL`, an address outside
the arena, or the payload address of a block that is allocated at that
moment. -/
inductive Reachable : State → Prop
  | init (mmap_result : Nat) (size_of_region : Int) (s0 : State) :
      IsInt32 size_of_region →
      MmapOK mmap_result (my_init mmap_result size_of_region s0).2.heap_size →
      Reachable (my_init mmap_result size_of_region s0).2
  | alloc (s : State) (n : Int) (fuel : Nat) (r : Nat × Malloc_Status × State) :
      Reachable s → IsInt32 n → smalloc fuel s n = some r → Reachable r.2.2
  | release_outside (s : State) (ptr fuel : Nat) (s' : State) :
      Reachable s →
      (ptr = 0 ∨ ptr < s.heap_address ∨ s.heap_address + s.heap_size.toNat < ptr) →
      sfree fuel s ptr = some s' → Reachable s'
  | release (s : State) (b : Blk) (fuel : Nat) (s' : State) :
      Reachable s → b ∈ blocksOf s → b.free = false →
      sfree fuel s (b.addr + 24) = some s' → Reachable s'

/-! ## Concrete states -/

/-- A state before initialisation. -/
def arena0 : State := ⟨fun _ => 0, 0, 0, 0⟩

/-- A fresh arena of 4096 bytes mapped at address 4096. -/
def fresh : State := (my_init 4096 4096 arena0).2

/-- The fresh arena after `smalloc(100)`. -/
def afterS1 : State := smalloc_take fresh (found 100 4096 4096 0)

/-- The fresh arena after `smalloc(100)` and `smalloc(3944)`. -/
def afterS2 : State := smalloc_take afterS1 (found 3944 3968 4224 0)

/-- The fresh arena after `smalloc(0)`: a 24-byte allocated block at offset 0
followed by a free block. -/
def afterZero : State := smalloc_take fresh (found 0 4096 4096 0)

/-- The fresh arena after one `smalloc(40)`. -/
def afterA : State := smalloc_take fresh (found 40 4096 4096 0)

/-- The fresh arena after two `smalloc(40)`. -/
def afterB : State := smalloc_take afterA (found 40 4032 4160 0)

/-- The fresh arena after three `smalloc(40)`. -/
def afterC : State := smalloc_take afterB (found 40 3968 4224 0)

/-- An arena whose free list is empty. -/
def exhausted : State := { fresh with free_list_head := 0 }

/-! ## Memory lemmas -/

theorem rdBytes_congr (m m' : Mem) (k : Nat) : ∀ a : Nat,
    (∀ x, a ≤ x → x < a + k → m x = m' x) → rdBytes m a k = rdBytes m' a k := by
  induction k with
  | zero => intro a _; rfl
  | succ k ih =>
    intro a h
    simp only [rdBytes]
    rw [h a (le_refl a) (by omega), ih (a + 1) (fun x h1 h2 => h x (by omega) (by omega))]

theorem rdBytes_lt (m : Mem) (k : Nat) : ∀ a : Nat, rdBytes m a k < 256 ^ k := by
  induction k with
  | zero => intro a; simp [rdBytes]
  | succ k ih =>
    intro a
    have h1 := ih (a + 1)
    have h2 : m a % 256 < 256 := Nat.mod_lt _ (by norm_num)
    simp only [rdBytes, pow_succ]
    omega

theorem rdBytes_wrBytes_disj (m : Mem) (a k v b j : Nat) (h : b + j ≤ a ∨ a + k ≤ b) :
    rdBytes (wrBytes m a k v) b j = rdBytes m b j := by
  apply rdBytes_congr
  intro x h1 h2
  have : ¬ (a ≤ x ∧ x < a + k) := by omega
  simp [wrBytes, this]

theorem rdBytes_wrBytes_same (m : Mem) (k : Nat) : ∀ a v : Nat,
    rdBytes (wrBytes m a k v) a k = v % 256 ^ k := by
  induction k with
  | zero => intro a v; simp [rdBytes, Nat.mod_one]
  | succ k ih =>
    intro a v
    have h1 : rdBytes (wrBytes m a (k + 1) v) (a + 1) k
        = rdBytes (wrBytes m (a + 1) k (v / 256)) (a + 1) k := by
      apply rdBytes_congr
      intro x hx1 hx2
      have e1 : a ≤ x ∧ x < a + (k + 1) := by omega
      have e2 : a + 1 ≤ x ∧ x < a + 1 + k := by omega
      have e3 : x - a = (x - (a + 1)) + 1 := by omega
      simp only [wrBytes, e1, e2, and_self, if_true]
      rw [e3, pow_succ, Nat.mul_comm, ← Nat.div_div_eq_div_mul]
    have h0 : wrBytes m a (k + 1) v a = v % 256 := by
      simp [wrBytes]
    simp only [rdBytes]
    rw [h1, ih, h0, Nat.mod_mod, pow_succ]
    rw [Nat.mul_comm (256 ^ k) 256, Nat.mod_mul]


theorem wrap32_range (x : Int) : -2147483648 ≤ wrap32 x ∧ wrap32 x < 2147483648 := by
  unfold wrap32; omega

theorem wrap32_id (x : Int) (h1 : -2147483648 ≤ x) (h2 : x < 2147483648) : wrap32 x = x := by
  unfold wrap32; omega

theorem rd32_range (m : Mem) (a : Nat) : -2147483648 ≤ rd32 m a ∧ rd32 m a < 2147483648 :=
  wrap32_range _

theorem rd64_lt (m : Mem) (a : Nat) : rd64 m a < 18446744073709551616 := by
  have := rdBytes_lt m 8 a
  simpa [rd64] using this

@[simp] theorem rd32_wr32_same (m : Mem) (a : Nat) (v : Int) :
    rd32 (wr32 m a v) a = wrap32 v := by
  unfold rd32 wr32
  rw [rdBytes_wrBytes_same]
  unfold wrap32
  have h : (256 : Nat) ^ 4 = 4294967296 := by norm_num
  rw [h]
  omega

@[simp] theorem rd32_wr32_disj (m : Mem) (a b : Nat) (v : Int) (h : b + 4 ≤ a ∨ a + 4 ≤ b) :
    rd32 (wr32 m a v) b = rd32 m b := by
  unfold rd32 wr32
  rw [rdBytes_wrBytes_disj _ _ _ _ _ _ h]

@[simp] theorem rd32_wr64_disj (m : Mem) (a b : Nat) (v : Nat) (h : b + 4 ≤ a ∨ a + 8 ≤ b) :
    rd32 (wr64 m a v) b = rd32 m b := by
  unfold rd32 wr64
  rw [rdBytes_wrBytes_disj _ _ _ _ _ _ h]

@[simp] theorem rd64_wr64_same (m : Mem) (a : Nat) (v : Nat) :
    rd64 (wr64 m a v) a = v % 18446744073709551616 := by
  unfold rd64 wr64
  rw [rdBytes_wrBytes_same]
  norm_num

@[simp] theorem rd64_wr64_disj (m : Mem) (a b : Nat) (v : Nat) (h : b + 8 ≤ a ∨ a + 8 ≤ b) :
    rd64 (wr64 m a v) b = rd64 m b := by
  unfold rd64 wr64
  rw [rdBytes_wrBytes_disj _ _ _ _ _ _ h]

@[simp] theorem rd64_wr32_disj (m : Mem) (a b : Nat) (v : Int) (h : b + 8 ≤ a ∨ a + 4 ≤ b) :
    rd64 (wr32 m a v) b = rd64 m b := by
  unfold rd64 wr32
  rw [rdBytes_wrBytes_disj _ _ _ _ _ _ h]

theorem padd_eq (p : Nat) (i : Int) (h1 : 0 ≤ (p : Int) + i)
    (h2 : (p : Int) + i < 18446744073709551616) : (padd p i : Int) = (p : Int) + i := by
  unfold padd; omega

/-! ## Failing allocations -/

/-- C1: whenever `smalloc` reports failure (`success = 0`) it returns `NULL`,
the status is `success = 0`, `payload_offset = -1`, `hops = -1`, and the state
(memory and globals) is the state before the call; and for every negative
request `smalloc` returns in this way, for every state and every fuel. -/
theorem smalloc_failure (fuel : Nat) (s : State) (n : Int) :
    (∀ r, smalloc fuel s n = some r → r.2.1.success = 0 →
      r.1 = 0 ∧ r.2.1 = ⟨0, -1, -1⟩ ∧ r.2.2 = s) ∧
    (n < 0 → smalloc fuel s n = some (0, ⟨0, -1, -1⟩, s)) := by
  constructor
  · intro r hr hs
    unfold smalloc at hr
    split at hr
    · cases hr; exact ⟨rfl, rfl, rfl⟩
    · simp only at hr
      split at hr
      · cases hr
      · split at hr
        · cases hr; exact ⟨rfl, rfl, rfl⟩
        · cases hr; simp at hs
  · intro hn
    simp [smalloc, hn]

/-- Witness for C1: a negative request on the fresh arena, and a request on an
arena whose free list is empty. -/
theorem smalloc_failure_witness :
    smalloc 1 fresh (-1) = some (0, ⟨0, -1, -1⟩, fresh) ∧
    ((smalloc 1 exhausted 8).map (fun r => (r.1, r.2.1)) = some (0, ⟨0, -1, -1⟩)) ∧
    ((0 : Nat), (⟨0, -1, -1⟩ : Malloc_Status), exhausted).2.2 = exhausted :=
  ⟨(smalloc_failure 1 fresh (-1)).2 (by decide), by decide,
    ((smalloc_failure 1 exhausted 8).1 (0, ⟨0, -1, -1⟩, exhausted) (by rfl) (by rfl)).2.2⟩

/-! ## The search loop -/

theorem search_none (m : Mem) (P : Int) (fl : List Nat) : ∀ (h : Nat) (fuel : Nat) (hops lo : Int),
    NextChain m h fl → (∀ a ∈ fl, fits P (rd32 m a) = false) → fl.length < fuel →
    ∃ r, smalloc_search m fuel h P hops lo = some r ∧ r.free_block_found = false := by
  induction fl with
  | nil =>
    intro h fuel hops lo hc _ hf
    simp only [NextChain] at hc
    obtain ⟨k, rfl⟩ : ∃ k, fuel = k + 1 := ⟨fuel - 1, by simp at hf; omega⟩
    subst hc
    exact ⟨⟨false, false, hops, lo, 0, P⟩, by simp [smalloc_search], rfl⟩
  | cons a rest ih =>
    intro h fuel hops lo hc hfit hf
    obtain ⟨rfl, ha0, hc'⟩ := hc
    obtain ⟨k, rfl⟩ : ∃ k, fuel = k + 1 := ⟨fuel - 1, by simp at hf; omega⟩
    have hfa := hfit h (List.mem_cons_self _ _)
    have hrest : ∀ x ∈ rest, fits P (rd32 m x) = false :=
      fun x hx => hfit x (List.mem_cons_of_mem _ hx)
    have hk : rest.length < k := by simp at hf; omega
    simp only [fits, Bool.and_eq_false_iff, Bool.or_eq_false_iff, decide_eq_false_iff_not] at hfa
    unfold smalloc_search
    simp only [ha0, if_false]
    by_cases h1 : wrap32 (rd32 m h - wrap32 (P + 24)) ≥ 0
    · have h2 : wrap32 (rd32 m h - wrap32 (P + 24)) < 24 := by
        rcases hfa with hfa | hfa
        · exact absurd h1 hfa
        · omega
      have h3 : ¬ Int.tmod (wrap32 (rd32 m h - wrap32 (P + 24))) 8 = 0 := by
        rcases hfa with hfa | hfa
        · exact absurd h1 hfa
        · exact hfa.2
      simp only [h1, h2, h3, if_true, if_false]
      exact ih _ k _ _ hc' hrest hk
    · simp only [h1, if_false]
      exact ih _ k _ _ hc' hrest hk

theorem search_found (m : Mem) (P : Int) (B : Nat) (post : List Nat) (pre : List Nat) :
    ∀ (h : Nat) (fuel : Nat) (hops lo : Int),
    NextChain m h (pre ++ B :: post) → (∀ a ∈ pre, fits P (rd32 m a) = false) →
    fits P (rd32 m B) = true → pre.length < fuel →
    0 ≤ hops → hops + pre.length < 2147483648 →
    smalloc_search m fuel h P hops lo =
      some ⟨true, decide (24 ≤ wrap32 (rd32 m B - wrap32 (P + 24))), hops + pre.length,
        wrap32 (rd32 m B - wrap32 (P + 24)), B,
        if 24 ≤ wrap32 (rd32 m B - wrap32 (P + 24)) then P
        else wrap32 (P + wrap32 (rd32 m B - wrap32 (P + 24)))⟩ := by
  induction pre with
  | nil =>
    intro h fuel hops lo hc _ hB hf _ _
    obtain ⟨rfl, ha0, _⟩ := hc
    obtain ⟨k, rfl⟩ : ∃ k, fuel = k + 1 := ⟨fuel - 1, by simp at hf; omega⟩
    simp only [fits, Bool.and_eq_true, Bool.or_eq_true, decide_eq_true_eq] at hB
    unfold smalloc_search
    simp only [ha0, if_false]
    have h1 : wrap32 (rd32 m h - wrap32 (P + 24)) ≥ 0 := hB.1
    by_cases h2 : wrap32 (rd32 m h - wrap32 (P + 24)) < 24
    · have h3 : Int.tmod (wrap32 (rd32 m h - wrap32 (P + 24))) 8 = 0 := by
        rcases hB.2 with h | h
        · omega
        · exact h
      have h4 : ¬ 24 ≤ wrap32 (rd32 m h - wrap32 (P + 24)) := by omega
      simp [h1, h2, h3, h4]
    · have h4 : 24 ≤ wrap32 (rd32 m h - wrap32 (P + 24)) := by omega
      simp [h1, h2, h4]
  | cons a rest ih =>
    intro h fuel hops lo hc hfit hB hf hh0 hh1
    obtain ⟨rfl, ha0, hc'⟩ := hc
    obtain ⟨k, rfl⟩ : ∃ k, fuel = k + 1 := ⟨fuel - 1, by simp at hf; omega⟩
    have hfa := hfit h (List.mem_cons_self _ _)
    have hrest : ∀ x ∈ rest, fits P (rd32 m x) = false :=
      fun x hx => hfit x (List.mem_cons_of_mem _ hx)
    have hk : rest.length < k := by simp at hf; omega
    simp only [List.length_cons, Nat.cast_add, Nat.cast_one] at hh1
    have hw : wrap32 (hops + 1) = hops + 1 := wrap32_id _ (by omega) (by omega)
    have hrec := ih _ k (hops + 1) (wrap32 (rd32 m h - wrap32 (P + 24))) hc' hrest hB hk
      (by omega) (by omega)
    have e : hops + 1 + (rest.length : Int) = hops + ((rest.length : Int) + 1) := by ring
    simp only [fits, Bool.and_eq_false_iff, Bool.or_eq_false_iff, decide_eq_false_iff_not] at hfa
    rw [smalloc_search]
    simp only [ha0, if_false, hw, List.length_cons, Nat.cast_add, Nat.cast_one]
    by_cases h1 : wrap32 (rd32 m h - wrap32 (P + 24)) ≥ 0
    · have h2 : wrap32 (rd32 m h - wrap32 (P + 24)) < 24 := by
        rcases hfa with hfa | hfa
        · exact absurd h1 hfa
        · omega
      have h3 : ¬ Int.tmod (wrap32 (rd32 m h - wrap32 (P + 24))) 8 = 0 := by
        rcases hfa with hfa | hfa
        · exact absurd h1 hfa
        · exact hfa.2
      simp only [h1, h2, h3, if_true, if_false]
      rw [hrec, e]
    · simp only [h1, if_false]
      rw [hrec, e]

theorem round_code (n : Int) (h0 : 0 ≤ n) :
    (if Int.tmod n 8 ≠ 0 then wrap32 (n + wrap32 (8 - Int.tmod n 8)) else n)
      = if n % 8 ≠ 0 then wrap32 (roundUp8 n) else roundUp8 n := by
  rw [Int.tmod_eq_emod h0 (by norm_num)]
  unfold roundUp8 wrap32
  split <;> omega

theorem fits_eq (n F : Int) (h0 : 0 ≤ n) (h1 : n < 2147483648)
    (hF0 : 24 ≤ F) (hF1 : F < 2147483648) (hF8 : F % 8 = 0) (P : Int)
    (hP : P = if n % 8 ≠ 0 then wrap32 (roundUp8 n) else roundUp8 n) :
    fits P F = decide (roundUp8 n + 24 ≤ F) ∧
    (roundUp8 n + 24 ≤ F → wrap32 (F - wrap32 (P + 24)) = F - roundUp8 n - 24 ∧ P = roundUp8 n) := by
  have key : (roundUp8 n + 24 ≤ F → wrap32 (F - wrap32 (P + 24)) = F - roundUp8 n - 24
      ∧ P = roundUp8 n) ∧ (¬ roundUp8 n + 24 ≤ F → wrap32 (F - wrap32 (P + 24)) < 0) := by
    subst hP
    unfold roundUp8 wrap32
    split <;> omega
  refine ⟨?_, key.1⟩
  by_cases h : roundUp8 n + 24 ≤ F
  · have e := (key.1 h).1
    have e8 : Int.tmod (F - roundUp8 n - 24) 8 = 0 := by
      rw [Int.tmod_eq_emod (by omega) (by norm_num)]
      unfold roundUp8; omega
    simp only [fits, e, e8, h, decide_True, Bool.or_true, Bool.and_true, decide_eq_true_eq]
    omega
  · have e := key.2 h
    have : ¬ (0 ≤ wrap32 (F - wrap32 (P + 24))) := by omega
    simp [fits, this, h]

theorem first_split {α : Type} (p : α → Prop) [DecidablePred p] (l : List α)
    (h : ∃ a ∈ l, p a) :
    ∃ pre B post, l = pre ++ B :: post ∧ (∀ a ∈ pre, ¬ p a) ∧ p B := by
  induction l with
  | nil => simp at h
  | cons x xs ih =>
    by_cases hx : p x
    · exact ⟨[], x, xs, rfl, by simp, hx⟩
    · have h' : ∃ a ∈ xs, p a := by
        obtain ⟨a, ha, hpa⟩ := h
        rcases List.mem_cons.1 ha with rfl | ha
        · exact absurd hpa hx
        · exact ⟨a, ha, hpa⟩
      obtain ⟨pre, B, post, e, h1, h2⟩ := ih h'
      refine ⟨x :: pre, B, post, by simp [e], ?_, h2⟩
      intro a ha
      rcases List.mem_cons.1 ha with rfl | ha
      · exact hx
      · exact h1 a ha

/-- C2: in a state whose free list is a chain of blocks of the arena (fewer
than `2^31` entries, every size a multiple of 8 and, holding a header, at least
24: see `reach_free_list`), a request `0 ≤ n` of type `int` succeeds iff some
free-list entry has size at least `P + 24`, where `P` is `n` rounded up to a
multiple of 8; on success the chosen block is the first such entry in list
order, `hops` is the number of entries before it, and `hops = 0` iff the entry
at `free_list_head` itself has size at least `P + 24`. -/
theorem first_fit (s : State) (fl : List Nat) (n : Int)
    (hchain : NextChain s.mem s.free_list_head fl)
    (hlen : fl.length < 2147483648)
    (hsz : ∀ a ∈ fl, 24 ≤ rd32 s.mem a ∧ rd32 s.mem a % 8 = 0)
    (hn0 : 0 ≤ n) (hn1 : n < 2147483648) :
    ∃ r, (∀ fuel, fl.length < fuel → smalloc fuel s n = some r) ∧
      (r.2.1.success = 1 ∨ r.2.1.success = 0) ∧
      (r.2.1.success = 1 ↔ ∃ a ∈ fl, roundUp8 n + 24 ≤ rd32 s.mem a) ∧
      (r.2.1.success = 1 → ∃ pre B post, fl = pre ++ B :: post ∧
        (∀ a ∈ pre, rd32 s.mem a < roundUp8 n + 24) ∧ roundUp8 n + 24 ≤ rd32 s.mem B ∧
        r.1 = padd B 24 ∧ r.2.1.hops = pre.length ∧ 0 ≤ r.2.1.hops) ∧
      (r.2.1.hops = 0 ↔ ∃ B post, fl = B :: post ∧ s.free_list_head = B ∧
        roundUp8 n + 24 ≤ rd32 s.mem B) := by
  have hfit : ∀ a ∈ fl, fits (if n % 8 ≠ 0 then wrap32 (roundUp8 n) else roundUp8 n)
      (rd32 s.mem a) = decide (roundUp8 n + 24 ≤ rd32 s.mem a) := fun a ha =>
    (fits_eq n _ hn0 hn1 (hsz a ha).1 (rd32_range _ _).2 (hsz a ha).2 _ rfl).1
  have hnn : ¬ n < 0 := by omega
  by_cases hex : ∃ a ∈ fl, roundUp8 n + 24 ≤ rd32 s.mem a
  · obtain ⟨pre, B, post, e, hpre, hB⟩ := first_split (fun a => roundUp8 n + 24 ≤ rd32 s.mem a) fl hex
    have hBmem : B ∈ fl := by rw [e]; simp
    have hpremem : ∀ a ∈ pre, a ∈ fl := fun a ha => by rw [e]; simp [ha]
    have hlenpre : pre.length ≤ fl.length := by rw [e]; simp
    have hsearch := fun fuel (hf : fl.length < fuel) =>
      search_found s.mem (if n % 8 ≠ 0 then wrap32 (roundUp8 n) else roundUp8 n) B post pre
        s.free_list_head fuel 0 0 (e ▸ hchain)
        (fun a ha => by rw [hfit a (hpremem a ha)]; simpa using hpre a ha)
        (by rw [hfit B hBmem]; simpa using hB) (by omega) (le_refl _)
        (by have : (pre.length : Int) ≤ (fl.length : Int) := by exact_mod_cast hlenpre
            omega)
    refine ⟨(padd B 24, ⟨1, wrap32 ((padd B 24 : Int) - (s.heap_address : Int)), pre.length⟩,
      smalloc_take s ⟨true, decide (24 ≤ wrap32 (rd32 s.mem B - wrap32 ((if n % 8 ≠ 0 then
        wrap32 (roundUp8 n) else roundUp8 n) + 24))), pre.length,
        wrap32 (rd32 s.mem B - wrap32 ((if n % 8 ≠ 0 then
        wrap32 (roundUp8 n) else roundUp8 n) + 24)), B,
        if 24 ≤ wrap32 (rd32 s.mem B - wrap32 ((if n % 8 ≠ 0 then
        wrap32 (roundUp8 n) else roundUp8 n) + 24)) then
          (if n % 8 ≠ 0 then wrap32 (roundUp8 n) else roundUp8 n)
        else wrap32 ((if n % 8 ≠ 0 then wrap32 (roundUp8 n) else roundUp8 n) +
          wrap32 (rd32 s.mem B - wrap32 ((if n % 8 ≠ 0 then
        wrap32 (roundUp8 n) else roundUp8 n) + 24)))⟩), ?_, Or.inl rfl, ?_, ?_, ?_⟩
    · intro fuel hf
      unfold smalloc
      simp only [hnn, if_false]
      rw [round_code n hn0, hsearch fuel hf]
      simp
    · simp only [true_iff]; exact hex
    · intro _
      exact ⟨pre, B, post, e, fun a ha => by have := hpre a ha; omega, hB, rfl, rfl, by simp⟩
    · simp only
      constructor
      · intro h0
        have : pre = [] := by
          have : pre.length = 0 := by exact_mod_cast h0
          exact List.length_eq_zero.1 this
        subst this
        simp only [List.nil_append] at e
        subst e
        exact ⟨B, post, rfl, hchain.1, hB⟩
      · rintro ⟨B', post', e', _, hB'⟩
        cases pre with
        | nil => simp
        | cons x xs =>
          simp only [List.cons_append] at e
          rw [e'] at e
          injection e with e1 e2
          subst e1
          exact absurd hB' (hpre B' (List.mem_cons_self _ _))
  · have hnone : ∀ a ∈ fl, fits (if n % 8 ≠ 0 then wrap32 (roundUp8 n) else roundUp8 n)
        (rd32 s.mem a) = false := fun a ha => by
      rw [hfit a ha]; simp only [decide_eq_false_iff_not]; exact fun h => hex ⟨a, ha, h⟩
    refine ⟨(0, ⟨0, -1, -1⟩, s), ?_, Or.inr rfl, ?_, ?_, ?_⟩
    · intro fuel hf
      obtain ⟨r, hr, hr2⟩ := search_none s.mem _ fl s.free_list_head fuel 0 0 hchain hnone hf
      unfold smalloc
      simp only [hnn, if_false]
      rw [round_code n hn0, hr]
      simp [hr2]
    · simp only [show ¬ ((0 : Int) = 1) by decide, false_iff]; exact hex
    · intro h; simp at h
    · simp only [show ¬ ((-1 : Int) = 0) by decide, false_iff]
      rintro ⟨B, post, e, _, hB⟩
      exact hex ⟨B, by rw [e]; simp, hB⟩

/-- Witness for C2: `smalloc(100)` on the fresh arena, whose free list is the
single block at address 4096. -/
theorem first_fit_witness :
    ∃ r, (∀ fuel, [4096].length < fuel → smalloc fuel fresh 100 = some r) ∧
      (r.2.1.success = 1 ∨ r.2.1.success = 0) ∧
      (r.2.1.success = 1 ↔ ∃ a ∈ [4096], roundUp8 100 + 24 ≤ rd32 fresh.mem a) ∧
      (r.2.1.success = 1 → ∃ pre B post, [4096] = pre ++ B :: post ∧
        (∀ a ∈ pre, rd32 fresh.mem a < roundUp8 100 + 24) ∧
        roundUp8 100 + 24 ≤ rd32 fresh.mem B ∧
        r.1 = padd B 24 ∧ r.2.1.hops = pre.length ∧ 0 ≤ r.2.1.hops) ∧
      (r.2.1.hops = 0 ↔ ∃ B post, [4096] = B :: post ∧ fresh.free_list_head = B ∧
        roundUp8 100 + 24 ≤ rd32 fresh.mem B) :=
  first_fit fresh [4096] 100 (by decide) (by decide) (by decide)
    (by decide) (by decide)

/-! ## Tilings -/

theorem Tiles_append (xs ys : List Blk) : ∀ (a e : Nat),
    Tiles a (xs ++ ys) e ↔ ∃ mid, Tiles a xs mid ∧ Tiles mid ys e := by
  induction xs with
  | nil => intro a e; simp [Tiles]
  | cons x xs ih =>
    intro a e
    rw [List.cons_append]
    constructor
    · rintro ⟨h1, h2, h3, h4⟩
      obtain ⟨mid, h5, h6⟩ := (ih _ _).1 h4
      exact ⟨mid, ⟨h1, h2, h3, h5⟩, h6⟩
    · rintro ⟨mid, ⟨h1, h2, h3, h4⟩, h5⟩
      exact ⟨h1, h2, h3, (ih _ _).2 ⟨mid, h4, h5⟩⟩

theorem Tiles_le (bs : List Blk) : ∀ (a e : Nat), Tiles a bs e → a ≤ e := by
  induction bs with
  | nil => intro a e h; simp only [Tiles] at h; omega
  | cons b bs ih =>
    intro a e h
    obtain ⟨_, _, _, h4⟩ := h
    have := ih _ _ h4
    omega

theorem Tiles_mem (bs : List Blk) : ∀ (a e : Nat), Tiles a bs e → ∀ b ∈ bs,
    a ≤ b.addr ∧ b.addr + b.size ≤ e ∧ 24 ≤ b.size ∧ b.size % 8 = 0 := by
  induction bs with
  | nil => intro a e _ b hb; simp at hb
  | cons x xs ih =>
    intro a e h b hb
    obtain ⟨h1, h2, h3, h4⟩ := h
    rcases List.mem_cons.1 hb with rfl | hb
    · have := Tiles_le _ _ _ h4
      exact ⟨by omega, by omega, h2, h3⟩
    · have := ih _ _ h4 b hb
      exact ⟨by omega, this.2.1, this.2.2.1, this.2.2.2⟩

theorem Tiles_split (xs ys : List Blk) (b : Blk) (a e : Nat)
    (h : Tiles a (xs ++ b :: ys) e) :
    Tiles a xs b.addr ∧ 24 ≤ b.size ∧ b.size % 8 = 0 ∧ Tiles (b.addr + b.size) ys e ∧
    a ≤ b.addr ∧ b.addr + b.size ≤ e ∧
    (∀ x ∈ xs, x.addr + x.size ≤ b.addr ∧ 24 ≤ x.size ∧ a ≤ x.addr) ∧
    (∀ y ∈ ys, b.addr + b.size ≤ y.addr ∧ 24 ≤ y.size ∧ y.addr + y.size ≤ e) := by
  obtain ⟨mid, h1, h2⟩ := (Tiles_append _ _ _ _).1 h
  obtain ⟨h3, h4, h5, h6⟩ := h2
  subst h3
  have l1 := Tiles_le _ _ _ h1
  have l2 := Tiles_le _ _ _ h6
  refine ⟨h1, h4, h5, h6, l1, by omega, ?_, ?_⟩
  · intro x hx
    have := Tiles_mem _ _ _ h1 x hx
    exact ⟨this.2.1, this.2.2.1, this.1⟩
  · intro y hy
    have := Tiles_mem _ _ _ h6 y hy
    exact ⟨this.1, this.2.2.1, this.2.1⟩

theorem Tiles_join (xs ys : List Blk) (b : Blk) (a e : Nat)
    (h1 : Tiles a xs b.addr) (h2 : 24 ≤ b.size) (h3 : b.size % 8 = 0)
    (h4 : Tiles (b.addr + b.size) ys e) : Tiles a (xs ++ b :: ys) e :=
  (Tiles_append _ _ _ _).2 ⟨b.addr, h1, rfl, h2, h3, h4⟩

theorem Tiles_snoc (xs : List Blk) (b : Blk) (a e : Nat) :
    Tiles a (xs ++ [b]) e ↔ Tiles a xs b.addr ∧ 24 ≤ b.size ∧ b.size % 8 = 0 ∧
      b.addr + b.size = e := by
  rw [Tiles_append]
  simp only [Tiles]
  constructor
  · rintro ⟨mid, h1, h2, h3, h4, h5⟩
    subst h2
    exact ⟨h1, h3, h4, h5⟩
  · rintro ⟨h1, h3, h4, h5⟩
    exact ⟨b.addr, h1, rfl, h3, h4, h5⟩

/-! ## Free addresses -/

theorem freeAddrs_append (xs ys : List Blk) :
    freeAddrs (xs ++ ys) = freeAddrs xs ++ freeAddrs ys := by
  simp [freeAddrs]

theorem freeAddrs_cons (b : Blk) (bs : List Blk) :
    freeAddrs (b :: bs) = if b.free = true then b.addr :: freeAddrs bs else freeAddrs bs := by
  unfold freeAddrs
  by_cases h : b.free = true <;> simp [List.filter_cons, h]

theorem mem_freeAddrs (bs : List Blk) (a : Nat) :
    a ∈ freeAddrs bs ↔ ∃ b ∈ bs, b.free = true ∧ b.addr = a := by
  simp [freeAddrs, and_assoc]

theorem freeAddrs_lt (bs : List Blk) (a e : Nat) (h : Tiles a bs e) :
    ∀ x ∈ freeAddrs bs, a ≤ x ∧ x + 24 ≤ e := by
  intro x hx
  obtain ⟨b, hb, _, rfl⟩ := (mem_freeAddrs _ _).1 hx
  have := Tiles_mem _ _ _ h b hb
  omega

theorem freeAddrs_sorted (bs : List Blk) : ∀ (a e : Nat), Tiles a bs e →
    (freeAddrs bs).Pairwise (fun x y => x + 24 ≤ y) := by
  induction bs with
  | nil => intro a e _; simp [freeAddrs]
  | cons b bs ih =>
    intro a e h
    obtain ⟨h1, h2, h3, h4⟩ := h
    rw [freeAddrs_cons]
    have hrest := ih _ _ h4
    split
    · refine List.pairwise_cons.2 ⟨?_, hrest⟩
      intro y hy
      have := freeAddrs_lt _ _ _ h4 y hy
      omega
    · exact hrest

theorem freeAddrs_nodup (bs : List Blk) (a e : Nat) (h : Tiles a bs e) :
    (freeAddrs bs).Nodup :=
  (freeAddrs_sorted bs a e h).imp (fun {x y} (hxy : x + 24 ≤ y) => by omega)

/-! ## Doubly-linked segments -/

theorem lastD_mem (fl : List Nat) : ∀ d, fl ≠ [] → lastD fl d ∈ fl := by
  induction fl with
  | nil => intro d h; exact absurd rfl h
  | cons x xs ih =>
    intro d _
    cases xs with
    | nil => simp [lastD]
    | cons y ys =>
      have := ih x (by simp)
      simp only [lastD] at this ⊢
      exact List.mem_cons_of_mem _ this

theorem lastD_append_cons (xs : List Nat) (y : Nat) (ys : List Nat) : ∀ d,
    lastD (xs ++ y :: ys) d = lastD ys y := by
  induction xs with
  | nil => intro d; rfl
  | cons x xs ih => intro d; simp only [List.cons_append, lastD]; exact ih x

theorem lastD_snoc (xs : List Nat) (y d : Nat) : lastD (xs ++ [y]) d = y :=
  lastD_append_cons xs y [] d

theorem headD_append (xs ys : List Nat) (q : Nat) :
    (xs ++ ys).headD q = xs.headD (ys.headD q) := by
  cases xs <;> rfl

theorem DL_append (m : Mem) (xs ys : List Nat) (q : Nat) : ∀ p,
    DL m p (xs ++ ys) q ↔ DL m p xs (ys.headD q) ∧ DL m (lastD xs p) ys q := by
  induction xs with
  | nil => intro p; simp [DL, lastD]
  | cons x xs ih =>
    intro p
    rw [List.cons_append]
    constructor
    · rintro ⟨h1, h2, h3⟩
      obtain ⟨h4, h5⟩ := (ih x).1 h3
      rw [headD_append] at h2
      exact ⟨⟨h1, h2, h4⟩, h5⟩
    · rintro ⟨⟨h1, h2, h4⟩, h5⟩
      refine ⟨h1, ?_, (ih x).2 ⟨h4, h5⟩⟩
      rw [headD_append]; exact h2

theorem DL_congr (m m' : Mem) (fl : List Nat) (q : Nat) : ∀ p,
    (∀ a ∈ fl, rd64 m' (a + 8) = rd64 m (a + 8) ∧ rd64 m' (a + 16) = rd64 m (a + 16)) →
    DL m p fl q → DL m' p fl q := by
  induction fl with
  | nil => intro p _ _; trivial
  | cons x xs ih =>
    intro p h hd
    obtain ⟨h1, h2, h3⟩ := hd
    have hx := h x (List.mem_cons_self _ _)
    exact ⟨by rw [hx.2]; exact h1, by rw [hx.1]; exact h2,
      ih x (fun a ha => h a (List.mem_cons_of_mem _ ha)) h3⟩

theorem DL_last (m m' : Mem) (fl : List Nat) (q q' : Nat) : ∀ p,
    fl.Nodup → DL m p fl q →
    (∀ a ∈ fl, rd64 m' (a + 16) = rd64 m (a + 16)) →
    (∀ a ∈ fl, a ≠ lastD fl 0 → rd64 m' (a + 8) = rd64 m (a + 8)) →
    (fl ≠ [] → rd64 m' (lastD fl 0 + 8) = q') →
    DL m' p fl q' := by
  induction fl with
  | nil => intro p _ _ _ _ _; trivial
  | cons x xs ih =>
    intro p hnd hd hp hn hl
    obtain ⟨h1, h2, h3⟩ := hd
    have hx16 := hp x (List.mem_cons_self _ _)
    cases xs with
    | nil =>
      refine ⟨by rw [hx16]; exact h1, ?_, trivial⟩
      have := hl (by simp)
      simpa [lastD] using this
    | cons y ys =>
      have hxne : x ≠ lastD (x :: y :: ys) 0 := by
        intro e
        have hm : lastD (y :: ys) x ∈ y :: ys := lastD_mem _ _ (by simp)
        simp only [lastD] at e hm
        rw [← e] at hm
        exact (List.nodup_cons.1 hnd).1 hm
      refine ⟨by rw [hx16]; exact h1, ?_, ?_⟩
      · rw [hn x (List.mem_cons_self _ _) hxne]; exact h2
      · refine ih x (List.nodup_cons.1 hnd).2 h3
          (fun a ha => hp a (List.mem_cons_of_mem _ ha)) ?_ ?_
        · intro a ha hne
          exact hn a (List.mem_cons_of_mem _ ha) (by simpa [lastD] using hne)
        · intro _
          have := hl (by simp)
          simpa [lastD] using this

theorem DL_first (m m' : Mem) (fl : List Nat) (q p p' : Nat)
    (hnd : fl.Nodup) (hd : DL m p fl q)
    (hn : ∀ a ∈ fl, rd64 m' (a + 8) = rd64 m (a + 8))
    (hp : ∀ a ∈ fl, a ≠ fl.headD 0 → rd64 m' (a + 16) = rd64 m (a + 16))
    (hf : fl ≠ [] → rd64 m' (fl.headD 0 + 16) = p') :
    DL m' p' fl q := by
  cases fl with
  | nil => trivial
  | cons x xs =>
    obtain ⟨_, h2, h3⟩ := hd
    refine ⟨by simpa using hf (by simp), ?_, ?_⟩
    · rw [hn x (List.mem_cons_self _ _)]; exact h2
    · refine DL_congr m m' xs q x ?_ h3
      intro a ha
      refine ⟨hn a (List.mem_cons_of_mem _ ha), hp a (List.mem_cons_of_mem _ ha) ?_⟩
      intro e
      simp only [List.headD_cons] at e
      subst e
      exact (List.nodup_cons.1 hnd).1 ha

theorem DL_nextChain (m : Mem) (fl : List Nat) : ∀ p, DL m p fl 0 → (∀ a ∈ fl, a ≠ 0) →
    NextChain m (fl.headD 0) fl := by
  induction fl with
  | nil => intro p _ _; rfl
  | cons x xs ih =>
    intro p hd hnz
    obtain ⟨_, h2, h3⟩ := hd
    refine ⟨rfl, hnz x (List.mem_cons_self _ _), ?_⟩
    rw [h2]
    exact ih x h3 (fun a ha => hnz a (List.mem_cons_of_mem _ ha))

/-! ## The effect of `smalloc_take` on memory -/

theorem padd_nat (p i : Nat) (h : p + i < 18446744073709551616) : padd p (i : Int) = p + i := by
  unfold padd; omega

theorem padd_24 (p : Nat) (h : p + 24 < 18446744073709551616) : padd p 24 = p + 24 := by
  unfold padd; omega

theorem mod64 (v : Nat) (h : v < 18446744073709551616) : v % 18446744073709551616 = v :=
  Nat.mod_eq_of_lt h

theorem wrap32_nat (k : Nat) (h : k < 2147483648) : wrap32 (k : Int) = (k : Int) :=
  wrap32_id _ (by omega) (by omega)

theorem wrap32_nat24 (k : Nat) (h : k + 24 < 2147483648) :
    wrap32 ((k : Int) + 24) = (k : Int) + 24 := by
  rw [wrap32_id] <;> omega

theorem wrap32_one : wrap32 1 = 1 := by decide

theorem wrap32_zero : wrap32 0 = 0 := by decide

theorem take_split_mem (s : State) (B P lo : Nat) (h : Int)
    (hlo : 24 ≤ lo) (htop : B + 24 + P + lo < 18446744073709551616)
    (hsz : P + 24 + lo < 2147483648)
    (hLs : rd64 s.mem (B + 16) = 0 ∨ rd64 s.mem (B + 16) + 24 ≤ B ∨
      B + 24 + P + lo ≤ rd64 s.mem (B + 16))
    (hRs : rd64 s.mem (B + 8) = 0 ∨ rd64 s.mem (B + 8) + 24 ≤ B ∨
      B + 24 + P + lo ≤ rd64 s.mem (B + 8)) :
    (smalloc_take s ⟨true, true, h, lo, B, P⟩).free_list_head
      = (if rd64 s.mem (B + 16) = 0 then B + 24 + P else s.free_list_head) ∧
    (smalloc_take s ⟨true, true, h, lo, B, P⟩).heap_address = s.heap_address ∧
    (smalloc_take s ⟨true, true, h, lo, B, P⟩).heap_size = s.heap_size ∧
    rd32 (smalloc_take s ⟨true, true, h, lo, B, P⟩).mem B = ((P + 24 : Nat) : Int) ∧
    rd32 (smalloc_take s ⟨true, true, h, lo, B, P⟩).mem (B + 4) = 1 ∧
    rd32 (smalloc_take s ⟨true, true, h, lo, B, P⟩).mem (B + 24 + P) = (lo : Int) ∧
    rd32 (smalloc_take s ⟨true, true, h, lo, B, P⟩).mem (B + 24 + P + 4) = 0 ∧
    rd64 (smalloc_take s ⟨true, true, h, lo, B, P⟩).mem (B + 24 + P + 8) = rd64 s.mem (B + 8) ∧
    rd64 (smalloc_take s ⟨true, true, h, lo, B, P⟩).mem (B + 24 + P + 16) = rd64 s.mem (B + 16) ∧
    ∀ x, 0 < x → (x + 24 ≤ B ∨ B + 24 + P + lo ≤ x) →
      (rd64 s.mem (B + 16) = 0 ∨ x = rd64 s.mem (B + 16) ∨ x + 24 ≤ rd64 s.mem (B + 16) ∨
        rd64 s.mem (B + 16) + 24 ≤ x) →
      (rd64 s.mem (B + 8) = 0 ∨ x = rd64 s.mem (B + 8) ∨ x + 24 ≤ rd64 s.mem (B + 8) ∨
        rd64 s.mem (B + 8) + 24 ≤ x) →
      rd32 (smalloc_take s ⟨true, true, h, lo, B, P⟩).mem x = rd32 s.mem x ∧
      rd32 (smalloc_take s ⟨true, true, h, lo, B, P⟩).mem (x + 4) = rd32 s.mem (x + 4) ∧
      rd64 (smalloc_take s ⟨true, true, h, lo, B, P⟩).mem (x + 8)
        = (if x = rd64 s.mem (B + 16) then B + 24 + P else rd64 s.mem (x + 8)) ∧
      rd64 (smalloc_take s ⟨true, true, h, lo, B, P⟩).mem (x + 16)
        = (if x = rd64 s.mem (B + 8) then B + 24 + P else rd64 s.mem (x + 16)) := by
  have hL64 := rd64_lt s.mem (B + 16)
  have hR64 := rd64_lt s.mem (B + 8)
  unfold smalloc_take
  simp only [padd_24 B (by omega), padd_nat (B + 24) P (by omega),
    wrap32_nat24 P (by omega), if_true]
  generalize rd64 s.mem (B + 16) = L at *
  generalize rd64 s.mem (B + 8) = R at *
  by_cases hL0 : L = 0 <;> by_cases hR0 : R = 0
  all_goals
    simp only [hL0, hR0, if_true, if_false, ne_eq, not_true_eq_false, not_false_eq_true]
    refine ⟨trivial, trivial, trivial, ?_, ?_, ?_, ?_, ?_, ?_, ?_⟩
    · simp (disch := omega) [wrap32_nat24]
    · simp (disch := omega) [wrap32_one]
    · simp (disch := omega) [wrap32_nat]
    · simp (disch := omega) [wrap32_zero]
    · simp (disch := omega) [mod64]
    · simp (disch := omega) [mod64]
    · intro x hx0 hxB hxL hxR
      have hx0' : ¬ x = 0 := by omega
      try simp only [false_or] at hxL
      try simp only [false_or] at hxR
      refine ⟨?_, ?_, ?_, ?_⟩
      · simp (disch := omega)
      · simp (disch := omega)
      · by_cases e : x = L
        · subst e
          first
            | omega
            | simp (disch := omega) [mod64]
        · simp (disch := omega) [e, hx0']
      · by_cases e : x = R
        · subst e
          first
            | omega
            | simp (disch := omega) [mod64]
        · simp (disch := omega) [e, hx0']

theorem wrap32_sub_add (F : Nat) (h : F < 2147483648) :
    wrap32 ((F : Int) - 24 + 24) = (F : Int) := by
  rw [wrap32_id] <;> omega

theorem take_absorb_mem (s : State) (B F : Nat) (h lo : Int)
    (hF : 24 ≤ F)
    (hsz : F < 2147483648)
    (hLs : rd64 s.mem (B + 16) = 0 ∨ rd64 s.mem (B + 16) + 24 ≤ B ∨
      B + F ≤ rd64 s.mem (B + 16))
    (hRs : rd64 s.mem (B + 8) = 0 ∨ rd64 s.mem (B + 8) + 24 ≤ B ∨
      B + F ≤ rd64 s.mem (B + 8)) :
    (smalloc_take s ⟨true, false, h, lo, B, (F : Int) - 24⟩).free_list_head
      = (if rd64 s.mem (B + 16) = 0 then rd64 s.mem (B + 8) else s.free_list_head) ∧
    (smalloc_take s ⟨true, false, h, lo, B, (F : Int) - 24⟩).heap_address = s.heap_address ∧
    (smalloc_take s ⟨true, false, h, lo, B, (F : Int) - 24⟩).heap_size = s.heap_size ∧
    rd32 (smalloc_take s ⟨true, false, h, lo, B, (F : Int) - 24⟩).mem B = (F : Int) ∧
    rd32 (smalloc_take s ⟨true, false, h, lo, B, (F : Int) - 24⟩).mem (B + 4) = 1 ∧
    ∀ x, 0 < x → (x + 24 ≤ B ∨ B + F ≤ x) →
      (rd64 s.mem (B + 16) = 0 ∨ x = rd64 s.mem (B + 16) ∨ x + 24 ≤ rd64 s.mem (B + 16) ∨
        rd64 s.mem (B + 16) + 24 ≤ x) →
      (rd64 s.mem (B + 8) = 0 ∨ x = rd64 s.mem (B + 8) ∨ x + 24 ≤ rd64 s.mem (B + 8) ∨
        rd64 s.mem (B + 8) + 24 ≤ x) →
      rd32 (smalloc_take s ⟨true, false, h, lo, B, (F : Int) - 24⟩).mem x = rd32 s.mem x ∧
      rd32 (smalloc_take s ⟨true, false, h, lo, B, (F : Int) - 24⟩).mem (x + 4)
        = rd32 s.mem (x + 4) ∧
      rd64 (smalloc_take s ⟨true, false, h, lo, B, (F : Int) - 24⟩).mem (x + 8)
        = (if x = rd64 s.mem (B + 16) then rd64 s.mem (B + 8) else rd64 s.mem (x + 8)) ∧
      rd64 (smalloc_take s ⟨true, false, h, lo, B, (F : Int) - 24⟩).mem (x + 16)
        = (if x = rd64 s.mem (B + 8) then rd64 s.mem (B + 16) else rd64 s.mem (x + 16)) := by
  have hL64 := rd64_lt s.mem (B + 16)
  have hR64 := rd64_lt s.mem (B + 8)
  unfold smalloc_take
  simp only [wrap32_sub_add F hsz, Bool.false_eq_true, if_false]
  generalize rd64 s.mem (B + 16) = L at *
  generalize rd64 s.mem (B + 8) = R at *
  by_cases hL0 : L = 0 <;> by_cases hR0 : R = 0
  all_goals
    simp only [hL0, hR0, if_true, if_false, ne_eq, not_true_eq_false, not_false_eq_true]
    refine ⟨trivial, trivial, trivial, ?_, ?_, ?_⟩
    · simp (disch := omega) [wrap32_nat]
    · simp (disch := omega) [wrap32_one]
    · intro x hx0 hxB hxL hxR
      have hx0' : ¬ x = 0 := by omega
      try simp only [false_or] at hxL
      try simp only [false_or] at hxR
      refine ⟨?_, ?_, ?_, ?_⟩
      · simp (disch := omega)
      · simp (disch := omega)
      · by_cases e : x = L
        · subst e
          first
            | omega
            | simp (disch := omega) [mod64]
        · simp (disch := omega) [e, hx0']
      · by_cases e : x = R
        · subst e
          first
            | omega
            | simp (disch := omega) [mod64]
        · simp (disch := omega) [e, hx0']

/-! ## Facts that follow from the invariant -/

theorem Tiles_sep (bs : List Blk) (a e : Nat) (h : Tiles a bs e) (b1 b2 : Blk)
    (h1 : b1 ∈ bs) (h2 : b2 ∈ bs) :
    b1 = b2 ∨ b1.addr + b1.size ≤ b2.addr ∨ b2.addr + b2.size ≤ b1.addr := by
  induction bs generalizing a with
  | nil => simp at h1
  | cons b bs ih =>
    obtain ⟨e1, e2, _, e4⟩ := h
    rcases List.mem_cons.1 h1 with e | h1'
    · rcases List.mem_cons.1 h2 with e' | h2'
      · exact Or.inl (e.trans e'.symm)
      · have := Tiles_mem _ _ _ e4 b2 h2'
        subst e
        right; left; omega
    · rcases List.mem_cons.1 h2 with e' | h2'
      · have := Tiles_mem _ _ _ e4 b1 h1'
        subst e'
        right; right; omega
      · exact ih _ e4 h1' h2'

/-- The addresses of all blocks. -/
theorem addr_sep (bs : List Blk) (a e : Nat) (h : Tiles a bs e) (x y : Nat)
    (hx : x ∈ bs.map (fun b => b.addr)) (hy : y ∈ bs.map (fun b => b.addr)) :
    x = y ∨ x + 24 ≤ y ∨ y + 24 ≤ x := by
  obtain ⟨b1, h1, rfl⟩ := List.mem_map.1 hx
  obtain ⟨b2, h2, rfl⟩ := List.mem_map.1 hy
  have m1 := Tiles_mem _ _ _ h b1 h1
  have m2 := Tiles_mem _ _ _ h b2 h2
  rcases Tiles_sep bs a e h b1 b2 h1 h2 with rfl | h3 | h3
  · exact Or.inl rfl
  · right; left; omega
  · right; right; omega

theorem freeAddrs_sub (bs : List Blk) (x : Nat) (hx : x ∈ freeAddrs bs) :
    x ∈ bs.map (fun b => b.addr) := by
  obtain ⟨b, hb, _, rfl⟩ := (mem_freeAddrs _ _).1 hx
  exact List.mem_map.2 ⟨b, hb, rfl⟩

theorem lastD_cases (fl : List Nat) (d : Nat) :
    (fl = [] ∧ lastD fl d = d) ∨ (fl ≠ [] ∧ lastD fl d ∈ fl) := by
  cases fl with
  | nil => exact Or.inl ⟨rfl, rfl⟩
  | cons x xs => exact Or.inr ⟨by simp, lastD_mem _ _ (by simp)⟩

theorem lastD_ne_nil (fl : List Nat) (d d' : Nat) (h : fl ≠ []) : lastD fl d = lastD fl d' := by
  cases fl with
  | nil => exact absurd rfl h
  | cons x xs => rfl

theorem headD_cases (fl : List Nat) (d : Nat) :
    (fl = [] ∧ fl.headD d = d) ∨ (fl ≠ [] ∧ fl.headD d ∈ fl) := by
  cases fl with
  | nil => exact Or.inl ⟨rfl, rfl⟩
  | cons x xs => exact Or.inr ⟨by simp, by simp⟩

theorem perm_replace_mid (pre post fx fy : List Nat) (B B' : Nat)
    (h : (pre ++ B :: post).Perm (fx ++ B :: fy)) :
    (pre ++ B' :: post).Perm (fx ++ B' :: fy) := by
  have h1 : (B :: (pre ++ post)).Perm (B :: (fx ++ fy)) :=
    (List.perm_middle.symm.trans h).trans List.perm_middle
  have h2 : (pre ++ post).Perm (fx ++ fy) := h1.cons_inv
  exact (List.perm_middle.trans (h2.cons B')).trans List.perm_middle.symm

theorem perm_remove_mid (pre post fx fy : List Nat) (B : Nat)
    (h : (pre ++ B :: post).Perm (fx ++ B :: fy)) :
    (pre ++ post).Perm (fx ++ fy) := by
  have h1 : (B :: (pre ++ post)).Perm (B :: (fx ++ fy)) :=
    (List.perm_middle.symm.trans h).trans List.perm_middle
  exact h1.cons_inv

theorem perm_insert_mid (pre post fx fy : List Nat) (B : Nat)
    (h : (pre ++ post).Perm (fx ++ fy)) :
    (pre ++ B :: post).Perm (fx ++ B :: fy) :=
  (List.perm_middle.trans (h.cons B)).trans List.perm_middle.symm

theorem Inv.nodup {s : State} {bs : List Blk} {fl : List Nat} (h : Inv s bs fl) : fl.Nodup :=
  (h.perm.nodup_iff).2 (freeAddrs_nodup bs _ _ h.tiles)

theorem Inv.mem_addr {s : State} {bs : List Blk} {fl : List Nat} (h : Inv s bs fl)
    (x : Nat) (hx : x ∈ fl) : x ∈ bs.map (fun b => b.addr) :=
  freeAddrs_sub bs x (h.perm.mem_iff.1 hx)

theorem Inv.addr_bounds {s : State} {bs : List Blk} {fl : List Nat} (h : Inv s bs fl)
    (x : Nat) (hx : x ∈ bs.map (fun b => b.addr)) :
    0 < x ∧ x + 24 < 18446744073709551616 := by
  obtain ⟨b, hb, rfl⟩ := List.mem_map.1 hx
  have := Tiles_mem _ _ _ h.tiles b hb
  have h1 := h.base_pos
  have h2 := h.top
  have h3 := h.size_nn
  omega

theorem Inv.size_bound {s : State} {bs : List Blk} {fl : List Nat} (h : Inv s bs fl)
    (b : Blk) (hb : b ∈ bs) :
    b.size < 2147483648 ∧ b.addr + b.size < 18446744073709551616 ∧ 0 < b.addr ∧
      24 ≤ b.size ∧ b.size % 8 = 0 := by
  have := Tiles_mem _ _ _ h.tiles b hb
  have h1 := h.base_pos
  have h2 := h.top
  have h3 := h.size_nn
  have h4 := h.size_lt
  omega

theorem take_split_inv (s : State) (xs ys : List Blk) (pre post : List Nat) (B P lo : Nat)
    (h : Int)
    (hinv : Inv s (xs ++ ⟨B, P + 24 + lo, true⟩ :: ys) (pre ++ B :: post))
    (hlo : 24 ≤ lo) (hP8 : P % 8 = 0) :
    Inv (smalloc_take s ⟨true, true, h, lo, B, P⟩)
      (xs ++ ⟨B, P + 24, false⟩ :: ⟨B + 24 + P, lo, true⟩ :: ys)
      (pre ++ (B + 24 + P) :: post) := by
  have hnd := hinv.nodup
  obtain ⟨t1, _, t3, t4, _, _, t7, t8⟩ := Tiles_split _ _ _ _ _ hinv.tiles
  simp only at t1 t3 t4 t7 t8
  obtain ⟨d1, d3, d4, d5⟩ := (DL_append _ _ _ _ _).1 hinv.links
  simp only [List.headD_cons] at d1
  have hBb := hinv.size_bound ⟨B, P + 24 + lo, true⟩ (by simp)
  simp only at hBb
  have hsep := addr_sep _ _ _ hinv.tiles
  have hmemA : ∀ a ∈ pre ++ B :: post, a ∈ (xs ++ ⟨B, P + 24 + lo, true⟩ :: ys).map
      (fun b => b.addr) := hinv.mem_addr
  have hBA : B ∈ (xs ++ ⟨B, P + 24 + lo, true⟩ :: ys).map (fun b => b.addr) := by simp
  -- every other block address is away from the block `B`
  have hoth : ∀ x ∈ (xs ++ ⟨B, P + 24 + lo, true⟩ :: ys).map (fun b => b.addr), x ≠ B →
      0 < x ∧ (x + 24 ≤ B ∨ B + 24 + P + lo ≤ x) := by
    intro x hx hne
    obtain ⟨b, hb, rfl⟩ := List.mem_map.1 hx
    have hb0 := (hinv.size_bound b hb).2.2.1
    rcases List.mem_append.1 hb with hb | hb
    · have := t7 b hb; exact ⟨hb0, by omega⟩
    · rcases List.mem_cons.1 hb with rfl | hb
      · exact absurd rfl hne
      · have := t8 b hb; exact ⟨hb0, by omega⟩
  -- the neighbours in the free list
  have hpreB : ∀ a ∈ pre, a ≠ B := by
    intro a ha e
    subst e
    exact (List.nodup_append.1 hnd).2.2 ha (List.mem_cons_self _ _) 
  have hpostB : ∀ a ∈ post, a ≠ B := by
    intro a ha e
    subst e
    exact (List.nodup_cons.1 (List.nodup_append.1 hnd).2.1).1 ha
  have hprepost : ∀ a ∈ pre, a ∉ post := by
    intro a ha hp
    exact (List.nodup_append.1 hnd).2.2 ha (List.mem_cons_of_mem _ hp)
  have hL : lastD pre 0 = 0 ∨ (lastD pre 0 ∈ pre) := by
    rcases lastD_cases pre 0 with ⟨_, e⟩ | ⟨_, e⟩
    · exact Or.inl e
    · exact Or.inr e
  have hR : post.headD 0 = 0 ∨ (post.headD 0 ∈ post) := by
    rcases headD_cases post 0 with ⟨_, e⟩ | ⟨_, e⟩
    · exact Or.inl e
    · exact Or.inr e
  have hLA : lastD pre 0 = 0 ∨ (lastD pre 0 ∈ (xs ++ ⟨B, P + 24 + lo, true⟩ :: ys).map
      (fun b => b.addr) ∧ lastD pre 0 ≠ B) := by
    rcases hL with e | e
    · exact Or.inl e
    · exact Or.inr ⟨hmemA _ (List.mem_append_left _ e), hpreB _ e⟩
  have hRA : post.headD 0 = 0 ∨ (post.headD 0 ∈ (xs ++ ⟨B, P + 24 + lo, true⟩ :: ys).map
      (fun b => b.addr) ∧ post.headD 0 ≠ B) := by
    rcases hR with e | e
    · exact Or.inl e
    · exact Or.inr ⟨hmemA _ (List.mem_append_right _ (List.mem_cons_of_mem _ e)), hpostB _ e⟩
  have hLs : rd64 s.mem (B + 16) = 0 ∨ rd64 s.mem (B + 16) + 24 ≤ B ∨
      B + 24 + P + lo ≤ rd64 s.mem (B + 16) := by
    rw [d3]
    rcases hLA with e | ⟨e1, e2⟩
    · exact Or.inl e
    · exact Or.inr (hoth _ e1 e2).2
  have hRs : rd64 s.mem (B + 8) = 0 ∨ rd64 s.mem (B + 8) + 24 ≤ B ∨
      B + 24 + P + lo ≤ rd64 s.mem (B + 8) := by
    rw [d4]
    rcases hRA with e | ⟨e1, e2⟩
    · exact Or.inl e
    · exact Or.inr (hoth _ e1 e2).2
  obtain ⟨m1, m2, m3, m4, m5, m6, m7, m8, m9, m10⟩ :=
    take_split_mem s B P lo h hlo (by omega) (by omega) hLs hRs
  rw [d3] at m1 m9
  rw [d4] at m8
  -- the fields of every other block
  have hfr : ∀ x ∈ (xs ++ ⟨B, P + 24 + lo, true⟩ :: ys).map (fun b => b.addr), x ≠ B →
      rd32 (smalloc_take s ⟨true, true, h, lo, B, P⟩).mem x = rd32 s.mem x ∧
      rd32 (smalloc_take s ⟨true, true, h, lo, B, P⟩).mem (x + 4) = rd32 s.mem (x + 4) ∧
      rd64 (smalloc_take s ⟨true, true, h, lo, B, P⟩).mem (x + 8)
        = (if x = lastD pre 0 then B + 24 + P else rd64 s.mem (x + 8)) ∧
      rd64 (smalloc_take s ⟨true, true, h, lo, B, P⟩).mem (x + 16)
        = (if x = post.headD 0 then B + 24 + P else rd64 s.mem (x + 16)) := by
    intro x hx hne
    have h1 := hoth x hx hne
    have h2 := m10 x h1.1 h1.2
      (by rw [d3]
          rcases hLA with e | ⟨e1, _⟩
          · exact Or.inl e
          · exact Or.inr (hsep _ _ hx e1))
      (by rw [d4]
          rcases hRA with e | ⟨e1, _⟩
          · exact Or.inl e
          · exact Or.inr (hsep _ _ hx e1))
    rw [d3, d4] at h2
    exact h2
  have hLpos : lastD pre 0 ∈ pre → lastD pre 0 ≠ 0 := fun e => by
    have := (hinv.addr_bounds _ (hmemA _ (List.mem_append_left _ e))).1
    omega
  have hprepos : ∀ a ∈ pre, a ≠ 0 := fun a ha => by
    have := (hinv.addr_bounds _ (hmemA _ (List.mem_append_left _ ha))).1
    omega
  have hpostpos : ∀ a ∈ post, a ≠ 0 := fun a ha => by
    have := (hinv.addr_bounds _ (hmemA _ (List.mem_append_right _ (List.mem_cons_of_mem _ ha)))).1
    omega
  refine ⟨?_, ?_, ?_, ?_, ?_, ?_, ?_, ?_, ?_, ?_⟩
  · rw [m2]; exact hinv.base_pos
  · rw [m2]; exact hinv.base_al
  · rw [m3]; exact hinv.size_nn
  · rw [m3]; exact hinv.size_lt
  · rw [m2, m3]; exact hinv.top
  · rw [m2, m3]
    refine Tiles_join xs _ ⟨B, P + 24, false⟩ _ _ t1 (by simp) (by simp only; omega) ?_
    refine ⟨by simp only; omega, hlo, by simp only; omega, ?_⟩
    have e : B + (P + 24) + lo = B + (P + 24 + lo) := by omega
    simp only [e]
    exact t4
  · intro b hb
    have hother : ∀ b' : Blk, b' ∈ xs ++ ⟨B, P + 24 + lo, true⟩ :: ys → b'.addr ≠ B →
        HdrOK (smalloc_take s ⟨true, true, h, lo, B, P⟩).mem b' := by
      intro b' hb' hne
      have hf := hfr b'.addr (List.mem_map.2 ⟨b', hb', rfl⟩) hne
      have ho := hinv.hdr b' hb'
      exact ⟨hf.1.trans ho.1, hf.2.1.trans ho.2⟩
    rcases List.mem_append.1 hb with hb | hb
    · exact hother b (List.mem_append_left _ hb) (by have := t7 b hb; omega)
    · rcases List.mem_cons.1 hb with rfl | hb
      · exact ⟨m4, m5⟩
      · rcases List.mem_cons.1 hb with rfl | hb
        · exact ⟨m6, m7⟩
        · exact hother b (List.mem_append_right _ (List.mem_cons_of_mem _ hb))
            (by have := t8 b hb; omega)
  · have e1 : freeAddrs (xs ++ ⟨B, P + 24 + lo, true⟩ :: ys)
        = freeAddrs xs ++ B :: freeAddrs ys := by
      simp [freeAddrs_append, freeAddrs_cons]
    have e2 : freeAddrs (xs ++ ⟨B, P + 24, false⟩ :: ⟨B + 24 + P, lo, true⟩ :: ys)
        = freeAddrs xs ++ (B + 24 + P) :: freeAddrs ys := by
      simp [freeAddrs_append, freeAddrs_cons]
    rw [e2]
    exact perm_replace_mid _ _ _ _ _ _ (e1 ▸ hinv.perm)
  · rw [m1]
    cases pre with
    | nil => simp [lastD]
    | cons x pre' =>
      have : lastD (x :: pre') 0 ≠ 0 := hLpos (lastD_mem _ _ (by simp))
      rw [if_neg this, hinv.head]
      rfl
  · refine (DL_append _ _ _ _ _).2 ⟨?_, m9, m8, ?_⟩
    · refine DL_last s.mem _ pre B _ 0 (List.nodup_append.1 hnd).1 d1 ?_ ?_ ?_
      · intro a ha
        have hf := hfr a (hmemA _ (List.mem_append_left _ ha)) (hpreB a ha)
        rw [hf.2.2.2, if_neg]
        intro e
        rcases hR with e' | e'
        · exact hprepos a ha (e.trans e')
        · exact hprepost a ha (e ▸ e')
      · intro a ha hne
        have hf := hfr a (hmemA _ (List.mem_append_left _ ha)) (hpreB a ha)
        rw [hf.2.2.1, if_neg hne]
      · intro hne
        have hm : lastD pre 0 ∈ pre := lastD_mem _ _ hne
        have hf := hfr _ (hmemA _ (List.mem_append_left _ hm)) (hpreB _ hm)
        rw [hf.2.2.1, if_pos rfl]
        rfl
    · refine DL_first s.mem _ post 0 B _ (List.nodup_cons.1 (List.nodup_append.1 hnd).2.1).2
        d5 ?_ ?_ ?_
      · intro a ha
        have hf := hfr a (hmemA _ (List.mem_append_right _ (List.mem_cons_of_mem _ ha)))
          (hpostB a ha)
        rw [hf.2.2.1, if_neg]
        intro e
        rcases hL with e' | e'
        · exact hpostpos a ha (e.trans e')
        · exact hprepost _ e' (e ▸ ha)
      · intro a ha hne
        have hf := hfr a (hmemA _ (List.mem_append_right _ (List.mem_cons_of_mem _ ha)))
          (hpostB a ha)
        rw [hf.2.2.2, if_neg hne]
      · intro hne
        have hm : post.headD 0 ∈ post := by
          rcases headD_cases post 0 with ⟨e, _⟩ | ⟨_, e⟩
          · exact absurd e hne
          · exact e
        have hf := hfr _ (hmemA _ (List.mem_append_right _ (List.mem_cons_of_mem _ hm)))
          (hpostB _ hm)
        rw [hf.2.2.2, if_pos rfl]

theorem take_absorb_inv (s : State) (xs ys : List Blk) (pre post : List Nat) (B F : Nat)
    (h lo : Int)
    (hinv : Inv s (xs ++ ⟨B, F, true⟩ :: ys) (pre ++ B :: post)) :
    Inv (smalloc_take s ⟨true, false, h, lo, B, (F : Int) - 24⟩)
      (xs ++ ⟨B, F, false⟩ :: ys) (pre ++ post) := by
  have hnd := hinv.nodup
  obtain ⟨t1, t2, t3, t4, _, _, t7, t8⟩ := Tiles_split _ _ _ _ _ hinv.tiles
  simp only at t1 t2 t3 t4 t7 t8
  obtain ⟨d1, d3, d4, d5⟩ := (DL_append _ _ _ _ _).1 hinv.links
  simp only [List.headD_cons] at d1
  have hBb := hinv.size_bound ⟨B, F, true⟩ (by simp)
  simp only at hBb
  have hsep := addr_sep _ _ _ hinv.tiles
  have hmemA : ∀ a ∈ pre ++ B :: post, a ∈ (xs ++ ⟨B, F, true⟩ :: ys).map
      (fun b => b.addr) := hinv.mem_addr
  have hBA : B ∈ (xs ++ ⟨B, F, true⟩ :: ys).map (fun b => b.addr) := by simp
  -- every other block address is away from the block `B`
  have hoth : ∀ x ∈ (xs ++ ⟨B, F, true⟩ :: ys).map (fun b => b.addr), x ≠ B →
      0 < x ∧ (x + 24 ≤ B ∨ B + F ≤ x) := by
    intro x hx hne
    obtain ⟨b, hb, rfl⟩ := List.mem_map.1 hx
    have hb0 := (hinv.size_bound b hb).2.2.1
    rcases List.mem_append.1 hb with hb | hb
    · have := t7 b hb; exact ⟨hb0, by omega⟩
    · rcases List.mem_cons.1 hb with rfl | hb
      · exact absurd rfl hne
      · have := t8 b hb; exact ⟨hb0, by omega⟩
  -- the neighbours in the free list
  have hpreB : ∀ a ∈ pre, a ≠ B := by
    intro a ha e
    subst e
    exact (List.nodup_append.1 hnd).2.2 ha (List.mem_cons_self _ _) 
  have hpostB : ∀ a ∈ post, a ≠ B := by
    intro a ha e
    subst e
    exact (List.nodup_cons.1 (List.nodup_append.1 hnd).2.1).1 ha
  have hprepost : ∀ a ∈ pre, a ∉ post := by
    intro a ha hp
    exact (List.nodup_append.1 hnd).2.2 ha (List.mem_cons_of_mem _ hp)
  have hL : lastD pre 0 = 0 ∨ (lastD pre 0 ∈ pre) := by
    rcases lastD_cases pre 0 with ⟨_, e⟩ | ⟨_, e⟩
    · exact Or.inl e
    · exact Or.inr e
  have hR : post.headD 0 = 0 ∨ (post.headD 0 ∈ post) := by
    rcases headD_cases post 0 with ⟨_, e⟩ | ⟨_, e⟩
    · exact Or.inl e
    · exact Or.inr e
  have hLA : lastD pre 0 = 0 ∨ (lastD pre 0 ∈ (xs ++ ⟨B, F, true⟩ :: ys).map
      (fun b => b.addr) ∧ lastD pre 0 ≠ B) := by
    rcases hL with e | e
    · exact Or.inl e
    · exact Or.inr ⟨hmemA _ (List.mem_append_left _ e), hpreB _ e⟩
  have hRA : post.headD 0 = 0 ∨ (post.headD 0 ∈ (xs ++ ⟨B, F, true⟩ :: ys).map
      (fun b => b.addr) ∧ post.headD 0 ≠ B) := by
    rcases hR with e | e
    · exact Or.inl e
    · exact Or.inr ⟨hmemA _ (List.mem_append_right _ (List.mem_cons_of_mem _ e)), hpostB _ e⟩
  have hLs : rd64 s.mem (B + 16) = 0 ∨ rd64 s.mem (B + 16) + 24 ≤ B ∨
      B + F ≤ rd64 s.mem (B + 16) := by
    rw [d3]
    rcases hLA with e | ⟨e1, e2⟩
    · exact Or.inl e
    · exact Or.inr (hoth _ e1 e2).2
  have hRs : rd64 s.mem (B + 8) = 0 ∨ rd64 s.mem (B + 8) + 24 ≤ B ∨
      B + F ≤ rd64 s.mem (B + 8) := by
    rw [d4]
    rcases hRA with e | ⟨e1, e2⟩
    · exact Or.inl e
    · exact Or.inr (hoth _ e1 e2).2
  obtain ⟨m1, m2, m3, m4, m5, m10⟩ :=
    take_absorb_mem s B F h lo (by omega) (by omega) hLs hRs
  rw [d3, d4] at m1
  -- the fields of every other block
  have hfr : ∀ x ∈ (xs ++ ⟨B, F, true⟩ :: ys).map (fun b => b.addr), x ≠ B →
      rd32 (smalloc_take s ⟨true, false, h, lo, B, (F : Int) - 24⟩).mem x = rd32 s.mem x ∧
      rd32 (smalloc_take s ⟨true, false, h, lo, B, (F : Int) - 24⟩).mem (x + 4) = rd32 s.mem (x + 4) ∧
      rd64 (smalloc_take s ⟨true, false, h, lo, B, (F : Int) - 24⟩).mem (x + 8)
        = (if x = lastD pre 0 then post.headD 0 else rd64 s.mem (x + 8)) ∧
      rd64 (smalloc_take s ⟨true, false, h, lo, B, (F : Int) - 24⟩).mem (x + 16)
        = (if x = post.headD 0 then lastD pre 0 else rd64 s.mem (x + 16)) := by
    intro x hx hne
    have h1 := hoth x hx hne
    have h2 := m10 x h1.1 h1.2
      (by rw [d3]
          rcases hLA with e | ⟨e1, _⟩
          · exact Or.inl e
          · exact Or.inr (hsep _ _ hx e1))
      (by rw [d4]
          rcases hRA with e | ⟨e1, _⟩
          · exact Or.inl e
          · exact Or.inr (hsep _ _ hx e1))
    rw [d3, d4] at h2
    exact h2
  have hLpos : lastD pre 0 ∈ pre → lastD pre 0 ≠ 0 := fun e => by
    have := (hinv.addr_bounds _ (hmemA _ (List.mem_append_left _ e))).1
    omega
  have hprepos : ∀ a ∈ pre, a ≠ 0 := fun a ha => by
    have := (hinv.addr_bounds _ (hmemA _ (List.mem_append_left _ ha))).1
    omega
  have hpostpos : ∀ a ∈ post, a ≠ 0 := fun a ha => by
    have := (hinv.addr_bounds _ (hmemA _ (List.mem_append_right _ (List.mem_cons_of_mem _ ha)))).1
    omega
  refine ⟨?_, ?_, ?_, ?_, ?_, ?_, ?_, ?_, ?_, ?_⟩
  · rw [m2]; exact hinv.base_pos
  · rw [m2]; exact hinv.base_al
  · rw [m3]; exact hinv.size_nn
  · rw [m3]; exact hinv.size_lt
  · rw [m2, m3]; exact hinv.top
  · rw [m2, m3]
    exact Tiles_join xs _ ⟨B, F, false⟩ _ _ t1 t2 t3 t4
  · intro b hb
    have hother : ∀ b' : Blk, b' ∈ xs ++ ⟨B, F, true⟩ :: ys → b'.addr ≠ B →
        HdrOK (smalloc_take s ⟨true, false, h, lo, B, (F : Int) - 24⟩).mem b' := by
      intro b' hb' hne
      have hf := hfr b'.addr (List.mem_map.2 ⟨b', hb', rfl⟩) hne
      have ho := hinv.hdr b' hb'
      exact ⟨hf.1.trans ho.1, hf.2.1.trans ho.2⟩
    rcases List.mem_append.1 hb with hb | hb
    · exact hother b (List.mem_append_left _ hb) (by have := t7 b hb; omega)
    · rcases List.mem_cons.1 hb with rfl | hb
      · exact ⟨m4, m5⟩
      · exact hother b (List.mem_append_right _ (List.mem_cons_of_mem _ hb))
          (by have := t8 b hb; omega)
  · have e1 : freeAddrs (xs ++ ⟨B, F, true⟩ :: ys)
        = freeAddrs xs ++ B :: freeAddrs ys := by
      simp [freeAddrs_append, freeAddrs_cons]
    have e2 : freeAddrs (xs ++ ⟨B, F, false⟩ :: ys)
        = freeAddrs xs ++ freeAddrs ys := by
      simp [freeAddrs_append, freeAddrs_cons]
    rw [e2]
    exact perm_remove_mid _ _ _ _ _ (e1 ▸ hinv.perm)
  · rw [m1]
    cases pre with
    | nil => simp [lastD]
    | cons x pre' =>
      have : lastD (x :: pre') 0 ≠ 0 := hLpos (lastD_mem _ _ (by simp))
      rw [if_neg this, hinv.head]
      rfl
  · refine (DL_append _ _ _ _ _).2 ⟨?_, ?_⟩
    · refine DL_last s.mem _ pre B _ 0 (List.nodup_append.1 hnd).1 d1 ?_ ?_ ?_
      · intro a ha
        have hf := hfr a (hmemA _ (List.mem_append_left _ ha)) (hpreB a ha)
        rw [hf.2.2.2, if_neg]
        intro e
        rcases hR with e' | e'
        · exact hprepos a ha (e.trans e')
        · exact hprepost a ha (e ▸ e')
      · intro a ha hne
        have hf := hfr a (hmemA _ (List.mem_append_left _ ha)) (hpreB a ha)
        rw [hf.2.2.1, if_neg hne]
      · intro hne
        have hm : lastD pre 0 ∈ pre := lastD_mem _ _ hne
        have hf := hfr _ (hmemA _ (List.mem_append_left _ hm)) (hpreB _ hm)
        rw [hf.2.2.1, if_pos rfl]
    · refine DL_first s.mem _ post 0 B _ (List.nodup_cons.1 (List.nodup_append.1 hnd).2.1).2
        d5 ?_ ?_ ?_
      · intro a ha
        have hf := hfr a (hmemA _ (List.mem_append_right _ (List.mem_cons_of_mem _ ha)))
          (hpostB a ha)
        rw [hf.2.2.1, if_neg]
        intro e
        rcases hL with e' | e'
        · exact hpostpos a ha (e.trans e')
        · exact hprepost _ e' (e ▸ ha)
      · intro a ha hne
        have hf := hfr a (hmemA _ (List.mem_append_right _ (List.mem_cons_of_mem _ ha)))
          (hpostB a ha)
        rw [hf.2.2.2, if_neg hne]
      · intro hne
        have hm : post.headD 0 ∈ post := by
          rcases headD_cases post 0 with ⟨e, _⟩ | ⟨_, e⟩
          · exact absurd e hne
          · exact e
        have hf := hfr _ (hmemA _ (List.mem_append_right _ (List.mem_cons_of_mem _ hm)))
          (hpostB _ hm)
        rw [hf.2.2.2, if_pos rfl]

/-! ## A successful `smalloc` -/

theorem Inv.free_size {s : State} {bs : List Blk} {fl : List Nat} (h : Inv s bs fl)
    (a : Nat) (ha : a ∈ fl) :
    ∃ b ∈ bs, b.free = true ∧ b.addr = a ∧ rd32 s.mem a = (b.size : Int) ∧ 24 ≤ b.size ∧
      b.size % 8 = 0 ∧ b.size < 2147483648 := by
  obtain ⟨b, hb, hf, rfl⟩ := (mem_freeAddrs _ _).1 (h.perm.mem_iff.1 ha)
  have := h.size_bound b hb
  exact ⟨b, hb, hf, rfl, (h.hdr b hb).1, this.2.2.2.1, this.2.2.2.2, this.1⟩

theorem Inv.nextChain {s : State} {bs : List Blk} {fl : List Nat} (h : Inv s bs fl) :
    NextChain s.mem s.free_list_head fl := by
  rw [h.head]
  refine DL_nextChain _ _ 0 h.links ?_
  intro a ha
  have := (h.addr_bounds a (h.mem_addr a ha)).1
  omega

theorem Tiles_length (bs : List Blk) : ∀ (a e : Nat), Tiles a bs e → a + 24 * bs.length ≤ e := by
  induction bs with
  | nil => intro a e h; simp only [Tiles] at h; simp; omega
  | cons b bs ih =>
    intro a e h
    obtain ⟨_, h2, _, h4⟩ := h
    have := ih _ _ h4
    simp only [List.length_cons]
    omega

theorem Inv.length_lt {s : State} {bs : List Blk} {fl : List Nat} (h : Inv s bs fl) :
    fl.length < 2147483648 := by
  have h1 : fl.length ≤ bs.length := by
    rw [h.perm.length_eq]
    unfold freeAddrs
    rw [List.length_map]
    exact List.length_filter_le _ _
  have h2 := Tiles_length _ _ _ h.tiles
  have h3 := h.size_lt
  have h4 := h.size_nn
  omega

theorem smalloc_found (s : State) (xs ys : List Blk) (pre post : List Nat) (B F : Nat) (n : Int)
    (hinv : Inv s (xs ++ ⟨B, F, true⟩ :: ys) (pre ++ B :: post))
    (hn0 : 0 ≤ n) (hn1 : n < 2147483648)
    (hpre : ∀ a ∈ pre, rd32 s.mem a < roundUp8 n + 24)
    (hB : roundUp8 n + 24 ≤ (F : Int)) (fuel : Nat) (hf : pre.length < fuel) :
    smalloc fuel s n = some (B + 24,
      ⟨1, (B : Int) + 24 - (s.heap_address : Int), pre.length⟩,
      smalloc_take s (found n F B pre.length)) := by
  have hBb := hinv.size_bound ⟨B, F, true⟩ (by simp)
  simp only at hBb
  have hsz : rd32 s.mem B = (F : Int) := (hinv.hdr ⟨B, F, true⟩ (by simp)).1
  have hlen := hinv.length_lt
  have hlenpre : pre.length ≤ (pre ++ B :: post).length := by simp
  have hfit : ∀ a ∈ pre ++ B :: post,
      fits (if n % 8 ≠ 0 then wrap32 (roundUp8 n) else roundUp8 n)
      (rd32 s.mem a) = decide (roundUp8 n + 24 ≤ rd32 s.mem a) := fun a ha => by
    obtain ⟨b, _, _, _, e, h1, h2, h3⟩ := hinv.free_size a ha
    exact (fits_eq n _ hn0 hn1 (by rw [e]; omega) (rd32_range _ _).2 (by rw [e]; omega) _ rfl).1
  have hkey := (fits_eq n F hn0 hn1 (by omega) (by omega) (by omega) _ rfl).2 hB
  have hsearch := search_found s.mem (if n % 8 ≠ 0 then wrap32 (roundUp8 n) else roundUp8 n)
    B post pre s.free_list_head fuel 0 0 hinv.nextChain
    (fun a ha => by
      rw [hfit a (List.mem_append_left _ ha)]
      simpa using hpre a ha)
    (by rw [hfit B (by simp), hsz]; simpa using hB) hf (le_refl _)
    (by have : (pre.length : Int) ≤ ((pre ++ B :: post).length : Int) := by
          exact_mod_cast hlenpre
        omega)
  have hnn : ¬ n < 0 := by omega
  have hbase : s.heap_address ≤ B := (Tiles_split _ _ _ _ _ hinv.tiles).2.2.2.2.1
  have hpadd : padd B 24 = B + 24 := padd_24 B (by omega)
  have hr0 : (0 : Int) ≤ roundUp8 n := by unfold roundUp8; omega
  unfold smalloc
  simp only [hnn, if_false]
  rw [round_code n hn0, hsearch, hsz, hkey.1, hkey.2]
  simp only [Bool.true_eq_false, if_false, hpadd, zero_add]
  have hw : wrap32 (((B + 24 : Nat) : Int) - (s.heap_address : Int))
      = (B : Int) + 24 - (s.heap_address : Int) := by
    have h1 := hinv.size_lt
    have h2 := hinv.size_nn
    have h3 := (Tiles_split _ _ _ _ _ hinv.tiles).2.2.2.2.2.1
    simp only at h3
    rw [wrap32_id] <;> push_cast <;> omega
  rw [hw]
  unfold found
  by_cases hc : 24 ≤ (F : Int) - roundUp8 n - 24
  · simp [hc]
  · have e : wrap32 (roundUp8 n + ((F : Int) - roundUp8 n - 24)) = (F : Int) - 24 := by
      rw [wrap32_id] <;> omega
    simp [hc, e]

theorem roundUp8_toNat (n : Int) (hn0 : 0 ≤ n) :
    ((roundUp8 n).toNat : Int) = roundUp8 n ∧ (roundUp8 n).toNat % 8 = 0 := by
  unfold roundUp8; omega

theorem smalloc_take_inv (s : State) (xs ys : List Blk) (pre post : List Nat) (B F hops : Nat)
    (n : Int) (hinv : Inv s (xs ++ ⟨B, F, true⟩ :: ys) (pre ++ B :: post))
    (hn0 : 0 ≤ n) (hB : roundUp8 n + 24 ≤ (F : Int)) :
    Inv (smalloc_take s (found n F B hops)) (takeBlocks xs ys B F (roundUp8 n).toNat)
      (takeFree pre post B F (roundUp8 n).toNat) := by
  obtain ⟨hP, hP8⟩ := roundUp8_toNat n hn0
  generalize (roundUp8 n).toNat = P at hP hP8
  unfold found takeBlocks takeFree
  rw [← hP] at hB ⊢
  by_cases hc : 24 ≤ F - (P + 24)
  · have hc' : 24 ≤ (F : Int) - (P : Int) - 24 := by omega
    have e1 : (F : Int) - (P : Int) - 24 = ((F - (P + 24) : Nat) : Int) := by omega
    have e2 : F = P + 24 + (F - (P + 24)) := by omega
    rw [if_pos hc, if_pos hc, if_pos hc', e1]
    rw [e2] at hinv
    exact take_split_inv s xs ys pre post B P (F - (P + 24)) hops hinv hc hP8
  · have hc' : ¬ 24 ≤ (F : Int) - (P : Int) - 24 := by omega
    rw [if_neg hc, if_neg hc, if_neg hc']
    exact take_absorb_inv s xs ys pre post B F hops _ hinv

/-! ## Adjacent free blocks -/

theorem noAdj_mid (xs ys : List Blk) (b : Blk) :
    NoAdjFree (xs ++ b :: ys) ↔ NoAdjFree xs ∧ NoAdjFree ys ∧
      (∀ x ∈ xs.getLast?, ¬ (x.free = true ∧ b.free = true)) ∧
      (∀ y ∈ ys.head?, ¬ (b.free = true ∧ y.free = true)) := by
  unfold NoAdjFree
  rw [List.chain'_append, List.chain'_cons']
  simp only [List.head?_cons, Option.mem_def, Option.some.injEq, forall_eq']
  tauto

theorem noAdj_take (xs ys : List Blk) (B F P : Nat)
    (h : NoAdjFree (xs ++ ⟨B, F, true⟩ :: ys)) : NoAdjFree (takeBlocks xs ys B F P) := by
  obtain ⟨h1, h2, _, h4⟩ := (noAdj_mid _ _ _).1 h
  unfold takeBlocks
  split
  · refine (noAdj_mid _ _ _).2 ⟨h1, ?_, by simp, by simp⟩
    unfold NoAdjFree
    rw [List.chain'_cons']
    exact ⟨h4, h2⟩
  · exact (noAdj_mid _ _ _).2 ⟨h1, h2, by simp, by simp⟩

theorem freeAddrs_take (xs ys : List Blk) (B F P : Nat) :
    freeAddrs (takeBlocks xs ys B F P) = takeFree (freeAddrs xs) (freeAddrs ys) B F P := by
  unfold takeBlocks takeFree
  split <;> simp [freeAddrs_append, freeAddrs_cons]

theorem freeAddrs_mid (xs ys : List Blk) (B F : Nat) :
    freeAddrs (xs ++ ⟨B, F, true⟩ :: ys) = freeAddrs xs ++ B :: freeAddrs ys := by
  simp [freeAddrs_append, freeAddrs_cons]

/-! ## `smalloc` on a state that satisfies the invariant -/

theorem smalloc_none (s : State) (bs : List Blk) (fl : List Nat) (n : Int)
    (hinv : Inv s bs fl) (hn0 : 0 ≤ n) (hn1 : n < 2147483648)
    (hno : ∀ a ∈ fl, rd32 s.mem a < roundUp8 n + 24) (fuel : Nat) (hf : fl.length < fuel) :
    smalloc fuel s n = some (0, ⟨0, -1, -1⟩, s) := by
  have hfit : ∀ a ∈ fl, fits (if n % 8 ≠ 0 then wrap32 (roundUp8 n) else roundUp8 n)
      (rd32 s.mem a) = false := fun a ha => by
    obtain ⟨b, _, _, _, e, h1, h2, h3⟩ := hinv.free_size a ha
    rw [(fits_eq n _ hn0 hn1 (by rw [e]; omega) (rd32_range _ _).2 (by rw [e]; omega) _ rfl).1]
    simpa using hno a ha
  obtain ⟨r, hr, hr2⟩ := search_none s.mem _ fl s.free_list_head fuel 0 0 hinv.nextChain hfit hf
  have hnn : ¬ n < 0 := by omega
  unfold smalloc
  simp only [hnn, if_false]
  rw [round_code n hn0, hr]
  simp [hr2]

theorem smalloc_neg (s : State) (n : Int) (hn : n < 0) (fuel : Nat) :
    smalloc fuel s n = some (0, ⟨0, -1, -1⟩, s) := by
  simp [smalloc, hn]

theorem smalloc_wf_found (s : State) (xs ys : List Blk) (B F : Nat) (n : Int)
    (hwf : WF s (xs ++ ⟨B, F, true⟩ :: ys)) (hn0 : 0 ≤ n) (hn1 : n < 2147483648)
    (hxs : ∀ b ∈ xs, b.free = true → (b.size : Int) < roundUp8 n + 24)
    (hb : roundUp8 n + 24 ≤ (F : Int)) :
    (∀ fuel, (freeAddrs xs).length < fuel → smalloc fuel s n = some (B + 24,
        ⟨1, (B : Int) + 24 - (s.heap_address : Int), (freeAddrs xs).length⟩,
        smalloc_take s (found n F B (freeAddrs xs).length))) ∧
      WF (smalloc_take s (found n F B (freeAddrs xs).length))
        (takeBlocks xs ys B F (roundUp8 n).toNat) := by
  obtain ⟨hinv, hadj⟩ := hwf
  rw [freeAddrs_mid] at hinv
  have hpre : ∀ a ∈ freeAddrs xs, rd32 s.mem a < roundUp8 n + 24 := by
    intro a ha
    obtain ⟨b, hb, hf, rfl⟩ := (mem_freeAddrs _ _).1 ha
    rw [(hinv.hdr b (List.mem_append_left _ hb)).1]
    exact hxs b hb hf
  refine ⟨?_, ?_, ?_⟩
  · intro fuel hf
    exact smalloc_found s xs ys _ _ B F n hinv hn0 hn1 hpre hb fuel hf
  · rw [freeAddrs_take]
    exact smalloc_take_inv s xs ys _ _ B F _ n hinv hn0 hb
  · exact noAdj_take xs ys B F _ hadj

/-- The outcome of `smalloc` on a well-formed state, for a request `0 ≤ n`:
either no free block is large enough and the call fails without touching the
state, or the first free block that is large enough is taken. -/
theorem smalloc_wf_cases (s : State) (bs : List Blk) (n : Int) (hwf : WF s bs)
    (hn0 : 0 ≤ n) (hn1 : n < 2147483648) :
    ((∀ b ∈ bs, b.free = true → (b.size : Int) < roundUp8 n + 24) ∧
      ∀ fuel, (freeAddrs bs).length < fuel → smalloc fuel s n = some (0, ⟨0, -1, -1⟩, s)) ∨
    (∃ (xs ys : List Blk) (B F : Nat), bs = xs ++ ⟨B, F, true⟩ :: ys ∧
      (∀ b ∈ xs, b.free = true → (b.size : Int) < roundUp8 n + 24) ∧
      roundUp8 n + 24 ≤ (F : Int) ∧
      (∀ fuel, (freeAddrs xs).length < fuel → smalloc fuel s n = some (B + 24,
        ⟨1, (B : Int) + 24 - (s.heap_address : Int), (freeAddrs xs).length⟩,
        smalloc_take s (found n F B (freeAddrs xs).length))) ∧
      WF (smalloc_take s (found n F B (freeAddrs xs).length))
        (takeBlocks xs ys B F (roundUp8 n).toNat)) := by
  by_cases hex : ∃ b ∈ bs, b.free = true ∧ roundUp8 n + 24 ≤ (b.size : Int)
  · right
    obtain ⟨xs, b, ys, e, hxs, hb⟩ :=
      first_split (fun b : Blk => b.free = true ∧ roundUp8 n + 24 ≤ (b.size : Int)) bs hex
    obtain ⟨B, F, fr⟩ := b
    simp only at hb
    obtain ⟨rfl, hb⟩ := hb
    subst e
    have hxs' : ∀ b ∈ xs, b.free = true → (b.size : Int) < roundUp8 n + 24 := by
      intro b hb hf
      have := hxs b hb
      simp only [not_and] at this
      have := this hf
      omega
    have := smalloc_wf_found s xs ys B F n hwf hn0 hn1 hxs' hb
    exact ⟨xs, ys, B, F, rfl, hxs', hb, this.1, this.2⟩
  · left
    obtain ⟨hinv, hadj⟩ := hwf
    have hno : ∀ b ∈ bs, b.free = true → (b.size : Int) < roundUp8 n + 24 := by
      intro b hb hf
      by_contra hc
      exact hex ⟨b, hb, hf, by omega⟩
    refine ⟨hno, ?_⟩
    intro fuel hf
    refine smalloc_none s bs _ n hinv hn0 hn1 ?_ fuel hf
    intro a ha
    obtain ⟨b, hb, hf, rfl⟩ := (mem_freeAddrs _ _).1 ha
    rw [(hinv.hdr b hb).1]
    exact hno b hb hf

/-! ## What well-formedness says, spelled out -/

theorem DL_last_next (m : Mem) (fl : List Nat) (q : Nat) : ∀ p, DL m p fl q → fl ≠ [] →
    rd64 m (lastD fl 0 + 8) = q := by
  induction fl with
  | nil => intro p _ h; exact absurd rfl h
  | cons x xs ih =>
    intro p hd _
    obtain ⟨_, h2, h3⟩ := hd
    cases xs with
    | nil => simpa [lastD] using h2
    | cons y ys =>
      have := ih x h3 (by simp)
      simpa [lastD] using this

theorem DL_head_prev (m : Mem) (fl : List Nat) (p q : Nat) (hd : DL m p fl q) (h : fl ≠ []) :
    rd64 m (fl.headD 0 + 16) = p := by
  cases fl with
  | nil => exact absurd rfl h
  | cons x xs => exact hd.1

theorem WF.explicit {s : State} {bs : List Blk} (h : WF s bs) :
    Tiles s.heap_address bs (s.heap_address + s.heap_size.toNat) ∧
    (∀ b ∈ bs, 24 ≤ b.size ∧ b.size % 8 = 0 ∧ rd32 s.mem b.addr = (b.size : Int) ∧
      rd32 s.mem (b.addr + 4) = if b.free = true then 0 else 1) ∧
    (freeAddrs bs).Pairwise (fun x y => x < y) ∧
    DL s.mem 0 (freeAddrs bs) 0 ∧
    s.free_list_head = (freeAddrs bs).headD 0 ∧
    (s.free_list_head = 0 ↔ ∀ b ∈ bs, b.free = false) ∧
    (∀ a ∈ freeAddrs bs, s.free_list_head ≤ a) ∧
    NoAdjFree bs := by
  obtain ⟨hinv, hadj⟩ := h
  have hs := freeAddrs_sorted bs _ _ hinv.tiles
  refine ⟨hinv.tiles, ?_, ?_, hinv.links, hinv.head, ?_, ?_, hadj⟩
  · intro b hb
    have := hinv.size_bound b hb
    exact ⟨this.2.2.2.1, this.2.2.2.2, (hinv.hdr b hb).1, (hinv.hdr b hb).2⟩
  · exact hs.imp (fun {x y} (hxy : x + 24 ≤ y) => by omega)
  · rw [hinv.head]
    constructor
    · intro h0 b hb
      by_contra hf
      have hf' : b.free = true := by simpa using hf
      have hm : b.addr ∈ freeAddrs bs := (mem_freeAddrs _ _).2 ⟨b, hb, hf', rfl⟩
      cases hfa : freeAddrs bs with
      | nil => rw [hfa] at hm; simp at hm
      | cons x rest =>
        rw [hfa] at h0
        simp only [List.headD_cons] at h0
        have hx : x ∈ freeAddrs bs := by rw [hfa]; simp
        have := (hinv.addr_bounds x (freeAddrs_sub _ _ hx)).1
        omega
    · intro hall
      have : freeAddrs bs = [] := by
        apply List.eq_nil_iff_forall_not_mem.2
        intro a ha
        obtain ⟨b, hb, hf, _⟩ := (mem_freeAddrs _ _).1 ha
        rw [hall b hb] at hf
        exact absurd hf (by simp)
      rw [this]; rfl
  · rw [hinv.head]
    intro a ha
    cases hfa : freeAddrs bs with
    | nil => rw [hfa] at ha; simp at ha
    | cons x rest =>
      rw [hfa] at hs ha
      simp only [List.headD_cons]
      rcases List.mem_cons.1 ha with rfl | ha
      · exact le_refl _
      · have := (List.pairwise_cons.1 hs).1 a ha
        omega

/-! ## `my_init` -/

theorem tmod_4096 (r : Int) :
    Int.tmod r 4096 = if 0 ≤ r then r % 4096 else -((-r) % 4096) := by
  cases r with
  | ofNat m =>
    have h : (0 : Int) ≤ Int.ofNat m := Int.ofNat_nonneg m
    rw [if_pos h]
    exact Int.tmod_eq_emod h (by norm_num)
  | negSucc m =>
    have h : ¬ (0 : Int) ≤ Int.negSucc m := by
      have := Int.negSucc_lt_zero m
      omega
    rw [if_neg h]
    show -((((m + 1 : Nat) % 4096 : Nat)) : Int) = _
    have e : -Int.negSucc m = ((m + 1 : Nat) : Int) := rfl
    rw [e]
    rfl

theorem my_init_size (a : Nat) (r : Int) (s : State) (hr : IsInt32 r) :
    (my_init a r s).2.heap_size % 4096 = 0 ∧ IsInt32 (my_init a r s).2.heap_size ∧
    (my_init a r s).2.heap_address = a := by
  unfold IsInt32 at *
  unfold my_init
  simp only [PAGE_SIZE, tmod_4096]
  split <;> split <;> split <;> simp only <;> refine ⟨?_, ?_, trivial⟩
  all_goals first
    | omega
    | (unfold wrap32; omega)

theorem my_init_wf (a : Nat) (r : Int) (s : State) (hr : IsInt32 r)
    (hok : MmapOK a (my_init a r s).2.heap_size) :
    (my_init a r s).1 = 0 ∧
    WF (my_init a r s).2 [⟨a, ((my_init a r s).2.heap_size).toNat, true⟩] := by
  obtain ⟨h1, h2, h3⟩ := my_init_size a r s hr
  obtain ⟨k1, k2, k3, k4, k5⟩ := hok
  unfold IsInt32 at h2
  have hmem : (my_init a r s).1 = 0 ∧ (my_init a r s).2.free_list_head = a ∧
      rd32 (my_init a r s).2.mem a = (my_init a r s).2.heap_size ∧
      rd32 (my_init a r s).2.mem (a + 4) = 0 ∧
      rd64 (my_init a r s).2.mem (a + 8) = 0 ∧
      rd64 (my_init a r s).2.mem (a + 16) = 0 := by
    clear h3 k5 k4 h1
    unfold my_init at h2 ⊢
    simp only [k1, if_false] at h2 ⊢
    generalize (if Int.tmod r PAGE_SIZE ≠ 0 then
      wrap32 (r + wrap32 (PAGE_SIZE - Int.tmod r PAGE_SIZE)) else r) = z at h2 ⊢
    refine ⟨trivial, trivial, ?_, ?_, ?_, ?_⟩
    · simp (disch := omega) [wrap32_id _ h2.1 h2.2]
    · simp (disch := omega) [wrap32_zero]
    · simp (disch := omega)
    · simp (disch := omega)
  obtain ⟨m0, m1, m2, m3, m4, m5⟩ := hmem
  generalize (my_init a r s).2 = s' at *
  generalize (my_init a r s).1 = r' at *
  refine ⟨m0, ⟨?_, ?_, ?_, ?_, ?_, ?_, ?_, ?_, ?_, ?_⟩, ?_⟩
  · rw [h3]; exact k2
  · rw [h3]; omega
  · omega
  · omega
  · rw [h3]; exact k5
  · rw [h3]
    refine ⟨rfl, ?_, ?_, rfl⟩ <;> simp only <;> omega
  · intro b hb
    simp only [List.mem_singleton] at hb
    subst hb
    refine ⟨?_, ?_⟩
    · simp only; rw [m2]; omega
    · simp only [if_true]; exact m3
  · exact List.Perm.refl _
  · rw [m1]; rfl
  · exact ⟨m5, m4, trivial⟩
  · unfold NoAdjFree; simp

/-! ## Splitting and absorbing -/

theorem fresh_wf : WF fresh [⟨4096, 4096, true⟩] :=
  (my_init_wf 4096 4096 arena0 (by decide) (by decide)).2

/-- C3: in a well-formed state, when the first free block `B` that is large
enough for the request `n` has size `F` with `F - (P + 24) ≥ 24` (`P` is `n`
rounded up to a multiple of 8), `smalloc` returns `B + 24` with
`payload_offset = B + 24 - heap_address`; afterwards `B` has size `P + 24` and
is allocated, and the new free block `B' = B + 24 + P` of size `F - P - 24`
stands where `B` stood in the free list: its links are the former links of
`B`, the former neighbours point to it, and it is the head iff `B` was. -/
theorem smalloc_split (s : State) (xs ys : List Blk) (B F : Nat) (n : Int)
    (hwf : WF s (xs ++ ⟨B, F, true⟩ :: ys))
    (hn0 : 0 ≤ n) (hn1 : n < 2147483648)
    (hfirst : ∀ b ∈ xs, b.free = true → (b.size : Int) < roundUp8 n + 24)
    (hsplit : 24 ≤ (F : Int) - (roundUp8 n + 24)) :
    ∃ s' : State,
      (∀ fuel, (freeAddrs xs).length < fuel → smalloc fuel s n = some (B + 24,
        ⟨1, (B : Int) + 24 - (s.heap_address : Int), (freeAddrs xs).length⟩, s')) ∧
      rd32 s'.mem B = roundUp8 n + 24 ∧ rd32 s'.mem (B + 4) = 1 ∧
      rd32 s'.mem (B + 24 + (roundUp8 n).toNat) = (F : Int) - roundUp8 n - 24 ∧
      rd32 s'.mem (B + 24 + (roundUp8 n).toNat + 4) = 0 ∧
      rd64 s'.mem (B + 24 + (roundUp8 n).toNat + 8) = rd64 s.mem (B + 8) ∧
      rd64 s'.mem (B + 24 + (roundUp8 n).toNat + 16) = rd64 s.mem (B + 16) ∧
      (rd64 s.mem (B + 16) ≠ 0 →
        rd64 s'.mem (rd64 s.mem (B + 16) + 8) = B + 24 + (roundUp8 n).toNat) ∧
      (rd64 s.mem (B + 8) ≠ 0 →
        rd64 s'.mem (rd64 s.mem (B + 8) + 16) = B + 24 + (roundUp8 n).toNat) ∧
      (s'.free_list_head = B + 24 + (roundUp8 n).toNat ↔ s.free_list_head = B) ∧
      freeAddrs (xs ++ ⟨B, F, true⟩ :: ys) = freeAddrs xs ++ B :: freeAddrs ys ∧
      freeAddrs (xs ++ ⟨B, (roundUp8 n).toNat + 24, false⟩ ::
          ⟨B + 24 + (roundUp8 n).toNat, F - ((roundUp8 n).toNat + 24), true⟩ :: ys)
        = freeAddrs xs ++ (B + 24 + (roundUp8 n).toNat) :: freeAddrs ys ∧
      WF s' (xs ++ ⟨B, (roundUp8 n).toNat + 24, false⟩ ::
          ⟨B + 24 + (roundUp8 n).toNat, F - ((roundUp8 n).toNat + 24), true⟩ :: ys) := by
  obtain ⟨hP, _⟩ := roundUp8_toNat n hn0
  have a1 : (((roundUp8 n).toNat + 24 : Nat) : Int) = roundUp8 n + 24 := by
    push_cast; omega
  have a2 : ((F - ((roundUp8 n).toNat + 24) : Nat) : Int) = (F : Int) - roundUp8 n - 24 := by
    omega
  obtain ⟨hcall, hwf'⟩ := smalloc_wf_found s xs ys B F n hwf hn0 hn1 hfirst (by omega)
  have hc : 24 ≤ F - ((roundUp8 n).toNat + 24) := by omega
  unfold takeBlocks at hwf'
  rw [if_pos hc] at hwf'
  have e1 := freeAddrs_mid xs ys B F
  have e2 : freeAddrs (xs ++ ⟨B, (roundUp8 n).toNat + 24, false⟩ ::
          ⟨B + 24 + (roundUp8 n).toNat, F - ((roundUp8 n).toNat + 24), true⟩ :: ys)
        = freeAddrs xs ++ (B + 24 + (roundUp8 n).toNat) :: freeAddrs ys := by
    simp [freeAddrs_append, freeAddrs_cons]
  have hl := hwf.1.links
  have hl' := hwf'.1.links
  have hnd := hwf.1.nodup
  have hnd' := hwf'.1.nodup
  have hh := hwf.1.head
  have hh' := hwf'.1.head
  rw [e1] at hl hnd hh
  rw [e2] at hl' hnd' hh'
  obtain ⟨_, d3, d4, _⟩ := (DL_append _ _ _ _ _).1 hl
  obtain ⟨c1, c3, c4, c5⟩ := (DL_append _ _ _ _ _).1 hl'
  simp only [List.headD_cons] at c1
  have hB := hwf'.1.hdr ⟨B, (roundUp8 n).toNat + 24, false⟩ (by simp)
  have hB' := hwf'.1.hdr ⟨B + 24 + (roundUp8 n).toNat, F - ((roundUp8 n).toNat + 24), true⟩
    (by simp)
  simp only [HdrOK, Bool.false_eq_true, if_false, if_true] at hB hB'
  refine ⟨_, hcall, ?_, hB.2, ?_, hB'.2, ?_, ?_, ?_, ?_, ?_, e1, e2, hwf'⟩
  · rw [hB.1]; exact a1
  · rw [hB'.1]; exact a2
  · rw [c4, d4]
  · rw [c3, d3]
  · rw [d3]
    intro hne
    have : freeAddrs xs ≠ [] := by
      intro e; rw [e] at hne; exact hne rfl
    exact DL_last_next _ _ _ _ c1 this
  · rw [d4]
    intro hne
    have : freeAddrs ys ≠ [] := by
      intro e; rw [e] at hne; exact hne rfl
    exact DL_head_prev _ _ _ _ c5 this
  · rw [hh, hh']
    cases hfx : freeAddrs xs with
    | nil => simp
    | cons a rest =>
      rw [hfx] at hnd hnd'
      simp only [List.cons_append, List.headD_cons]
      have n1 : a ≠ B := by
        intro e
        have := (List.nodup_cons.1 hnd).1
        rw [e] at this
        exact this (by simp)
      have n2 : a ≠ B + 24 + (roundUp8 n).toNat := by
        intro e
        have := (List.nodup_cons.1 hnd').1
        rw [e] at this
        exact this (by simp)
      simp [n1, n2]

/-- Witness for C3 (scenario S1): on the fresh 4096-byte arena `smalloc(100)`
returns the payload at offset 24 with 0 hops; the block at offset 0 has size
128 and the free block at offset 128 has size 3968. -/
theorem smalloc_split_witness :
    ∃ s' : State,
      (∀ fuel, 0 < fuel → smalloc fuel fresh 100 = some (4096 + 24, ⟨1, 24, 0⟩, s')) ∧
      rd32 s'.mem 4096 = 128 ∧ rd32 s'.mem (4096 + 4) = 1 ∧
      rd32 s'.mem (4096 + 128) = 3968 ∧ rd32 s'.mem (4096 + 128 + 4) = 0 ∧
      s'.free_list_head = 4096 + 128 ∧
      WF s' [⟨4096, 128, false⟩, ⟨4096 + 128, 3968, true⟩] := by
  obtain ⟨s', h1, h2, h3, h4, h5, _, _, _, _, h10, _, _, h13⟩ :=
    smalloc_split fresh [] [] 4096 4096 100 fresh_wf (by decide) (by decide)
      (by simp) (by decide)
  have e : (roundUp8 100).toNat = 104 := by decide
  have e' : roundUp8 100 = 104 := by decide
  rw [e] at h4 h5 h10 h13
  rw [e'] at h2 h4
  exact ⟨s', h1, h2, h3, h4, h5, h10.2 rfl, h13⟩

/-- C4: in a well-formed state, when the first free block `B` that is large
enough for the request `n` has size `F` with `0 ≤ F - (P + 24) < 24`, `smalloc`
returns `B + 24`; afterwards `B` still has size `F` and is allocated, it is no
longer in the free list, its former neighbours point to each other, and the
head is the former `next` of `B` when `B` was the head.  When `B` was the only
free block the free list is empty afterwards and the head is `NULL`. -/
theorem smalloc_absorb (s : State) (xs ys : List Blk) (B F : Nat) (n : Int)
    (hwf : WF s (xs ++ ⟨B, F, true⟩ :: ys))
    (hn0 : 0 ≤ n) (hn1 : n < 2147483648)
    (hfirst : ∀ b ∈ xs, b.free = true → (b.size : Int) < roundUp8 n + 24)
    (hfit : 0 ≤ (F : Int) - (roundUp8 n + 24))
    (hsmall : (F : Int) - (roundUp8 n + 24) < 24) :
    ∃ s' : State,
      (∀ fuel, (freeAddrs xs).length < fuel → smalloc fuel s n = some (B + 24,
        ⟨1, (B : Int) + 24 - (s.heap_address : Int), (freeAddrs xs).length⟩, s')) ∧
      rd32 s'.mem B = (F : Int) ∧ rd32 s'.mem (B + 4) = 1 ∧
      (rd64 s.mem (B + 16) ≠ 0 →
        rd64 s'.mem (rd64 s.mem (B + 16) + 8) = rd64 s.mem (B + 8)) ∧
      (rd64 s.mem (B + 8) ≠ 0 →
        rd64 s'.mem (rd64 s.mem (B + 8) + 16) = rd64 s.mem (B + 16)) ∧
      (s.free_list_head = B → s'.free_list_head = rd64 s.mem (B + 8)) ∧
      (s.free_list_head ≠ B → s'.free_list_head = s.free_list_head) ∧
      freeAddrs (xs ++ ⟨B, F, true⟩ :: ys) = freeAddrs xs ++ B :: freeAddrs ys ∧
      freeAddrs (xs ++ ⟨B, F, false⟩ :: ys) = freeAddrs xs ++ freeAddrs ys ∧
      (freeAddrs (xs ++ ⟨B, F, true⟩ :: ys) = [B] →
        freeAddrs (xs ++ ⟨B, F, false⟩ :: ys) = [] ∧ s'.free_list_head = 0) ∧
      WF s' (xs ++ ⟨B, F, false⟩ :: ys) := by
  obtain ⟨hP, _⟩ := roundUp8_toNat n hn0
  have hc : ¬ 24 ≤ F - ((roundUp8 n).toNat + 24) := by omega
  obtain ⟨hcall, hwf'⟩ := smalloc_wf_found s xs ys B F n hwf hn0 hn1 hfirst (by omega)
  unfold takeBlocks at hwf'
  rw [if_neg hc] at hwf'
  generalize smalloc_take s (found n F B (freeAddrs xs).length) = s' at hcall hwf'
  have e1 := freeAddrs_mid xs ys B F
  have e2 : freeAddrs (xs ++ ⟨B, F, false⟩ :: ys) = freeAddrs xs ++ freeAddrs ys := by
    simp [freeAddrs_append, freeAddrs_cons]
  have hl := hwf.1.links
  have hl' := hwf'.1.links
  have hnd := hwf.1.nodup
  have hh := hwf.1.head
  have hh' := hwf'.1.head
  rw [e1] at hl hnd hh
  rw [e2] at hl' hh'
  obtain ⟨_, d3, d4, _⟩ := (DL_append _ _ _ _ _).1 hl
  obtain ⟨c1, c2⟩ := (DL_append _ _ _ _ _).1 hl'
  have hB := hwf'.1.hdr ⟨B, F, false⟩ (by simp)
  simp only [HdrOK, Bool.false_eq_true, if_false] at hB
  have hhead : (s.free_list_head = B → s'.free_list_head = rd64 s.mem (B + 8)) ∧
      (s.free_list_head ≠ B → s'.free_list_head = s.free_list_head) := by
    rw [hh, hh', d4]
    cases hfx : freeAddrs xs with
    | nil => simp
    | cons a rest =>
      rw [hfx] at hnd
      have n1 : a ≠ B := by
        intro e
        have := (List.nodup_cons.1 hnd).1
        rw [e] at this
        exact this (by simp)
      simp [n1]
  refine ⟨s', hcall, hB.1, hB.2, ?_, ?_, hhead.1, hhead.2, e1, e2, ?_, hwf'⟩
  · rw [d3, d4]
    intro hne
    have : freeAddrs xs ≠ [] := by
      intro e; rw [e] at hne; exact hne rfl
    exact DL_last_next _ _ _ _ c1 this
  · rw [d3, d4]
    intro hne
    have : freeAddrs ys ≠ [] := by
      intro e; rw [e] at hne; exact hne rfl
    have h := DL_head_prev _ _ _ _ c2 this
    rw [h]
  · rw [e1, e2]
    intro h1
    have hx : freeAddrs xs = [] := by
      cases hfx : freeAddrs xs with
      | nil => rfl
      | cons a rest =>
        rw [hfx] at h1
        simp at h1
    rw [hx] at h1 hh' ⊢
    simp only [List.nil_append, List.cons.injEq, true_and] at h1
    rw [h1] at hh' ⊢
    exact ⟨rfl, hh'⟩

theorem afterS1_wf : WF afterS1 [⟨4096, 128, false⟩, ⟨4224, 3968, true⟩] :=
  (smalloc_wf_found fresh [] [] 4096 4096 100 fresh_wf (by decide) (by decide)
    (by simp) (by decide)).2

/-- Witness for C4 (scenario S2): after `smalloc(100)` on the fresh arena the
only free block is the one at offset 128, of size 3968; `smalloc(3944)` takes
it whole, the free list becomes empty and the head becomes `NULL`. -/
theorem smalloc_absorb_witness :
    ∃ s' : State,
      (∀ fuel, 0 < fuel → smalloc fuel afterS1 3944 = some (4224 + 24, ⟨1, 152, 0⟩, s')) ∧
      rd32 s'.mem 4224 = 3968 ∧ rd32 s'.mem (4224 + 4) = 1 ∧
      freeAddrs [⟨4096, 128, false⟩, ⟨4224, 3968, false⟩] = [] ∧
      s'.free_list_head = 0 ∧
      WF s' [⟨4096, 128, false⟩, ⟨4224, 3968, false⟩] := by
  obtain ⟨s', h1, h2, h3, _, _, _, _, _, _, h10, h11⟩ :=
    smalloc_absorb afterS1 [⟨4096, 128, false⟩] [] 4224 3968 3944 afterS1_wf
      (by decide) (by decide) (by simp) (by decide) (by decide)
  exact ⟨s', h1, h2, h3, (h10 (by decide)).1, (h10 (by decide)).2, h11⟩

/-! ## `smalloc` preserves well-formedness -/

/-- C7: for every well-formed state and every request `n` of type `int`,
`smalloc` returns, and the state after the call (failed, split or absorbed) is
again well formed for some block list `bs'`: the blocks tile the arena with
sizes at least 24 and multiples of 8, the free list is doubly linked in
strictly increasing address order from `free_list_head`, which is the lowest
free address (and `NULL` iff no block is free), and no two adjacent blocks are
both free. -/
theorem smalloc_preserves_wf (s : State) (bs : List Blk) (n : Int) (hwf : WF s bs)
    (hn : IsInt32 n) :
    ∃ (r : Nat × Malloc_Status × State) (bs' : List Blk),
      (∀ fuel, (freeAddrs bs).length < fuel → smalloc fuel s n = some r) ∧
      WF r.2.2 bs' ∧
      Tiles r.2.2.heap_address bs' (r.2.2.heap_address + r.2.2.heap_size.toNat) ∧
      (∀ b ∈ bs', 24 ≤ b.size ∧ b.size % 8 = 0 ∧ rd32 r.2.2.mem b.addr = (b.size : Int) ∧
        rd32 r.2.2.mem (b.addr + 4) = if b.free = true then 0 else 1) ∧
      (freeAddrs bs').Pairwise (fun x y => x < y) ∧
      DL r.2.2.mem 0 (freeAddrs bs') 0 ∧
      r.2.2.free_list_head = (freeAddrs bs').headD 0 ∧
      (r.2.2.free_list_head = 0 ↔ ∀ b ∈ bs', b.free = false) ∧
      (∀ a ∈ freeAddrs bs', r.2.2.free_list_head ≤ a) ∧
      NoAdjFree bs' := by
  by_cases hneg : n < 0
  · have hx := hwf.explicit
    exact ⟨((0 : Nat), (⟨0, -1, -1⟩ : Malloc_Status), s), bs,
      fun fuel _ => smalloc_neg s n hneg fuel, hwf, hx⟩
  · rcases smalloc_wf_cases s bs n hwf (by omega) hn.2 with ⟨_, h⟩ | ⟨xs, ys, B, F, e, _, _, h, hwf'⟩
    · have hx := hwf.explicit
      exact ⟨((0 : Nat), (⟨0, -1, -1⟩ : Malloc_Status), s), bs, h, hwf, hx⟩
    · have hx := hwf'.explicit
      refine ⟨(B + 24, ⟨1, (B : Int) + 24 - (s.heap_address : Int), (freeAddrs xs).length⟩,
        smalloc_take s (found n F B (freeAddrs xs).length)),
        takeBlocks xs ys B F (roundUp8 n).toNat, ?_, hwf', hx⟩
      intro fuel hf
      refine h fuel ?_
      have : (freeAddrs xs).length ≤ (freeAddrs bs).length := by
        rw [e, freeAddrs_mid]; simp
      omega

/-- Witness for C7: `smalloc(100)` on the fresh arena. -/
theorem smalloc_preserves_wf_witness :
    ∃ (r : Nat × Malloc_Status × State) (bs' : List Blk),
      (∀ fuel, (freeAddrs [⟨4096, 4096, true⟩]).length < fuel →
        smalloc fuel fresh 100 = some r) ∧
      WF r.2.2 bs' ∧
      Tiles r.2.2.heap_address bs' (r.2.2.heap_address + r.2.2.heap_size.toNat) ∧
      (∀ b ∈ bs', 24 ≤ b.size ∧ b.size % 8 = 0 ∧ rd32 r.2.2.mem b.addr = (b.size : Int) ∧
        rd32 r.2.2.mem (b.addr + 4) = if b.free = true then 0 else 1) ∧
      (freeAddrs bs').Pairwise (fun x y => x < y) ∧
      DL r.2.2.mem 0 (freeAddrs bs') 0 ∧
      r.2.2.free_list_head = (freeAddrs bs').headD 0 ∧
      (r.2.2.free_list_head = 0 ↔ ∀ b ∈ bs', b.free = false) ∧
      (∀ a ∈ freeAddrs bs', r.2.2.free_list_head ≤ a) ∧
      NoAdjFree bs' :=
  smalloc_preserves_wf fresh [⟨4096, 4096, true⟩] 100 fresh_wf (by decide)

/-! ## Header fields of separated blocks do not interfere -/

theorem Far.symm {x a : Nat} (h : Far x a) : Far a x := Or.symm h

theorem size_wr_size (m : Mem) (a x : Nat) (v : Int) (h : Far x a) :
    rd32 (wr32 m a v) x = rd32 m x := by
  apply rd32_wr32_disj
  unfold Far at h
  omega

theorem size_wr_alloc (m : Mem) (a x : Nat) (v : Int) (h : x = a ∨ Far x a) :
    rd32 (wr32 m (a + 4) v) x = rd32 m x := by
  apply rd32_wr32_disj
  unfold Far at h
  omega

theorem size_wr_next (m : Mem) (a x : Nat) (v : Nat) (h : x = a ∨ Far x a) :
    rd32 (wr64 m (a + 8) v) x = rd32 m x := by
  apply rd32_wr64_disj
  unfold Far at h
  omega

theorem size_wr_prev (m : Mem) (a x : Nat) (v : Nat) (h : x = a ∨ Far x a) :
    rd32 (wr64 m (a + 16) v) x = rd32 m x := by
  apply rd32_wr64_disj
  unfold Far at h
  omega

theorem alloc_wr_size (m : Mem) (a x : Nat) (v : Int) (h : x = a ∨ Far x a) :
    rd32 (wr32 m a v) (x + 4) = rd32 m (x + 4) := by
  apply rd32_wr32_disj
  unfold Far at h
  omega

theorem alloc_wr_alloc (m : Mem) (a x : Nat) (v : Int) (h : Far x a) :
    rd32 (wr32 m (a + 4) v) (x + 4) = rd32 m (x + 4) := by
  apply rd32_wr32_disj
  unfold Far at h
  omega

theorem alloc_wr_next (m : Mem) (a x : Nat) (v : Nat) (h : x = a ∨ Far x a) :
    rd32 (wr64 m (a + 8) v) (x + 4) = rd32 m (x + 4) := by
  apply rd32_wr64_disj
  unfold Far at h
  omega

theorem alloc_wr_prev (m : Mem) (a x : Nat) (v : Nat) (h : x = a ∨ Far x a) :
    rd32 (wr64 m (a + 16) v) (x + 4) = rd32 m (x + 4) := by
  apply rd32_wr64_disj
  unfold Far at h
  omega

theorem next_wr_size (m : Mem) (a x : Nat) (v : Int) (h : x = a ∨ Far x a) :
    rd64 (wr32 m a v) (x + 8) = rd64 m (x + 8) := by
  apply rd64_wr32_disj
  unfold Far at h
  omega

theorem next_wr_alloc (m : Mem) (a x : Nat) (v : Int) (h : x = a ∨ Far x a) :
    rd64 (wr32 m (a + 4) v) (x + 8) = rd64 m (x + 8) := by
  apply rd64_wr32_disj
  unfold Far at h
  omega

theorem next_wr_next (m : Mem) (a x : Nat) (v : Nat) (h : Far x a) :
    rd64 (wr64 m (a + 8) v) (x + 8) = rd64 m (x + 8) := by
  apply rd64_wr64_disj
  unfold Far at h
  omega

theorem next_wr_prev (m : Mem) (a x : Nat) (v : Nat) (h : x = a ∨ Far x a) :
    rd64 (wr64 m (a + 16) v) (x + 8) = rd64 m (x + 8) := by
  apply rd64_wr64_disj
  unfold Far at h
  omega

theorem prev_wr_size (m : Mem) (a x : Nat) (v : Int) (h : x = a ∨ Far x a) :
    rd64 (wr32 m a v) (x + 16) = rd64 m (x + 16) := by
  apply rd64_wr32_disj
  unfold Far at h
  omega

theorem prev_wr_alloc (m : Mem) (a x : Nat) (v : Int) (h : x = a ∨ Far x a) :
    rd64 (wr32 m (a + 4) v) (x + 16) = rd64 m (x + 16) := by
  apply rd64_wr32_disj
  unfold Far at h
  omega

theorem prev_wr_next (m : Mem) (a x : Nat) (v : Nat) (h : x = a ∨ Far x a) :
    rd64 (wr64 m (a + 8) v) (x + 16) = rd64 m (x + 16) := by
  apply rd64_wr64_disj
  unfold Far at h
  omega

theorem prev_wr_prev (m : Mem) (a x : Nat) (v : Nat) (h : Far x a) :
    rd64 (wr64 m (a + 16) v) (x + 16) = rd64 m (x + 16) := by
  apply rd64_wr64_disj
  unfold Far at h
  omega


theorem wrap32_wrap32 (x : Int) : wrap32 (wrap32 x) = wrap32 x := by
  unfold wrap32; omega

/-! ## The effect of `sfree_insert` on memory -/

theorem insert_neither_mem (s : State) (H L R NN T : Nat)
    (hl : (decide (L ≠ 0) && decide (rd32 s.mem (L + 4) = 0) &&
      decide (padd L (rd32 s.mem L) = H)) = false)
    (hr : (decide (R ≠ 0) && decide (rd32 s.mem (R + 4) = 0) &&
      decide (padd H (rd32 s.mem H) = R)) = false)
    (hH64 : H < 18446744073709551616) (hL64 : L < 18446744073709551616)
    (hR64 : R < 18446744073709551616) :
    (sfree_insert s H L R NN T).free_list_head
      = (if T = s.free_list_head ∨ s.free_list_head = 0 then H else s.free_list_head) ∧
    (sfree_insert s H L R NN T).heap_address = s.heap_address ∧
    (sfree_insert s H L R NN T).heap_size = s.heap_size ∧
    ∀ x, x ≠ 0 → (L = 0 ∨ x = L ∨ Far x L) → (x = H ∨ Far x H) → (R = 0 ∨ x = R ∨ Far x R) →
      rd32 (sfree_insert s H L R NN T).mem x = rd32 s.mem x ∧
      rd32 (sfree_insert s H L R NN T).mem (x + 4) = (if x = H then 0 else rd32 s.mem (x + 4)) ∧
      rd64 (sfree_insert s H L R NN T).mem (x + 8) = (if x = H then R else if x = L then H else rd64 s.mem (x + 8)) ∧
      rd64 (sfree_insert s H L R NN T).mem (x + 16) = (if x = H then L else if x = R then H else rd64 s.mem (x + 16)) := by
  have mH := mod64 H hH64
  have mL := mod64 L hL64
  have mR := mod64 R hR64
  have mN := mod64 _ (rd64_lt s.mem (R + 8))
  unfold sfree_insert
  simp only [hl, hr, Bool.false_and, Bool.and_false, Bool.true_and, Bool.and_true, Bool.and_self, Bool.false_eq_true, if_false, if_true]
  refine ⟨trivial, trivial, trivial, ?_⟩
  intro x hx0 hxL hxH hxR
  by_cases hL0 : L = 0 <;> by_cases hR0 : R = 0 <;> by_cases eL : x = L <;> by_cases eH : x = H <;> by_cases eR : x = R
  all_goals
    try subst hL0
    try subst hR0
    first
      | exact absurd eL hx0
      | exact absurd eR hx0
      | skip
  all_goals
    try have fL : Far x L := (hxL.resolve_left hL0).resolve_left eL
    try have fH : Far x H := hxH.resolve_left eH
    try have fR : Far x R := (hxR.resolve_left hR0).resolve_left eR
    try subst eL
    try subst eH
    try subst eR
    simp only [size_wr_alloc, size_wr_next, size_wr_prev, alloc_wr_size, alloc_wr_next, alloc_wr_prev,
      next_wr_size, next_wr_alloc, next_wr_prev, prev_wr_size, prev_wr_alloc, prev_wr_next,
      size_wr_size, alloc_wr_alloc, next_wr_next, prev_wr_prev,
      rd32_wr32_same, rd64_wr64_same,
      wrap32_zero, ne_eq, not_true_eq_false, not_false_eq_true, if_true, if_false,
      true_or, or_true, and_self, *]

theorem insert_left_mem (s : State) (H L R NN T : Nat)
    (hl : (decide (L ≠ 0) && decide (rd32 s.mem (L + 4) = 0) &&
      decide (padd L (rd32 s.mem L) = H)) = true)
    (hr : (decide (R ≠ 0) && decide (rd32 s.mem (R + 4) = 0) &&
      decide (padd H (rd32 s.mem H) = R)) = false)
    (hH64 : H < 18446744073709551616) (hL64 : L < 18446744073709551616)
    (hR64 : R < 18446744073709551616) :
    (sfree_insert s H L R NN T).free_list_head
      = (if T = s.free_list_head ∨ s.free_list_head = 0 then H else s.free_list_head) ∧
    (sfree_insert s H L R NN T).heap_address = s.heap_address ∧
    (sfree_insert s H L R NN T).heap_size = s.heap_size ∧
    ∀ x, x ≠ 0 → (x = L ∨ Far x L) → (R = 0 ∨ x = R ∨ Far x R) →
      rd32 (sfree_insert s H L R NN T).mem x = (if x = L then wrap32 (rd32 s.mem L + rd32 s.mem H) else rd32 s.mem x) ∧
      rd32 (sfree_insert s H L R NN T).mem (x + 4) = rd32 s.mem (x + 4) ∧
      rd64 (sfree_insert s H L R NN T).mem (x + 8) = (if x = L then R else rd64 s.mem (x + 8)) ∧
      rd64 (sfree_insert s H L R NN T).mem (x + 16) = (if x = R then L else rd64 s.mem (x + 16)) := by
  have mH := mod64 H hH64
  have mL := mod64 L hL64
  have mR := mod64 R hR64
  have mN := mod64 _ (rd64_lt s.mem (R + 8))
  unfold sfree_insert
  simp only [hl, hr, Bool.false_and, Bool.and_false, Bool.true_and, Bool.and_true, Bool.and_self, Bool.false_eq_true, if_false, if_true]
  refine ⟨trivial, trivial, trivial, ?_⟩
  intro x hx0 hxL hxR
  by_cases hR0 : R = 0 <;> by_cases eL : x = L <;> by_cases eR : x = R
  all_goals
    try subst hR0
    first
      | exact absurd eR hx0
      | skip
  all_goals
    try have fL : Far x L := hxL.resolve_left eL
    try have fR : Far x R := (hxR.resolve_left hR0).resolve_left eR
    try subst eL
    try subst eR
    simp only [size_wr_alloc, size_wr_next, size_wr_prev, alloc_wr_size, alloc_wr_next, alloc_wr_prev,
      next_wr_size, next_wr_alloc, next_wr_prev, prev_wr_size, prev_wr_alloc, prev_wr_next,
      size_wr_size, alloc_wr_alloc, next_wr_next, prev_wr_prev,
      rd32_wr32_same, rd64_wr64_same,
      wrap32_wrap32, ne_eq, not_true_eq_false, not_false_eq_true, if_true, if_false,
      true_or, or_true, and_self, *]

theorem insert_right_mem (s : State) (H L R NN T : Nat)
    (hl : (decide (L ≠ 0) && decide (rd32 s.mem (L + 4) = 0) &&
      decide (padd L (rd32 s.mem L) = H)) = false)
    (hr : (decide (R ≠ 0) && decide (rd32 s.mem (R + 4) = 0) &&
      decide (padd H (rd32 s.mem H) = R)) = true)
    (hH64 : H < 18446744073709551616) (hL64 : L < 18446744073709551616)
    (hR64 : R < 18446744073709551616)
    (hRH : Far R H) :
    (sfree_insert s H L R NN T).free_list_head
      = (if T = s.free_list_head ∨ s.free_list_head = 0 then H else s.free_list_head) ∧
    (sfree_insert s H L R NN T).heap_address = s.heap_address ∧
    (sfree_insert s H L R NN T).heap_size = s.heap_size ∧
    ∀ x, x ≠ 0 → (x = H ∨ Far x H) → (L = 0 ∨ x = L ∨ Far x L) → (NN = 0 ∨ x = NN ∨ Far x NN) →
      rd32 (sfree_insert s H L R NN T).mem x = (if x = H then wrap32 (rd32 s.mem H + rd32 s.mem R) else rd32 s.mem x) ∧
      rd32 (sfree_insert s H L R NN T).mem (x + 4) = (if x = H then 0 else rd32 s.mem (x + 4)) ∧
      rd64 (sfree_insert s H L R NN T).mem (x + 8) = (if x = L then H else if x = H then rd64 s.mem (R + 8) else rd64 s.mem (x + 8)) ∧
      rd64 (sfree_insert s H L R NN T).mem (x + 16) = (if x = H then L else if x = NN then H else rd64 s.mem (x + 16)) := by
  have mH := mod64 H hH64
  have mL := mod64 L hL64
  have mR := mod64 R hR64
  have mN := mod64 _ (rd64_lt s.mem (R + 8))
  unfold sfree_insert
  simp only [hl, hr, Bool.false_and, Bool.and_false, Bool.true_and, Bool.and_true, Bool.and_self, Bool.false_eq_true, if_false, if_true]
  refine ⟨trivial, trivial, trivial, ?_⟩
  intro x hx0 hxH hxL hxNN
  by_cases hL0 : L = 0 <;> by_cases hNN0 : NN = 0 <;> by_cases eH : x = H <;> by_cases eL : x = L <;> by_cases eNN : x = NN
  all_goals
    try subst hL0
    try subst hNN0
    first
      | exact absurd eL hx0
      | exact absurd eNN hx0
      | skip
  all_goals
    try have fH : Far x H := hxH.resolve_left eH
    try have fL : Far x L := (hxL.resolve_left hL0).resolve_left eL
    try have fNN : Far x NN := (hxNN.resolve_left hNN0).resolve_left eNN
    try subst eH
    try subst eL
    try subst eNN
    simp only [size_wr_alloc, size_wr_next, size_wr_prev, alloc_wr_size, alloc_wr_next, alloc_wr_prev,
      next_wr_size, next_wr_alloc, next_wr_prev, prev_wr_size, prev_wr_alloc, prev_wr_next,
      size_wr_size, alloc_wr_alloc, next_wr_next, prev_wr_prev,
      rd32_wr32_same, rd64_wr64_same,
      wrap32_zero, wrap32_wrap32, ne_eq, not_true_eq_false, not_false_eq_true, if_true, if_false,
      true_or, or_true, and_self, *]

theorem insert_full_mem (s : State) (H L R NN T : Nat)
    (hl : (decide (L ≠ 0) && decide (rd32 s.mem (L + 4) = 0) &&
      decide (padd L (rd32 s.mem L) = H)) = true)
    (hr : (decide (R ≠ 0) && decide (rd32 s.mem (R + 4) = 0) &&
      decide (padd H (rd32 s.mem H) = R)) = true)
    (hH64 : H < 18446744073709551616) (hL64 : L < 18446744073709551616)
    (hR64 : R < 18446744073709551616)
    (hRL : Far R L) :
    (sfree_insert s H L R NN T).free_list_head
      = (if T = s.free_list_head ∨ s.free_list_head = 0 then H else s.free_list_head) ∧
    (sfree_insert s H L R NN T).heap_address = s.heap_address ∧
    (sfree_insert s H L R NN T).heap_size = s.heap_size ∧
    ∀ x, x ≠ 0 → (x = L ∨ Far x L) → (NN = 0 ∨ x = NN ∨ Far x NN) →
      rd32 (sfree_insert s H L R NN T).mem x = (if x = L then wrap32 (rd32 s.mem L + wrap32 (rd32 s.mem H + rd32 s.mem R)) else rd32 s.mem x) ∧
      rd32 (sfree_insert s H L R NN T).mem (x + 4) = rd32 s.mem (x + 4) ∧
      rd64 (sfree_insert s H L R NN T).mem (x + 8) = (if x = L then rd64 s.mem (R + 8) else rd64 s.mem (x + 8)) ∧
      rd64 (sfree_insert s H L R NN T).mem (x + 16) = (if x = NN then L else rd64 s.mem (x + 16)) := by
  have mH := mod64 H hH64
  have mL := mod64 L hL64
  have mR := mod64 R hR64
  have mN := mod64 _ (rd64_lt s.mem (R + 8))
  unfold sfree_insert
  simp only [hl, hr, Bool.false_and, Bool.and_false, Bool.true_and, Bool.and_true, Bool.and_self, Bool.false_eq_true, if_false, if_true]
  refine ⟨trivial, trivial, trivial, ?_⟩
  intro x hx0 hxL hxNN
  by_cases hNN0 : NN = 0 <;> by_cases eL : x = L <;> by_cases eNN : x = NN
  all_goals
    try subst hNN0
    first
      | exact absurd eNN hx0
      | skip
  all_goals
    try have fL : Far x L := hxL.resolve_left eL
    try have fNN : Far x NN := (hxNN.resolve_left hNN0).resolve_left eNN
    try subst eL
    try subst eNN
    simp only [size_wr_alloc, size_wr_next, size_wr_prev, alloc_wr_size, alloc_wr_next, alloc_wr_prev,
      next_wr_size, next_wr_alloc, next_wr_prev, prev_wr_size, prev_wr_alloc, prev_wr_next,
      size_wr_size, alloc_wr_alloc, next_wr_next, prev_wr_prev,
      rd32_wr32_same, rd64_wr64_same,
      wrap32_wrap32, ne_eq, not_true_eq_false, not_false_eq_true, if_true, if_false,
      true_or, or_true, and_self, *]


/-! ## The insertion-point walk of `sfree` -/

theorem sfree_walk_spec (s : State) (ptr : Nat) (post : List Nat) (pre : List Nat) :
    ∀ (p nb : Nat) (hops : Int) (fuel : Nat),
    DL s.mem p (pre ++ post) 0 → (∀ a ∈ pre ++ post, a ≠ 0) →
    (∀ a ∈ pre, ¬ ptr < a) → (post = [] ∨ ptr < post.headD 0) →
    pre.length < fuel → 0 ≤ hops → hops + pre.length < 2147483647 →
    (hops = 0 → p = 0) → (hops ≠ 0 → nb = p) →
    sfree_walk s ptr fuel ((pre ++ post).headD 0) nb hops =
      some (sfree_insert s (padd ptr (-24)) (lastD pre p) (post.headD 0)
        (post.tail.headD 0) (post.headD 0)) := by
  induction pre with
  | nil =>
    intro p nb hops fuel hd hnz _ hpost hf _ _ hp0 hnb
    obtain ⟨k, rfl⟩ : ∃ k, fuel = k + 1 := ⟨fuel - 1, by simp at hf; omega⟩
    simp only [List.nil_append, lastD] at hd hnz ⊢
    cases post with
    | nil =>
      have hprev : (if hops = 0 then 0 else nb) = p := by
        by_cases h0 : hops = 0
        · rw [if_pos h0, hp0 h0]
        · rw [if_neg h0, hnb h0]
      simp [sfree_walk, hprev]
    | cons t rest =>
      obtain ⟨d1, d2, _⟩ := hd
      have ht0 : t ≠ 0 := hnz t (List.mem_cons_self _ _)
      have hlt : ptr < t := by
        rcases hpost with h | h
        · simp at h
        · simpa using h
      simp [sfree_walk, ht0, hlt, d1, d2]
  | cons a pre' ih =>
    intro p nb hops fuel hd hnz hpre hpost hf hh0 hh1 _ _
    obtain ⟨k, rfl⟩ : ∃ k, fuel = k + 1 := ⟨fuel - 1, by simp at hf; omega⟩
    obtain ⟨_, d2, d3⟩ := hd
    have ha0 : a ≠ 0 := hnz a (List.mem_cons_self _ _)
    have hnlt : ¬ ptr < a := hpre a (List.mem_cons_self _ _)
    simp only [List.length_cons, Nat.cast_add, Nat.cast_one] at hh1
    have hw : wrap32 (hops + 1) = hops + 1 := wrap32_id _ (by omega) (by omega)
    have hrec := ih a a (hops + 1) k d3 (fun x hx => hnz x (List.mem_cons_of_mem _ hx))
      (fun x hx => hpre x (List.mem_cons_of_mem _ hx)) hpost (by simp at hf; omega)
      (by omega) (by omega) (fun h => by omega) (fun _ => rfl)
    rw [List.cons_append, List.headD_cons, sfree_walk]
    simp only [ha0, hnlt, if_false, or_self, ne_eq, not_false_eq_true, if_true, hw, d2]
    exact hrec


/-! ## `sfree_insert` preserves the invariant -/

theorem far_of_sep {x y : Nat} (h : x = y ∨ x + 24 ≤ y ∨ y + 24 ≤ x) : x = y ∨ Far x y := by
  rcases h with h | h
  · exact Or.inl h
  · exact Or.inr h

theorem head_update (pre post : List Nat) (H : Nat) (hnd : (pre ++ post).Nodup)
    (hnz : ∀ a ∈ pre ++ post, a ≠ 0) :
    (if post.headD 0 = (pre ++ post).headD 0 ∨ (pre ++ post).headD 0 = 0 then H
      else (pre ++ post).headD 0) = pre.headD H := by
  cases pre with
  | nil => simp
  | cons a rest =>
    have ha0 : a ≠ 0 := hnz a (by simp)
    have hne : post.headD 0 ≠ a := by
      intro e
      rcases headD_cases post 0 with ⟨_, e'⟩ | ⟨_, e'⟩
      · exact ha0 (e.symm.trans e')
      · rw [e] at e'
        exact (List.nodup_append.1 hnd).2.2 (List.mem_cons_self _ _) e'
    rw [List.cons_append, List.headD_cons, List.headD_cons, if_neg]
    intro h
    rcases h with h | h
    · exact hne h
    · exact ha0 h

theorem Inv.not_free_not_mem {s : State} {bs : List Blk} {fl : List Nat} (h : Inv s bs fl)
    (b : Blk) (hb : b ∈ bs) (hf : b.free = false) : b.addr ∉ fl := by
  intro hm
  obtain ⟨b', hb', hf', e⟩ := (mem_freeAddrs _ _).1 (h.perm.mem_iff.1 hm)
  have hb1 := Tiles_mem _ _ _ h.tiles b hb
  have hb2 := Tiles_mem _ _ _ h.tiles b' hb'
  rcases Tiles_sep _ _ _ h.tiles b b' hb hb' with e1 | e1 | e1
  · rw [e1] at hf; rw [hf] at hf'; exact absurd hf' (by simp)
  · omega
  · omega

/-- The facts about the free list and the block list that every case of
`sfree_insert` uses. -/
theorem Inv.insert_facts {s : State} {xs ys : List Blk} {pre post : List Nat} {H S : Nat}
    (hinv : Inv s (xs ++ ⟨H, S, false⟩ :: ys) (pre ++ post)) :
    H ≠ 0 ∧ H < 18446744073709551616 ∧
    (∀ a ∈ pre ++ post, a ≠ 0 ∧ a ≠ H ∧ a < 18446744073709551616 ∧
      a ∈ (xs ++ ⟨H, S, false⟩ :: ys).map (fun b => b.addr)) ∧
    (∀ x ∈ (xs ++ ⟨H, S, false⟩ :: ys).map (fun b => b.addr),
      ∀ y ∈ (xs ++ ⟨H, S, false⟩ :: ys).map (fun b => b.addr), x = y ∨ Far x y) ∧
    (∀ x ∈ (xs ++ ⟨H, S, false⟩ :: ys).map (fun b => b.addr), x ≠ 0) ∧
    H ∈ (xs ++ ⟨H, S, false⟩ :: ys).map (fun b => b.addr) := by
  have hHb := hinv.size_bound ⟨H, S, false⟩ (by simp)
  simp only at hHb
  have hnot := hinv.not_free_not_mem ⟨H, S, false⟩ (by simp) rfl
  simp only at hnot
  refine ⟨by omega, by omega, ?_, ?_, ?_, by simp⟩
  · intro a ha
    have hA := hinv.mem_addr a ha
    have hb := hinv.addr_bounds a hA
    refine ⟨by omega, ?_, by omega, hA⟩
    intro e
    rw [e] at ha
    exact hnot ha
  · intro x hx y hy
    exact far_of_sep (addr_sep _ _ _ hinv.tiles x y hx hy)
  · intro x hx
    have := (hinv.addr_bounds x hx).1
    omega


theorem freeAddrs_mid_alloc (xs ys : List Blk) (B F : Nat) :
    freeAddrs (xs ++ ⟨B, F, false⟩ :: ys) = freeAddrs xs ++ freeAddrs ys := by
  simp [freeAddrs_append, freeAddrs_cons]

theorem insert_neither_inv (s : State) (xs ys : List Blk) (pre post : List Nat) (H S : Nat)
    (hinv : Inv s (xs ++ ⟨H, S, false⟩ :: ys) (pre ++ post))
    (hl : (decide (lastD pre 0 ≠ 0) && decide (rd32 s.mem (lastD pre 0 + 4) = 0) &&
      decide (padd (lastD pre 0) (rd32 s.mem (lastD pre 0)) = H)) = false)
    (hr : (decide (post.headD 0 ≠ 0) && decide (rd32 s.mem (post.headD 0 + 4) = 0) &&
      decide (padd H (rd32 s.mem H) = post.headD 0)) = false) :
    Inv (sfree_insert s H (lastD pre 0) (post.headD 0) (post.tail.headD 0) (post.headD 0))
      (xs ++ ⟨H, S, true⟩ :: ys) (pre ++ H :: post) := by
  have hnd := hinv.nodup
  obtain ⟨hH0, hH64, hfl, hsep, hA0, hHA⟩ := hinv.insert_facts
  obtain ⟨t1, t2, t3, t4, _, _, t7, t8⟩ := Tiles_split _ _ _ _ _ hinv.tiles
  simp only at t1 t2 t3 t4 t7 t8
  obtain ⟨d1, d2⟩ := (DL_append _ _ _ _ _).1 hinv.links
  have hL : lastD pre 0 = 0 ∨ lastD pre 0 ∈ pre := by
    rcases lastD_cases pre 0 with ⟨_, e⟩ | ⟨_, e⟩
    · exact Or.inl e
    · exact Or.inr e
  have hR : post.headD 0 = 0 ∨ post.headD 0 ∈ post := by
    rcases headD_cases post 0 with ⟨_, e⟩ | ⟨_, e⟩
    · exact Or.inl e
    · exact Or.inr e
  have hL64 : lastD pre 0 < 18446744073709551616 := by
    rcases hL with e | e
    · rw [e]; norm_num
    · exact (hfl _ (List.mem_append_left _ e)).2.2.1
  have hR64 : post.headD 0 < 18446744073709551616 := by
    rcases hR with e | e
    · rw [e]; norm_num
    · exact (hfl _ (List.mem_append_right _ e)).2.2.1
  obtain ⟨m1, m2, m3, m4⟩ := insert_neither_mem s H (lastD pre 0) (post.headD 0)
    (post.tail.headD 0) (post.headD 0) hl hr hH64 hL64 hR64
  have hfr := fun x (hx : x ∈ (xs ++ ⟨H, S, false⟩ :: ys).map (fun b => b.addr)) =>
    m4 x (hA0 x hx)
      (by rcases hL with e | e
          · exact Or.inl e
          · exact Or.inr (hsep x hx _ (hfl _ (List.mem_append_left _ e)).2.2.2))
      (hsep x hx H hHA)
      (by rcases hR with e | e
          · exact Or.inl e
          · exact Or.inr (hsep x hx _ (hfl _ (List.mem_append_right _ e)).2.2.2))
  have hprepost : ∀ a ∈ pre, a ∉ post := fun a ha hp => (List.nodup_append.1 hnd).2.2 ha hp
  refine ⟨?_, ?_, ?_, ?_, ?_, ?_, ?_, ?_, ?_, ?_⟩
  · rw [m2]; exact hinv.base_pos
  · rw [m2]; exact hinv.base_al
  · rw [m3]; exact hinv.size_nn
  · rw [m3]; exact hinv.size_lt
  · rw [m2, m3]; exact hinv.top
  · rw [m2, m3]
    exact Tiles_join xs _ ⟨H, S, true⟩ _ _ t1 t2 t3 t4
  · intro b hb
    have hother : ∀ b' : Blk, b' ∈ xs ++ ⟨H, S, false⟩ :: ys → b'.addr ≠ H →
        HdrOK (sfree_insert s H (lastD pre 0) (post.headD 0) (post.tail.headD 0)
          (post.headD 0)).mem b' := by
      intro b' hb' hne
      have hf := hfr b'.addr (List.mem_map.2 ⟨b', hb', rfl⟩)
      have ho := hinv.hdr b' hb'
      rw [if_neg hne] at hf
      exact ⟨hf.1.trans ho.1, hf.2.1.trans ho.2⟩
    rcases List.mem_append.1 hb with hb | hb
    · exact hother b (List.mem_append_left _ hb) (by have := t7 b hb; omega)
    · rcases List.mem_cons.1 hb with rfl | hb
      · have hf := hfr H hHA
        have ho := hinv.hdr ⟨H, S, false⟩ (by simp)
        rw [if_pos rfl] at hf
        exact ⟨hf.1.trans ho.1, hf.2.1⟩
      · exact hother b (List.mem_append_right _ (List.mem_cons_of_mem _ hb))
          (by have := t8 b hb; omega)
  · rw [freeAddrs_mid]
    have := hinv.perm
    rw [freeAddrs_mid_alloc] at this
    exact perm_insert_mid _ _ _ _ _ this
  · rw [m1, hinv.head, head_update pre post H hnd (fun a ha => (hfl a ha).1)]
    cases pre <;> rfl
  · have hHf := hfr H hHA
    simp only [if_true] at hHf
    refine (DL_append _ _ _ _ _).2 ⟨?_, hHf.2.2.2, hHf.2.2.1, ?_⟩
    · refine DL_last s.mem _ pre _ _ 0 (List.nodup_append.1 hnd).1 d1 ?_ ?_ ?_
      · intro a ha
        have hm := hfl a (List.mem_append_left _ ha)
        have hf := hfr a hm.2.2.2
        rw [hf.2.2.2, if_neg hm.2.1, if_neg]
        intro e
        rcases hR with e' | e'
        · exact hm.1 (e.trans e')
        · exact hprepost a ha (e ▸ e')
      · intro a ha hne
        have hm := hfl a (List.mem_append_left _ ha)
        have hf := hfr a hm.2.2.2
        rw [hf.2.2.1, if_neg hm.2.1, if_neg hne]
      · intro hne
        have hmem : lastD pre 0 ∈ pre := lastD_mem _ _ hne
        have hm := hfl _ (List.mem_append_left _ hmem)
        have hf := hfr _ hm.2.2.2
        rw [hf.2.2.1, if_neg hm.2.1, if_pos rfl]
        rfl
    · refine DL_first s.mem _ post 0 _ _ (List.nodup_append.1 hnd).2.1 d2 ?_ ?_ ?_
      · intro a ha
        have hm := hfl a (List.mem_append_right _ ha)
        have hf := hfr a hm.2.2.2
        rw [hf.2.2.1, if_neg hm.2.1, if_neg]
        intro e
        rcases hL with e' | e'
        · exact hm.1 (e.trans e')
        · exact hprepost _ e' (e ▸ ha)
      · intro a ha hne
        have hm := hfl a (List.mem_append_right _ ha)
        have hf := hfr a hm.2.2.2
        rw [hf.2.2.2, if_neg hm.2.1, if_neg hne]
      · intro hne
        have hmem : post.headD 0 ∈ post := by
          rcases headD_cases post 0 with ⟨e, _⟩ | ⟨_, e⟩
          · exact absurd e hne
          · exact e
        have hm := hfl _ (List.mem_append_right _ hmem)
        have hf := hfr _ hm.2.2.2
        rw [hf.2.2.2, if_neg hm.2.1, if_pos rfl]


theorem sum_bound (base L sL H S : Nat) (hs : Int) (h1 : base ≤ L) (h2 : H = L + sL)
    (h3 : H + S ≤ base + hs.toNat) (h4 : hs < 2147483648) : sL + S < 2147483648 := by
  omega

theorem insert_left_inv (s : State) (xs ys : List Blk) (pre post : List Nat) (L sL H S : Nat)
    (hinv : Inv s (xs ++ ⟨L, sL, true⟩ :: ⟨H, S, false⟩ :: ys) (pre ++ L :: post))
    (hr : (decide (post.headD 0 ≠ 0) && decide (rd32 s.mem (post.headD 0 + 4) = 0) &&
      decide (padd H (rd32 s.mem H) = post.headD 0)) = false) :
    Inv (sfree_insert s H L (post.headD 0) (post.tail.headD 0) (post.headD 0))
      (xs ++ ⟨L, sL + S, true⟩ :: ys) (pre ++ L :: post) := by
  have hnd := hinv.nodup
  have hinv' : Inv s ((xs ++ [⟨L, sL, true⟩]) ++ ⟨H, S, false⟩ :: ys) ((pre ++ [L]) ++ post) := by
    simpa using hinv
  obtain ⟨hH0, hH64, hfl, hsep, hA0, hHA⟩ := hinv'.insert_facts
  have hA : (xs ++ [(⟨L, sL, true⟩ : Blk)]) ++ (⟨H, S, false⟩ : Blk) :: ys
      = xs ++ ⟨L, sL, true⟩ :: ⟨H, S, false⟩ :: ys := by simp
  have hflE : pre ++ [L] ++ post = pre ++ L :: post := by simp
  rw [hA] at hsep hA0 hHA hfl
  rw [hflE] at hfl
  obtain ⟨t1, t2, t3, t4, tA, _, t7, t8⟩ := Tiles_split _ _ _ _ _ hinv.tiles
  simp only at t1 t2 t3 t4 t7 t8 tA
  obtain ⟨t5, t6, _, t9⟩ := t4
  simp only at t5 t6 t9
  have hSS : sL + S < 2147483648 :=
    sum_bound _ _ _ _ _ _ tA t5 (t8 ⟨H, S, false⟩ (by simp)).2.2 hinv.size_lt
  have hLb := hinv.size_bound ⟨L, sL, true⟩ (by simp)
  have hHb := hinv.size_bound ⟨H, S, false⟩ (by simp)
  simp only at hLb hHb
  have hLhdr := hinv.hdr ⟨L, sL, true⟩ (by simp)
  have hHhdr := hinv.hdr ⟨H, S, false⟩ (by simp)
  simp only [HdrOK, if_true] at hLhdr hHhdr
  obtain ⟨d1, d3, d4, d5⟩ := (DL_append _ _ _ _ _).1 hinv.links
  have hLmem := hfl L (by simp)
  have hR : post.headD 0 = 0 ∨ post.headD 0 ∈ post := by
    rcases headD_cases post 0 with ⟨_, e⟩ | ⟨_, e⟩
    · exact Or.inl e
    · exact Or.inr e
  have hR64 : post.headD 0 < 18446744073709551616 := by
    rcases hR with e | e
    · rw [e]; norm_num
    · exact (hfl _ (List.mem_append_right _ (List.mem_cons_of_mem _ e))).2.2.1
  have hpadd : padd L (sL : Int) = H := by
    rw [padd_nat L sL (by omega)]; omega
  have hl : (decide (L ≠ 0) && decide (rd32 s.mem (L + 4) = 0) &&
      decide (padd L (rd32 s.mem L) = H)) = true := by
    rw [hLhdr.1, hLhdr.2, hpadd]
    simp [hLmem.1]
  have hsum : wrap32 (rd32 s.mem L + rd32 s.mem H) = ((sL + S : Nat) : Int) := by
    rw [hLhdr.1, hHhdr.1]
    exact (wrap32_nat (sL + S) hSS ▸ by push_cast; rfl)
  obtain ⟨m1, m2, m3, m4⟩ := insert_left_mem s H L (post.headD 0)
    (post.tail.headD 0) (post.headD 0) hl hr hH64 hLmem.2.2.1 hR64
  have hfr := fun x (hx : x ∈ (xs ++ ⟨L, sL, true⟩ :: ⟨H, S, false⟩ :: ys).map
      (fun b => b.addr)) =>
    m4 x (hA0 x hx) (hsep x hx L hLmem.2.2.2)
      (by rcases hR with e | e
          · exact Or.inl e
          · exact Or.inr (hsep x hx _ (hfl _ (List.mem_append_right _ (List.mem_cons_of_mem _ e))).2.2.2))
  refine ⟨?_, ?_, ?_, ?_, ?_, ?_, ?_, ?_, ?_, ?_⟩
  · rw [m2]; exact hinv.base_pos
  · rw [m2]; exact hinv.base_al
  · rw [m3]; exact hinv.size_nn
  · rw [m3]; exact hinv.size_lt
  · rw [m2, m3]; exact hinv.top
  · rw [m2, m3]
    refine Tiles_join xs _ ⟨L, sL + S, true⟩ _ _ t1 (by simp only; omega) (by simp only; omega) ?_
    have e : L + (sL + S) = L + sL + S := by omega
    simp only [e]
    exact t9
  · intro b hb
    have hother : ∀ b' : Blk, b' ∈ xs ++ ⟨L, sL, true⟩ :: ⟨H, S, false⟩ :: ys → b'.addr ≠ L →
        HdrOK (sfree_insert s H L (post.headD 0) (post.tail.headD 0)
          (post.headD 0)).mem b' := by
      intro b' hb' hne
      have hf := hfr b'.addr (List.mem_map.2 ⟨b', hb', rfl⟩)
      have ho := hinv.hdr b' hb'
      rw [if_neg hne] at hf
      exact ⟨hf.1.trans ho.1, hf.2.1.trans ho.2⟩
    rcases List.mem_append.1 hb with hb | hb
    · exact hother b (List.mem_append_left _ hb) (by have := t7 b hb; omega)
    · rcases List.mem_cons.1 hb with rfl | hb
      · have hf := hfr L hLmem.2.2.2
        simp only [if_true] at hf
        exact ⟨hf.1.trans hsum, hf.2.1.trans hLhdr.2⟩
      · exact hother b (List.mem_append_right _ (List.mem_cons_of_mem _ (List.mem_cons_of_mem _ hb)))
          (by have := t8 b (List.mem_cons_of_mem _ hb); omega)
  · have e1 : freeAddrs (xs ++ ⟨L, sL + S, true⟩ :: ys)
        = freeAddrs (xs ++ ⟨L, sL, true⟩ :: ⟨H, S, false⟩ :: ys) := by
      simp [freeAddrs_append, freeAddrs_cons]
    rw [e1]
    exact hinv.perm
  · have hu := head_update (pre ++ [L]) post H (by simpa using hnd)
      (fun a ha => (hfl a (by simpa using ha)).1)
    rw [hflE] at hu
    rw [m1, hinv.head, hu]
    cases pre <;> rfl
  · refine DL_congr s.mem _ _ 0 0 ?_ hinv.links
    intro a ha
    have hm := hfl a ha
    have hf := hfr a hm.2.2.2
    refine ⟨?_, ?_⟩
    · rw [hf.2.2.1]
      split
      · rename_i e; rw [e]; exact d4.symm
      · rfl
    · rw [hf.2.2.2]
      split
      · rename_i e
        rw [e]
        rcases headD_cases post 0 with ⟨e1, e2⟩ | ⟨e1, _⟩
        · exact absurd (e.trans e2) hm.1
        · exact (DL_head_prev _ _ _ _ d5 e1).symm
      · rfl


theorem insert_right_inv (s : State) (xs ys : List Blk) (pre post : List Nat) (H S R sR : Nat)
    (hinv : Inv s (xs ++ ⟨H, S, false⟩ :: ⟨R, sR, true⟩ :: ys) (pre ++ R :: post))
    (hl : (decide (lastD pre 0 ≠ 0) && decide (rd32 s.mem (lastD pre 0 + 4) = 0) &&
      decide (padd (lastD pre 0) (rd32 s.mem (lastD pre 0)) = H)) = false) :
    Inv (sfree_insert s H (lastD pre 0) R (post.headD 0) R)
      (xs ++ ⟨H, S + sR, true⟩ :: ys) (pre ++ H :: post) := by
  have hnd := hinv.nodup
  obtain ⟨hH0, hH64, hfl, hsep, hA0, hHA⟩ := hinv.insert_facts
  obtain ⟨t1, t2, t3, t4, tA, _, t7, t8⟩ := Tiles_split _ _ _ _ _ hinv.tiles
  simp only at t1 t2 t3 t4 t7 t8 tA
  obtain ⟨t5, t6, t6', t9⟩ := t4
  simp only at t5 t6 t6' t9
  have hSS : S + sR < 2147483648 :=
    sum_bound _ _ _ _ _ _ tA t5 (t8 ⟨R, sR, true⟩ (by simp)).2.2 hinv.size_lt
  have hRb := hinv.size_bound ⟨R, sR, true⟩ (by simp)
  have hHb := hinv.size_bound ⟨H, S, false⟩ (by simp)
  simp only at hRb hHb
  have hRhdr := hinv.hdr ⟨R, sR, true⟩ (by simp)
  have hHhdr := hinv.hdr ⟨H, S, false⟩ (by simp)
  simp only [HdrOK, if_true] at hRhdr hHhdr
  obtain ⟨d1, d3, d4, d5⟩ := (DL_append _ _ _ _ _).1 hinv.links
  simp only [List.headD_cons] at d1
  have hRmem := hfl R (by simp)
  have hL : lastD pre 0 = 0 ∨ lastD pre 0 ∈ pre := by
    rcases lastD_cases pre 0 with ⟨_, e⟩ | ⟨_, e⟩
    · exact Or.inl e
    · exact Or.inr e
  have hN : post.headD 0 = 0 ∨ post.headD 0 ∈ post := by
    rcases headD_cases post 0 with ⟨_, e⟩ | ⟨_, e⟩
    · exact Or.inl e
    · exact Or.inr e
  have hL64 : lastD pre 0 < 18446744073709551616 := by
    rcases hL with e | e
    · rw [e]; norm_num
    · exact (hfl _ (List.mem_append_left _ e)).2.2.1
  have hpadd : padd H (S : Int) = R := by
    rw [padd_nat H S (by omega)]; omega
  have hr : (decide (R ≠ 0) && decide (rd32 s.mem (R + 4) = 0) &&
      decide (padd H (rd32 s.mem H) = R)) = true := by
    rw [hRhdr.2, hHhdr.1, hpadd]
    simp [hRmem.1]
  have hRH : Far R H := by
    unfold Far; omega
  have hsum : wrap32 (rd32 s.mem H + rd32 s.mem R) = ((S + sR : Nat) : Int) := by
    rw [hRhdr.1, hHhdr.1]
    exact (wrap32_nat (S + sR) hSS ▸ by push_cast; rfl)
  obtain ⟨m1, m2, m3, m4⟩ := insert_right_mem s H (lastD pre 0) R (post.headD 0) R hl hr
    hH64 hL64 hRmem.2.2.1 hRH
  have hfr := fun x (hx : x ∈ (xs ++ ⟨H, S, false⟩ :: ⟨R, sR, true⟩ :: ys).map
      (fun b => b.addr)) =>
    m4 x (hA0 x hx) (hsep x hx H hHA)
      (by rcases hL with e | e
          · exact Or.inl e
          · exact Or.inr (hsep x hx _ (hfl _ (List.mem_append_left _ e)).2.2.2))
      (by rcases hN with e | e
          · exact Or.inl e
          · exact Or.inr (hsep x hx _
              (hfl _ (List.mem_append_right _ (List.mem_cons_of_mem _ e))).2.2.2))
  have hprepost : ∀ a ∈ pre, a ∉ post := fun a ha hp =>
    (List.nodup_append.1 hnd).2.2 ha (List.mem_cons_of_mem _ hp)
  have hLH : ¬ H = lastD pre 0 := by
    intro e
    rcases hL with e' | e'
    · exact hH0 (e.trans e')
    · exact (hfl _ (List.mem_append_left _ e')).2.1 e.symm
  refine ⟨?_, ?_, ?_, ?_, ?_, ?_, ?_, ?_, ?_, ?_⟩
  · rw [m2]; exact hinv.base_pos
  · rw [m2]; exact hinv.base_al
  · rw [m3]; exact hinv.size_nn
  · rw [m3]; exact hinv.size_lt
  · rw [m2, m3]; exact hinv.top
  · rw [m2, m3]
    refine Tiles_join xs _ ⟨H, S + sR, true⟩ _ _ t1 (by simp only; omega) (by simp only; omega) ?_
    have e : H + (S + sR) = H + S + sR := by omega
    simp only [e]
    exact t9
  · intro b hb
    have hother : ∀ b' : Blk, b' ∈ xs ++ ⟨H, S, false⟩ :: ⟨R, sR, true⟩ :: ys → b'.addr ≠ H →
        HdrOK (sfree_insert s H (lastD pre 0) R (post.headD 0) R).mem b' := by
      intro b' hb' hne
      have hf := hfr b'.addr (List.mem_map.2 ⟨b', hb', rfl⟩)
      have ho := hinv.hdr b' hb'
      rw [if_neg hne, if_neg hne] at hf
      exact ⟨hf.1.trans ho.1, hf.2.1.trans ho.2⟩
    rcases List.mem_append.1 hb with hb | hb
    · exact hother b (List.mem_append_left _ hb) (by have := t7 b hb; omega)
    · rcases List.mem_cons.1 hb with rfl | hb
      · have hf := hfr H hHA
        simp only [if_true] at hf
        exact ⟨hf.1.trans hsum, hf.2.1⟩
      · exact hother b
          (List.mem_append_right _ (List.mem_cons_of_mem _ (List.mem_cons_of_mem _ hb)))
          (by have := t8 b (List.mem_cons_of_mem _ hb); omega)
  · have e1 : freeAddrs (xs ++ ⟨H, S + sR, true⟩ :: ys)
        = freeAddrs xs ++ H :: freeAddrs ys := by
      simp [freeAddrs_append, freeAddrs_cons]
    have e2 : freeAddrs (xs ++ ⟨H, S, false⟩ :: ⟨R, sR, true⟩ :: ys)
        = freeAddrs xs ++ R :: freeAddrs ys := by
      simp [freeAddrs_append, freeAddrs_cons]
    rw [e1]
    exact perm_replace_mid _ _ _ _ _ _ (e2 ▸ hinv.perm)
  · have hu := head_update pre (R :: post) H hnd (fun a ha => (hfl a ha).1)
    simp only [List.headD_cons] at hu
    rw [m1, hinv.head, hu]
    cases pre <;> rfl
  · have hHf := hfr H hHA
    simp only [if_true, if_neg hLH] at hHf
    refine (DL_append _ _ _ _ _).2 ⟨?_, hHf.2.2.2, hHf.2.2.1.trans d4, ?_⟩
    · refine DL_last s.mem _ pre _ _ 0 (List.nodup_append.1 hnd).1 d1 ?_ ?_ ?_
      · intro a ha
        have hm := hfl a (List.mem_append_left _ ha)
        have hf := hfr a hm.2.2.2
        rw [hf.2.2.2, if_neg hm.2.1, if_neg]
        intro e
        rcases hN with e' | e'
        · exact hm.1 (e.trans e')
        · exact hprepost a ha (e ▸ e')
      · intro a ha hne
        have hm := hfl a (List.mem_append_left _ ha)
        have hf := hfr a hm.2.2.2
        rw [hf.2.2.1, if_neg hne, if_neg hm.2.1]
      · intro hne
        have hmem : lastD pre 0 ∈ pre := lastD_mem _ _ hne
        have hm := hfl _ (List.mem_append_left _ hmem)
        have hf := hfr _ hm.2.2.2
        rw [hf.2.2.1, if_pos rfl]
        rfl
    · refine DL_first s.mem _ post 0 _ _
        (List.nodup_cons.1 (List.nodup_append.1 hnd).2.1).2 d5 ?_ ?_ ?_
      · intro a ha
        have hm := hfl a (List.mem_append_right _ (List.mem_cons_of_mem _ ha))
        have hf := hfr a hm.2.2.2
        rw [hf.2.2.1, if_neg, if_neg hm.2.1]
        intro e
        rcases hL with e' | e'
        · exact hm.1 (e.trans e')
        · exact hprepost _ e' (e ▸ ha)
      · intro a ha hne
        have hm := hfl a (List.mem_append_right _ (List.mem_cons_of_mem _ ha))
        have hf := hfr a hm.2.2.2
        rw [hf.2.2.2, if_neg hm.2.1, if_neg hne]
      · intro hne
        have hmem : post.headD 0 ∈ post := by
          rcases headD_cases post 0 with ⟨e, _⟩ | ⟨_, e⟩
          · exact absurd e hne
          · exact e
        have hm := hfl _ (List.mem_append_right _ (List.mem_cons_of_mem _ hmem))
        have hf := hfr _ hm.2.2.2
        rw [hf.2.2.2, if_neg hm.2.1, if_pos rfl]


theorem sum_bound3 (base L sL H S R sR : Nat) (hs : Int) (h1 : base ≤ L) (h2 : H = L + sL)
    (h2' : R = L + sL + S) (h3 : R + sR ≤ base + hs.toNat) (h4 : hs < 2147483648) :
    sL + S + sR < 2147483648 ∧ S + sR < 2147483648 := by
  omega

theorem insert_full_inv (s : State) (xs ys : List Blk) (pre post : List Nat)
    (L sL H S R sR : Nat)
    (hinv : Inv s (xs ++ ⟨L, sL, true⟩ :: ⟨H, S, false⟩ :: ⟨R, sR, true⟩ :: ys)
      (pre ++ L :: R :: post)) :
    Inv (sfree_insert s H L R (post.headD 0) R)
      (xs ++ ⟨L, sL + S + sR, true⟩ :: ys) (pre ++ L :: post) := by
  have hnd := hinv.nodup
  have hinv' : Inv s ((xs ++ [⟨L, sL, true⟩]) ++ ⟨H, S, false⟩ :: (⟨R, sR, true⟩ :: ys))
      ((pre ++ [L]) ++ R :: post) := by
    simpa using hinv
  obtain ⟨hH0, hH64, hfl, hsep, hA0, hHA⟩ := hinv'.insert_facts
  have hA : (xs ++ [(⟨L, sL, true⟩ : Blk)]) ++ (⟨H, S, false⟩ : Blk) :: (⟨R, sR, true⟩ :: ys)
      = xs ++ ⟨L, sL, true⟩ :: ⟨H, S, false⟩ :: ⟨R, sR, true⟩ :: ys := by simp
  have hflE : pre ++ [L] ++ R :: post = pre ++ L :: R :: post := by simp
  rw [hA] at hsep hA0 hHA hfl
  rw [hflE] at hfl
  obtain ⟨t1, t2, t3, t4, tA, _, t7, t8⟩ := Tiles_split _ _ _ _ _ hinv.tiles
  simp only at t1 t2 t3 t4 t7 t8 tA
  obtain ⟨t5, t6, t6', t9⟩ := t4
  simp only at t5 t6 t6' t9
  obtain ⟨u5, u6, u6', u9⟩ := t9
  simp only at u5 u6 u6' u9
  have hSS := sum_bound3 _ _ _ _ _ _ _ _ tA t5 u5
    (t8 ⟨R, sR, true⟩ (by simp)).2.2 hinv.size_lt
  have hLb := hinv.size_bound ⟨L, sL, true⟩ (by simp)
  have hHb := hinv.size_bound ⟨H, S, false⟩ (by simp)
  have hRb := hinv.size_bound ⟨R, sR, true⟩ (by simp)
  simp only at hLb hHb hRb
  have hLhdr := hinv.hdr ⟨L, sL, true⟩ (by simp)
  have hHhdr := hinv.hdr ⟨H, S, false⟩ (by simp)
  have hRhdr := hinv.hdr ⟨R, sR, true⟩ (by simp)
  simp only [HdrOK, if_true] at hLhdr hHhdr hRhdr
  obtain ⟨d1, d3, d4, d5, d6, d7⟩ := (DL_append _ _ _ _ _).1 hinv.links
  simp only [List.headD_cons] at d1 d4
  have hLmem := hfl L (by simp)
  have hRmem := hfl R (by simp)
  have hN : post.headD 0 = 0 ∨ post.headD 0 ∈ post := by
    rcases headD_cases post 0 with ⟨_, e⟩ | ⟨_, e⟩
    · exact Or.inl e
    · exact Or.inr e
  have hpaddL : padd L (sL : Int) = H := by
    rw [padd_nat L sL (by omega)]; omega
  have hpaddH : padd H (S : Int) = R := by
    rw [padd_nat H S (by omega)]; omega
  have hl : (decide (L ≠ 0) && decide (rd32 s.mem (L + 4) = 0) &&
      decide (padd L (rd32 s.mem L) = H)) = true := by
    rw [hLhdr.1, hLhdr.2, hpaddL]
    simp [hLmem.1]
  have hr : (decide (R ≠ 0) && decide (rd32 s.mem (R + 4) = 0) &&
      decide (padd H (rd32 s.mem H) = R)) = true := by
    rw [hRhdr.2, hHhdr.1, hpaddH]
    simp [hRmem.1]
  have hRL : Far R L := by
    unfold Far; omega
  have hsum : wrap32 (rd32 s.mem L + wrap32 (rd32 s.mem H + rd32 s.mem R))
      = ((sL + S + sR : Nat) : Int) := by
    rw [hLhdr.1, hHhdr.1, hRhdr.1]
    have e1 : wrap32 ((S : Int) + (sR : Int)) = ((S + sR : Nat) : Int) :=
      (wrap32_nat (S + sR) hSS.2 ▸ by push_cast; rfl)
    rw [e1]
    exact (wrap32_nat (sL + S + sR) hSS.1 ▸ by push_cast; ring_nf)
  obtain ⟨m1, m2, m3, m4⟩ := insert_full_mem s H L R (post.headD 0) R hl hr
    hH64 hLmem.2.2.1 hRmem.2.2.1 hRL
  have hfr := fun x (hx : x ∈ (xs ++ ⟨L, sL, true⟩ :: ⟨H, S, false⟩ :: ⟨R, sR, true⟩ :: ys).map
      (fun b => b.addr)) =>
    m4 x (hA0 x hx) (hsep x hx L hLmem.2.2.2)
      (by rcases hN with e | e
          · exact Or.inl e
          · exact Or.inr (hsep x hx _ (hfl _ (List.mem_append_right _
              (List.mem_cons_of_mem _ (List.mem_cons_of_mem _ e)))).2.2.2))
  have hnd1 := List.nodup_append.1 hnd
  have hnd2 := List.nodup_cons.1 hnd1.2.1
  have hnd3 := List.nodup_cons.1 hnd2.2
  have hpreL : ∀ a ∈ pre, a ≠ L := fun a ha e =>
    hnd1.2.2 ha (e ▸ List.mem_cons_self _ _)
  have hprepost : ∀ a ∈ pre, a ∉ post := fun a ha hp =>
    hnd1.2.2 ha (List.mem_cons_of_mem _ (List.mem_cons_of_mem _ hp))
  have hpostL : ∀ a ∈ post, a ≠ L := fun a ha e =>
    hnd2.1 (e ▸ List.mem_cons_of_mem _ ha)
  have hNL : ¬ L = post.headD 0 := by
    intro e
    rcases hN with e' | e'
    · exact hLmem.1 (e.trans e')
    · exact hpostL _ e' e.symm
  refine ⟨?_, ?_, ?_, ?_, ?_, ?_, ?_, ?_, ?_, ?_⟩
  · rw [m2]; exact hinv.base_pos
  · rw [m2]; exact hinv.base_al
  · rw [m3]; exact hinv.size_nn
  · rw [m3]; exact hinv.size_lt
  · rw [m2, m3]; exact hinv.top
  · rw [m2, m3]
    refine Tiles_join xs _ ⟨L, sL + S + sR, true⟩ _ _ t1 (by simp only; omega)
      (by simp only; omega) ?_
    have e : L + (sL + S + sR) = L + sL + S + sR := by omega
    simp only [e]
    exact u9
  · intro b hb
    have hother : ∀ b' : Blk,
        b' ∈ xs ++ ⟨L, sL, true⟩ :: ⟨H, S, false⟩ :: ⟨R, sR, true⟩ :: ys → b'.addr ≠ L →
        HdrOK (sfree_insert s H L R (post.headD 0) R).mem b' := by
      intro b' hb' hne
      have hf := hfr b'.addr (List.mem_map.2 ⟨b', hb', rfl⟩)
      have ho := hinv.hdr b' hb'
      rw [if_neg hne] at hf
      exact ⟨hf.1.trans ho.1, hf.2.1.trans ho.2⟩
    rcases List.mem_append.1 hb with hb | hb
    · exact hother b (List.mem_append_left _ hb) (by have := t7 b hb; omega)
    · rcases List.mem_cons.1 hb with rfl | hb
      · have hf := hfr L hLmem.2.2.2
        simp only [if_true] at hf
        exact ⟨hf.1.trans hsum, hf.2.1.trans hLhdr.2⟩
      · exact hother b
          (List.mem_append_right _ (List.mem_cons_of_mem _ (List.mem_cons_of_mem _
            (List.mem_cons_of_mem _ hb))))
          (by have := t8 b (List.mem_cons_of_mem _ (List.mem_cons_of_mem _ hb)); omega)
  · have e1 : freeAddrs (xs ++ ⟨L, sL + S + sR, true⟩ :: ys)
        = (freeAddrs xs ++ [L]) ++ freeAddrs ys := by
      simp [freeAddrs_append, freeAddrs_cons]
    have e2 : freeAddrs (xs ++ ⟨L, sL, true⟩ :: ⟨H, S, false⟩ :: ⟨R, sR, true⟩ :: ys)
        = (freeAddrs xs ++ [L]) ++ R :: freeAddrs ys := by
      simp [freeAddrs_append, freeAddrs_cons]
    have hp := hinv.perm
    rw [e2, ← hflE] at hp
    rw [e1]
    have := perm_remove_mid _ _ _ _ _ hp
    simpa using this
  · have hu := head_update (pre ++ [L]) (R :: post) H (by simpa using hnd)
      (fun a ha => (hfl a (by simpa using ha)).1)
    rw [hflE] at hu
    simp only [List.headD_cons] at hu
    rw [m1, hinv.head, hu]
    cases pre <;> rfl
  · have hLf := hfr L hLmem.2.2.2
    simp only [if_true, if_neg hNL] at hLf
    refine (DL_append _ _ _ _ _).2 ⟨?_, hLf.2.2.2.trans d3, hLf.2.2.1.trans d6, ?_⟩
    · refine DL_congr s.mem _ pre _ 0 ?_ d1
      intro a ha
      have hm := hfl a (List.mem_append_left _ ha)
      have hf := hfr a hm.2.2.2
      refine ⟨?_, ?_⟩
      · rw [hf.2.2.1, if_neg (hpreL a ha)]
      · rw [hf.2.2.2, if_neg]
        intro e
        rcases hN with e' | e'
        · exact hm.1 (e.trans e')
        · exact hprepost a ha (e ▸ e')
    · refine DL_first s.mem _ post 0 _ _ hnd3.2 d7 ?_ ?_ ?_
      · intro a ha
        have hm := hfl a (List.mem_append_right _
          (List.mem_cons_of_mem _ (List.mem_cons_of_mem _ ha)))
        have hf := hfr a hm.2.2.2
        rw [hf.2.2.1, if_neg (hpostL a ha)]
      · intro a ha hne
        have hm := hfl a (List.mem_append_right _
          (List.mem_cons_of_mem _ (List.mem_cons_of_mem _ ha)))
        have hf := hfr a hm.2.2.2
        rw [hf.2.2.2, if_neg hne]
      · intro hne
        have hmem : post.headD 0 ∈ post := by
          rcases headD_cases post 0 with ⟨e, _⟩ | ⟨_, e⟩
          · exact absurd e hne
          · exact e
        have hm := hfl _ (List.mem_append_right _
          (List.mem_cons_of_mem _ (List.mem_cons_of_mem _ hmem)))
        have hf := hfr _ hm.2.2.2
        rw [hf.2.2.2, if_pos rfl]


/-! ## Which neighbours `sfree_insert` merges with -/

theorem Tiles_nil_of_eq (bs : List Blk) (a : Nat) (h : Tiles a bs a) : bs = [] := by
  have := Tiles_length bs a a h
  cases bs with
  | nil => rfl
  | cons b rest => simp only [List.length_cons] at this; omega

theorem left_struct {s : State} {xs ys : List Blk} {fl : List Nat} {H S : Nat}
    (hinv : Inv s (xs ++ ⟨H, S, false⟩ :: ys) fl) (L : Nat) (hL : L ∈ fl)
    (hadj : padd L (rd32 s.mem L) = H) :
    ∃ xs' sL, xs = xs' ++ [⟨L, sL, true⟩] := by
  obtain ⟨b, hb, hf, ha, hsz, _, _, _⟩ := hinv.free_size L hL
  obtain ⟨t1, _, _, _, _, _, _, t8⟩ := Tiles_split _ _ _ _ _ hinv.tiles
  simp only at t1 t8
  have hbb := hinv.size_bound b hb
  have hLH : L + b.size = H := by
    rw [hsz, padd_nat L b.size (by omega)] at hadj
    exact hadj
  obtain ⟨ba, bsz, bf⟩ := b
  simp only at hf ha hLH hbb
  subst hf ha
  rcases List.mem_append.1 hb with hb | hb
  · obtain ⟨x1, x2, e⟩ := List.append_of_mem hb
    rw [e] at t1
    obtain ⟨_, _, _, t4, _⟩ := Tiles_split _ _ _ _ _ t1
    simp only at t4
    rw [hLH] at t4
    have := Tiles_nil_of_eq _ _ t4
    subst this
    exact ⟨x1, bsz, e⟩
  · rcases List.mem_cons.1 hb with e | hb
    · cases e
    · have := (t8 _ hb).1
      simp only at this
      omega

theorem right_struct {s : State} {xs ys : List Blk} {fl : List Nat} {H S : Nat}
    (hinv : Inv s (xs ++ ⟨H, S, false⟩ :: ys) fl) (R : Nat) (hR : R ∈ fl)
    (hadj : padd H (rd32 s.mem H) = R) :
    ∃ ys' sR, ys = ⟨R, sR, true⟩ :: ys' := by
  obtain ⟨b, hb, hf, ha, _, hb24, _, _⟩ := hinv.free_size R hR
  obtain ⟨_, _, _, t4, _, _, t7, t8⟩ := Tiles_split _ _ _ _ _ hinv.tiles
  simp only at t4 t7 t8
  have hHb := hinv.size_bound ⟨H, S, false⟩ (by simp)
  simp only at hHb
  have hHR : H + S = R := by
    rw [(hinv.hdr ⟨H, S, false⟩ (by simp)).1, padd_nat H S (by omega)] at hadj
    exact hadj
  obtain ⟨ba, bsz, bf⟩ := b
  simp only at hf ha hb24
  subst hf ha
  rcases List.mem_append.1 hb with hb | hb
  · have := (t7 _ hb).1
    simp only at this
    omega
  · rcases List.mem_cons.1 hb with e | hb
    · cases e
    · cases ys with
      | nil => simp at hb
      | cons y ys' =>
        obtain ⟨u1, u2, _, u4⟩ := t4
        rcases List.mem_cons.1 hb with e | hb'
        · exact ⟨ys', bsz, by rw [e]⟩
        · have := (Tiles_mem _ _ _ u4 _ hb').1
          simp only at this
          omega

theorem split_while (p : Nat → Prop) [DecidablePred p] (l : List Nat) :
    ∃ pre post, l = pre ++ post ∧ (∀ a ∈ pre, ¬ p a) ∧ (post = [] ∨ p (post.headD 0)) := by
  induction l with
  | nil => exact ⟨[], [], rfl, by simp, Or.inl rfl⟩
  | cons x xs ih =>
    by_cases hx : p x
    · exact ⟨[], x :: xs, rfl, by simp, Or.inr hx⟩
    · obtain ⟨pre, post, e, h1, h2⟩ := ih
      refine ⟨x :: pre, post, by simp [e], ?_, h2⟩
      intro a ha
      rcases List.mem_cons.1 ha with rfl | ha
      · exact hx
      · exact h1 a ha

theorem lastD_snoc_eq (pre : List Nat) (h : pre ≠ []) :
    ∃ pre', pre = pre' ++ [lastD pre 0] := by
  induction pre with
  | nil => exact absurd rfl h
  | cons x xs ih =>
    cases xs with
    | nil => exact ⟨[], rfl⟩
    | cons y ys =>
      obtain ⟨pre', e⟩ := ih (by simp)
      refine ⟨x :: pre', ?_⟩
      simp only [lastD] at e ⊢
      rw [List.cons_append, ← e]


/-- The four cases of `sfree_insert` on a state that satisfies the invariant:
the block `H` is allocated, the walk stopped between `pre` and `post`. -/
theorem sfree_insert_cases (s : State) (xs ys : List Blk) (pre post : List Nat) (H S : Nat)
    (hinv : Inv s (xs ++ ⟨H, S, false⟩ :: ys) (pre ++ post)) :
    ((decide (lastD pre 0 ≠ 0) && decide (rd32 s.mem (lastD pre 0 + 4) = 0) &&
        decide (padd (lastD pre 0) (rd32 s.mem (lastD pre 0)) = H)) = false ∧
      (decide (post.headD 0 ≠ 0) && decide (rd32 s.mem (post.headD 0 + 4) = 0) &&
        decide (padd H (rd32 s.mem H) = post.headD 0)) = false ∧
      Inv (sfree_insert s H (lastD pre 0) (post.headD 0) (post.tail.headD 0) (post.headD 0))
        (xs ++ ⟨H, S, true⟩ :: ys) (pre ++ H :: post)) ∨
    (∃ (xs' : List Blk) (pre' : List Nat) (L sL : Nat),
      xs = xs' ++ [⟨L, sL, true⟩] ∧ pre = pre' ++ [L] ∧
      (decide (post.headD 0 ≠ 0) && decide (rd32 s.mem (post.headD 0 + 4) = 0) &&
        decide (padd H (rd32 s.mem H) = post.headD 0)) = false ∧
      Inv (sfree_insert s H (lastD pre 0) (post.headD 0) (post.tail.headD 0) (post.headD 0))
        (xs' ++ ⟨L, sL + S, true⟩ :: ys) (pre' ++ L :: post)) ∨
    (∃ (ys' : List Blk) (post' : List Nat) (R sR : Nat),
      ys = ⟨R, sR, true⟩ :: ys' ∧ post = R :: post' ∧
      (decide (lastD pre 0 ≠ 0) && decide (rd32 s.mem (lastD pre 0 + 4) = 0) &&
        decide (padd (lastD pre 0) (rd32 s.mem (lastD pre 0)) = H)) = false ∧
      Inv (sfree_insert s H (lastD pre 0) (post.headD 0) (post.tail.headD 0) (post.headD 0))
        (xs ++ ⟨H, S + sR, true⟩ :: ys') (pre ++ H :: post')) ∨
    (∃ (xs' ys' : List Blk) (pre' post' : List Nat) (L sL R sR : Nat),
      xs = xs' ++ [⟨L, sL, true⟩] ∧ pre = pre' ++ [L] ∧
      ys = ⟨R, sR, true⟩ :: ys' ∧ post = R :: post' ∧
      Inv (sfree_insert s H (lastD pre 0) (post.headD 0) (post.tail.headD 0) (post.headD 0))
        (xs' ++ ⟨L, sL + S + sR, true⟩ :: ys') (pre' ++ L :: post')) := by
  -- decode the two tests
  have hleft : (decide (lastD pre 0 ≠ 0) && decide (rd32 s.mem (lastD pre 0 + 4) = 0) &&
        decide (padd (lastD pre 0) (rd32 s.mem (lastD pre 0)) = H)) = true →
      ∃ (xs' : List Blk) (pre' : List Nat) (L sL : Nat),
        xs = xs' ++ [⟨L, sL, true⟩] ∧ pre = pre' ++ [L] := by
    intro h
    simp only [Bool.and_eq_true, decide_eq_true_eq] at h
    obtain ⟨⟨h1, _⟩, h3⟩ := h
    have hne : pre ≠ [] := by
      intro e; rw [e] at h1; exact h1 rfl
    obtain ⟨pre', e⟩ := lastD_snoc_eq pre hne
    have hmem : lastD pre 0 ∈ pre ++ post := List.mem_append_left _ (lastD_mem _ _ hne)
    obtain ⟨xs', sL, e'⟩ := left_struct hinv _ hmem h3
    exact ⟨xs', pre', lastD pre 0, sL, e', e⟩
  have hright : (decide (post.headD 0 ≠ 0) && decide (rd32 s.mem (post.headD 0 + 4) = 0) &&
        decide (padd H (rd32 s.mem H) = post.headD 0)) = true →
      ∃ (ys' : List Blk) (post' : List Nat) (R sR : Nat),
        ys = ⟨R, sR, true⟩ :: ys' ∧ post = R :: post' := by
    intro h
    simp only [Bool.and_eq_true, decide_eq_true_eq] at h
    obtain ⟨⟨h1, _⟩, h3⟩ := h
    cases post with
    | nil => exact absurd rfl h1
    | cons R post' =>
      simp only [List.headD_cons] at h3
      obtain ⟨ys', sR, e'⟩ := right_struct hinv R (by simp) h3
      exact ⟨ys', post', R, sR, e', rfl⟩
  cases hl : (decide (lastD pre 0 ≠ 0) && decide (rd32 s.mem (lastD pre 0 + 4) = 0) &&
        decide (padd (lastD pre 0) (rd32 s.mem (lastD pre 0)) = H)) <;>
    cases hr : (decide (post.headD 0 ≠ 0) && decide (rd32 s.mem (post.headD 0 + 4) = 0) &&
        decide (padd H (rd32 s.mem H) = post.headD 0))
  · exact Or.inl ⟨rfl, rfl, insert_neither_inv s xs ys pre post H S hinv hl hr⟩
  · obtain ⟨ys', post', R, sR, e1, e2⟩ := hright hr
    subst e1 e2
    exact Or.inr (Or.inr (Or.inl ⟨ys', post', R, sR, rfl, rfl, rfl,
      insert_right_inv s xs ys' pre post' H S R sR hinv hl⟩))
  · obtain ⟨xs', pre', L, sL, e1, e2⟩ := hleft hl
    subst e1 e2
    have hinv' : Inv s (xs' ++ ⟨L, sL, true⟩ :: ⟨H, S, false⟩ :: ys) (pre' ++ L :: post) := by
      simpa using hinv
    have := insert_left_inv s xs' ys pre' post L sL H S hinv' hr
    rw [lastD_snoc]
    exact Or.inr (Or.inl ⟨xs', pre', L, sL, rfl, rfl, rfl, this⟩)
  · obtain ⟨xs', pre', L, sL, e1, e2⟩ := hleft hl
    obtain ⟨ys', post', R, sR, e3, e4⟩ := hright hr
    subst e1 e2 e3 e4
    have hinv' : Inv s (xs' ++ ⟨L, sL, true⟩ :: ⟨H, S, false⟩ :: ⟨R, sR, true⟩ :: ys')
        (pre' ++ L :: R :: post') := by
      simpa using hinv
    have := insert_full_inv s xs' ys' pre' post' L sL H S R sR hinv'
    rw [lastD_snoc]
    exact Or.inr (Or.inr (Or.inr ⟨xs', ys', pre', post', L, sL, R, sR, rfl, rfl, rfl, rfl,
      this⟩))


/-! ## `sfree` on a state that satisfies the invariant -/

theorem Inv.length_small {s : State} {bs : List Blk} {fl : List Nat} (h : Inv s bs fl) :
    24 * fl.length < 2147483648 := by
  have h1 : fl.length ≤ bs.length := by
    rw [h.perm.length_eq]
    unfold freeAddrs
    rw [List.length_map]
    exact List.length_filter_le _ _
  have h2 := Tiles_length _ _ _ h.tiles
  have h3 := h.size_lt
  have h4 := h.size_nn
  omega

theorem sfree_run (s : State) (xs ys : List Blk) (pre post : List Nat) (H S : Nat)
    (hinv : Inv s (xs ++ ⟨H, S, false⟩ :: ys) (pre ++ post))
    (hpre : ∀ a ∈ pre, ¬ H + 24 < a) (hpost : post = [] ∨ H + 24 < post.headD 0)
    (fuel : Nat) (hf : pre.length < fuel) :
    sfree fuel s (H + 24) = some (sfree_insert s H (lastD pre 0) (post.headD 0)
      (post.tail.headD 0) (post.headD 0)) := by
  obtain ⟨_, _, hfl, _, _, _⟩ := hinv.insert_facts
  obtain ⟨_, t2, _, _, t5, t6, _, _⟩ := Tiles_split _ _ _ _ _ hinv.tiles
  simp only at t2 t5 t6
  have hb1 := hinv.top
  have hb2 := hinv.size_nn
  have hb3 := hinv.base_pos
  have hlen := hinv.length_small
  have hlen' : pre.length ≤ (pre ++ post).length := by simp
  have hpadd : padd s.heap_address s.heap_size = s.heap_address + s.heap_size.toNat := by
    unfold padd; omega
  have hback : padd (H + 24) (-24) = H := by
    unfold padd; omega
  have hc : ¬ (H + 24 = 0 ∨ H + 24 < s.heap_address ∨
      H + 24 > padd s.heap_address s.heap_size) := by
    rw [hpadd]; omega
  have hw := sfree_walk_spec s (H + 24) post pre 0 0 0 fuel hinv.links
    (fun a ha => (hfl a ha).1) hpre hpost hf (le_refl _)
    (by have : (pre.length : Int) ≤ ((pre ++ post).length : Int) := by exact_mod_cast hlen'
        omega)
    (fun _ => rfl) (fun h => absurd rfl h)
  unfold sfree
  rw [if_neg hc, hinv.head, hw, hback]


theorem getLast?_snoc_form (xs : List Blk) (x : Blk) (h : x ∈ xs.getLast?) :
    ∃ xs', xs = xs' ++ [x] :=
  List.getLast?_eq_some_iff.1 h

theorem head?_cons_form (ys : List Blk) (y : Blk) (h : y ∈ ys.head?) :
    ∃ ys', ys = y :: ys' := by
  cases ys with
  | nil => simp at h
  | cons z zs =>
    simp only [List.head?_cons, Option.mem_def, Option.some.injEq] at h
    subst h
    exact ⟨zs, rfl⟩

theorem left_test {s : State} {xs ys : List Blk} {fl : List Nat} {H S : Nat}
    (hinv : Inv s (xs ++ ⟨H, S, false⟩ :: ys) fl) (x : Blk) (hx : x ∈ xs.getLast?)
    (hf : x.free = true) :
    lastD (freeAddrs xs) 0 = x.addr ∧
    (decide (x.addr ≠ 0) && decide (rd32 s.mem (x.addr + 4) = 0) &&
      decide (padd x.addr (rd32 s.mem x.addr) = H)) = true := by
  obtain ⟨xs', e⟩ := getLast?_snoc_form xs x hx
  subst e
  have hxm : x ∈ xs' ++ [x] ++ ⟨H, S, false⟩ :: ys := by simp
  have hb := hinv.size_bound x hxm
  have hh := hinv.hdr x hxm
  obtain ⟨t1, _⟩ := Tiles_split _ _ _ _ _ hinv.tiles
  simp only at t1
  have t2 := ((Tiles_snoc _ _ _ _).1 t1).2.2.2
  simp only [HdrOK, hf, if_true] at hh
  have hp : padd x.addr (x.size : Int) = H := by
    rw [padd_nat _ _ hb.2.1]; exact t2
  refine ⟨?_, ?_⟩
  · rw [freeAddrs_append, freeAddrs_cons, if_pos hf]
    exact lastD_append_cons _ _ _ _
  · rw [hh.1, hh.2, hp]
    have : x.addr ≠ 0 := by omega
    simp [this]

theorem right_test {s : State} {xs ys : List Blk} {fl : List Nat} {H S : Nat}
    (hinv : Inv s (xs ++ ⟨H, S, false⟩ :: ys) fl) (y : Blk) (hy : y ∈ ys.head?)
    (hf : y.free = true) :
    (freeAddrs ys).headD 0 = y.addr ∧
    (decide (y.addr ≠ 0) && decide (rd32 s.mem (y.addr + 4) = 0) &&
      decide (padd H (rd32 s.mem H) = y.addr)) = true := by
  obtain ⟨ys', e⟩ := head?_cons_form ys y hy
  subst e
  have hym : y ∈ xs ++ ⟨H, S, false⟩ :: y :: ys' := by simp
  have hb := hinv.size_bound y hym
  have hHb := hinv.size_bound ⟨H, S, false⟩ (by simp)
  have hh := hinv.hdr y hym
  have hHh := hinv.hdr ⟨H, S, false⟩ (by simp)
  obtain ⟨_, _, _, t4, _⟩ := Tiles_split _ _ _ _ _ hinv.tiles
  simp only at t4 hHb
  have t5 := t4.1
  simp only [HdrOK, hf, if_true] at hh hHh
  have hp : padd H (S : Int) = y.addr := by
    rw [padd_nat _ _ hHb.2.1]; exact t5.symm
  refine ⟨?_, ?_⟩
  · rw [freeAddrs_cons, if_pos hf]; rfl
  · rw [hh.2, hHh.1, hp]
    have : y.addr ≠ 0 := by omega
    simp [this]


/-- Releasing an allocated block keeps the structural invariant, whatever the
order of the free list. -/
theorem sfree_inv (s : State) (bs : List Blk) (fl : List Nat) (b : Blk)
    (hinv : Inv s bs fl) (hb : b ∈ bs) (hf : b.free = false) :
    ∃ (s' : State) (bs' : List Blk) (fl' : List Nat),
      (∀ fuel, fl.length < fuel → sfree fuel s (b.addr + 24) = some s') ∧ Inv s' bs' fl' := by
  obtain ⟨xs, ys, e⟩ := List.append_of_mem hb
  obtain ⟨H, S, fr⟩ := b
  simp only at hf
  subst hf e
  obtain ⟨pre, post, e, hpre, hpost⟩ := split_while (fun a => H + 24 < a) fl
  subst e
  have hrun := fun fuel (h : (pre ++ post).length < fuel) =>
    sfree_run s xs ys pre post H S hinv hpre hpost fuel (by simp at h; omega)
  rcases sfree_insert_cases s xs ys pre post H S hinv with
    ⟨_, _, h⟩ | ⟨_, _, _, _, _, _, _, h⟩ | ⟨_, _, _, _, _, _, _, h⟩ |
    ⟨_, _, _, _, _, _, _, _, _, _, _, _, h⟩
  · exact ⟨_, _, _, hrun, h⟩
  · exact ⟨_, _, _, hrun, h⟩
  · exact ⟨_, _, _, hrun, h⟩
  · exact ⟨_, _, _, hrun, h⟩

theorem sfree_insert_globals (s : State) (H L R NN T : Nat) :
    (sfree_insert s H L R NN T).heap_address = s.heap_address ∧
    (sfree_insert s H L R NN T).heap_size = s.heap_size := ⟨rfl, rfl⟩

theorem allocBlks_append (xs ys : List Blk) :
    allocBlks (xs ++ ys) = allocBlks xs ++ allocBlks ys := by
  simp [allocBlks]

theorem allocBlks_cons_free (b : Blk) (bs : List Blk) (h : b.free = true) :
    allocBlks (b :: bs) = allocBlks bs := by
  simp [allocBlks, h]

theorem allocBlks_cons_alloc (b : Blk) (bs : List Blk) (h : b.free = false) :
    allocBlks (b :: bs) = b :: allocBlks bs := by
  simp [allocBlks, h]

/-- Releasing an allocated block of a well-formed state gives a well-formed
state, provided the block is larger than a bare header or is not followed by a
free block. -/
theorem sfree_wf (s : State) (xs ys : List Blk) (H S : Nat)
    (hwf : WF s (xs ++ ⟨H, S, false⟩ :: ys))
    (hsafe : S = 24 → ∀ y ∈ ys.head?, y.free = false) :
    ∃ (s' : State) (bs' : List Blk),
      (∀ fuel, (freeAddrs xs).length < fuel → sfree fuel s (H + 24) = some s') ∧
      WF s' bs' ∧ allocBlks bs' = allocBlks xs ++ allocBlks ys ∧
      s'.heap_address = s.heap_address ∧ s'.heap_size = s.heap_size := by
  obtain ⟨hinv, hadj⟩ := hwf
  rw [freeAddrs_mid_alloc] at hinv
  obtain ⟨a1, a2, a3, a4⟩ := (noAdj_mid _ _ _).1 hadj
  obtain ⟨t1, t2, _, t4, _, _, t7, t8⟩ := Tiles_split _ _ _ _ _ hinv.tiles
  simp only at t1 t2 t4 t7 t8
  have hpre : ∀ a ∈ freeAddrs xs, ¬ H + 24 < a := by
    intro a ha
    obtain ⟨b, hb, _, rfl⟩ := (mem_freeAddrs _ _).1 ha
    have := t7 b hb
    omega
  have hpost : freeAddrs ys = [] ∨ H + 24 < (freeAddrs ys).headD 0 := by
    rcases headD_cases (freeAddrs ys) 0 with ⟨e, _⟩ | ⟨_, e⟩
    · exact Or.inl e
    · right
      obtain ⟨b, hb, hbf, hba⟩ := (mem_freeAddrs _ _).1 e
      rw [← hba]
      have h1 := t8 b hb
      by_cases hS : S = 24
      · cases ys with
        | nil => simp at hb
        | cons y ys' =>
          have hy := hsafe hS y (by simp)
          obtain ⟨_, u2, _, u4⟩ := t4
          rcases List.mem_cons.1 hb with e' | hb'
          · rw [e', hy] at hbf; exact absurd hbf (by simp)
          · have := (Tiles_mem _ _ _ u4 b hb').1
            omega
      · omega
  have hrun := fun fuel (h : (freeAddrs xs).length < fuel) =>
    sfree_run s xs ys _ _ H S hinv hpre hpost fuel h
  have hxl : (decide (lastD (freeAddrs xs) 0 ≠ 0) &&
      decide (rd32 s.mem (lastD (freeAddrs xs) 0 + 4) = 0) &&
      decide (padd (lastD (freeAddrs xs) 0) (rd32 s.mem (lastD (freeAddrs xs) 0)) = H)) = false →
      ∀ x ∈ xs.getLast?, ¬ (x.free = true ∧ true = true) := by
    intro h x hx hxf
    have := left_test hinv x hx hxf.1
    rw [this.1] at h
    rw [h] at this
    exact absurd this.2 (by simp)
  have hyr : (decide ((freeAddrs ys).headD 0 ≠ 0) &&
      decide (rd32 s.mem ((freeAddrs ys).headD 0 + 4) = 0) &&
      decide (padd H (rd32 s.mem H) = (freeAddrs ys).headD 0)) = false →
      ∀ y ∈ ys.head?, ¬ (true = true ∧ y.free = true) := by
    intro h y hy hyf
    have := right_test hinv y hy hyf.2
    rw [this.1] at h
    rw [h] at this
    exact absurd this.2 (by simp)
  rcases sfree_insert_cases s xs ys _ _ H S hinv with
    ⟨hl, hr, h⟩ | ⟨xs', pre', L, sL, e1, e2, hr, h⟩ | ⟨ys', post', R, sR, e1, e2, hl, h⟩ |
    ⟨xs', ys', pre', post', L, sL, R, sR, e1, e2, e3, e4, h⟩
  · refine ⟨_, xs ++ ⟨H, S, true⟩ :: ys, hrun, ⟨?_, ?_⟩, ?_, rfl, rfl⟩
    · rw [freeAddrs_mid xs ys H S]; exact h
    · exact (noAdj_mid _ _ _).2 ⟨a1, a2, hxl hl, hyr hr⟩
    · rw [allocBlks_append, allocBlks_cons_free _ _ rfl]
  · subst e1
    have e3 : pre' = freeAddrs xs' := by
      rw [freeAddrs_append, freeAddrs_cons, if_pos rfl] at e2
      exact (List.append_inj' e2 rfl).1.symm
    subst e3
    obtain ⟨b1, b2, b3, _⟩ := (noAdj_mid _ _ _).1 a1
    refine ⟨_, xs' ++ ⟨L, sL + S, true⟩ :: ys, hrun, ⟨?_, ?_⟩, ?_, rfl, rfl⟩
    · rw [freeAddrs_mid xs' ys L (sL + S)]; exact h
    · exact (noAdj_mid _ _ _).2 ⟨b1, a2, b3, hyr hr⟩
    · rw [allocBlks_append, allocBlks_cons_free _ _ rfl, allocBlks_append,
        allocBlks_cons_free _ _ rfl]
      simp [allocBlks]
  · subst e1
    have e3 : post' = freeAddrs ys' := by
      rw [freeAddrs_cons, if_pos rfl] at e2
      exact (List.cons.inj e2).2.symm
    subst e3
    have c2 : NoAdjFree ys' := by
      unfold NoAdjFree at a2 ⊢
      exact a2.tail
    have c4 : ∀ y ∈ ys'.head?, ¬ (true = true ∧ y.free = true) := by
      unfold NoAdjFree at a2
      exact (List.chain'_cons'.1 a2).1
    refine ⟨_, xs ++ ⟨H, S + sR, true⟩ :: ys', hrun, ⟨?_, ?_⟩, ?_, rfl, rfl⟩
    · rw [freeAddrs_mid xs ys' H (S + sR)]; exact h
    · exact (noAdj_mid _ _ _).2 ⟨a1, c2, hxl hl, c4⟩
    · rw [allocBlks_append, allocBlks_cons_free _ _ rfl, allocBlks_cons_free _ _ rfl]
  · subst e1 e3
    have e5 : pre' = freeAddrs xs' := by
      rw [freeAddrs_append, freeAddrs_cons, if_pos rfl] at e2
      exact (List.append_inj' e2 rfl).1.symm
    have e6 : post' = freeAddrs ys' := by
      rw [freeAddrs_cons, if_pos rfl] at e4
      exact (List.cons.inj e4).2.symm
    subst e5 e6
    obtain ⟨b1, b2, b3, _⟩ := (noAdj_mid _ _ _).1 a1
    have c2 : NoAdjFree ys' := by
      unfold NoAdjFree at a2 ⊢
      exact a2.tail
    have c4 : ∀ y ∈ ys'.head?, ¬ (true = true ∧ y.free = true) := by
      unfold NoAdjFree at a2
      exact (List.chain'_cons'.1 a2).1
    refine ⟨_, xs' ++ ⟨L, sL + S + sR, true⟩ :: ys', hrun, ⟨?_, ?_⟩, ?_, rfl, rfl⟩
    · rw [freeAddrs_mid xs' ys' L (sL + S + sR)]; exact h
    · exact (noAdj_mid _ _ _).2 ⟨b1, c2, b3, c4⟩
    · rw [allocBlks_append, allocBlks_cons_free _ _ rfl, allocBlks_append,
        allocBlks_cons_free _ _ rfl, allocBlks_cons_free _ _ rfl]
      simp [allocBlks]


/-! ## Releasing a block that has no payload

`sfree` compares the payload address `ptr`, not the header `ptr - 24`, with the
free-list entries.  For a block of 24 bytes the two differ in effect: the free
block that starts at `ptr` is passed over by the walk. -/

theorem afterZero_eq : smalloc 1 fresh 0 = some (4120, ⟨1, 24, 0⟩, afterZero) :=
  (smalloc_wf_found fresh [] [] 4096 4096 0 fresh_wf (by decide) (by decide)
    (by simp) (by decide)).1 1 (by decide)

theorem afterZero_wf : WF afterZero [⟨4096, 24, false⟩, ⟨4120, 4072, true⟩] :=
  (smalloc_wf_found fresh [] [] 4096 4096 0 fresh_wf (by decide) (by decide)
    (by simp) (by decide)).2

/-- C5 at the failing input: after `smalloc(0)` on the fresh arena (a
well-formed state whose allocated block is at 4096 with payload address 4120
and whose only free block is at 4120), `sfree(4120)` leaves `free_list_head`
at 4120 and links the released block 4096 after it: the list runs
4120, 4096, against address order, and the head is not the lowest free
block. -/
theorem sfree_zero_payload_order :
    smalloc 1 fresh 0 = some (4120, ⟨1, 24, 0⟩, afterZero) ∧
    WF afterZero [⟨4096, 24, false⟩, ⟨4120, 4072, true⟩] ∧
    (sfree 3 afterZero 4120).map (fun s => (s.free_list_head, rd64 s.mem (4120 + 8),
      rd64 s.mem (4096 + 8), rd64 s.mem (4096 + 16), rd64 s.mem (4120 + 16)))
      = some (4120, 4096, 0, 4120, 0) :=
  ⟨afterZero_eq, afterZero_wf, by decide⟩

/-- C6 at the failing input: after `smalloc(0)` on the fresh arena and
`sfree` of the returned pointer, the blocks at 4096 (size 24) and 4120 (size
4072) are adjacent and both free, and for the consecutive free-list entries
`A = 4120`, `B = 4096` the inequality `A + A.size < B` fails. -/
theorem sfree_zero_payload_adjacent :
    (sfree 3 afterZero 4120).map (fun s => (rd32 s.mem 4096, rd32 s.mem (4096 + 4),
      rd32 s.mem 4120, rd32 s.mem (4120 + 4), s.free_list_head, rd64 s.mem (4120 + 8)))
      = some (24, 0, 4072, 0, 4120, 4096) ∧
    (4096 : Nat) + 24 = 4120 ∧ ¬ ((4120 : Nat) + 4072 < 4096) :=
  ⟨by decide, by decide, by decide⟩

/-- C9 at the failing input: `smalloc(0)` on the fresh arena succeeds with
payload address 4120, and `sfree(4120)` right afterwards does not give back the
fresh arena: the block at 4096 has size 24 instead of 4096 and the head is
4120 instead of 4096. -/
theorem sfree_zero_payload_round_trip :
    (fresh.free_list_head, rd32 fresh.mem 4096, rd32 fresh.mem (4096 + 4)) = (4096, 4096, 0) ∧
    (smalloc 1 fresh 0).map (fun r => (r.1, r.2.1)) = some (4120, ⟨1, 24, 0⟩) ∧
    (sfree 3 afterZero 4120).map (fun s => (s.free_list_head, rd32 s.mem 4096,
      rd32 s.mem (4096 + 4))) = some (4120, 24, 0) :=
  ⟨by decide, by decide, by decide⟩


/-! ## More fuel does not change a result -/

theorem smalloc_search_mono (m : Mem) (k : Nat) : ∀ (fuel bh : Nat) (P h l : Int) (r : SearchState),
    smalloc_search m fuel bh P h l = some r → smalloc_search m (fuel + k) bh P h l = some r := by
  intro fuel
  induction fuel with
  | zero => intro bh P h l r hr; simp [smalloc_search] at hr
  | succ f ih =>
    intro bh P h l r hr
    rw [Nat.add_right_comm]
    unfold smalloc_search at hr ⊢
    by_cases h0 : bh = 0
    · simpa only [h0, if_true] using hr
    · simp only [h0, if_false] at hr ⊢
      split_ifs at hr ⊢ with h1 h2 h3
      · exact hr
      · exact ih _ _ _ _ _ hr
      · exact hr
      · exact ih _ _ _ _ _ hr

theorem smalloc_mono (fuel k : Nat) (s : State) (n : Int) (r : Nat × Malloc_Status × State)
    (h : smalloc fuel s n = some r) : smalloc (fuel + k) s n = some r := by
  unfold smalloc at h ⊢
  by_cases hn : n < 0
  · simpa only [hn, if_true] using h
  · simp only [hn, if_false] at h ⊢
    generalize (if Int.tmod n 8 ≠ 0 then wrap32 (n + wrap32 (8 - Int.tmod n 8)) else n) = P at h ⊢
    cases hs : smalloc_search s.mem fuel s.free_list_head P 0 0 with
    | none => rw [hs] at h; simp at h
    | some q =>
      rw [hs] at h
      rw [smalloc_search_mono s.mem k _ _ _ _ _ _ hs]
      exact h

theorem smalloc_det (f1 f2 : Nat) (s : State) (n : Int) (r1 r2 : Nat × Malloc_Status × State)
    (h1 : smalloc f1 s n = some r1) (h2 : smalloc f2 s n = some r2) : r1 = r2 := by
  have a := smalloc_mono f1 f2 s n r1 h1
  have b := smalloc_mono f2 f1 s n r2 h2
  rw [Nat.add_comm] at b
  rw [a] at b
  exact Option.some.inj b

theorem sfree_walk_mono (s : State) (ptr k : Nat) : ∀ (fuel t nx : Nat) (h : Int) (r : State),
    sfree_walk s ptr fuel t nx h = some r → sfree_walk s ptr (fuel + k) t nx h = some r := by
  intro fuel
  induction fuel with
  | zero => intro t nx h r hr; simp [sfree_walk] at hr
  | succ f ih =>
    intro t nx h r hr
    rw [Nat.add_right_comm]
    unfold sfree_walk at hr ⊢
    simp only at hr ⊢
    by_cases h1 : ptr < t ∨ t = 0
    · rw [if_pos h1] at hr ⊢
      exact hr
    · rw [if_neg h1] at hr ⊢
      exact ih _ _ _ _ hr

theorem sfree_mono (fuel k : Nat) (s : State) (ptr : Nat) (r : State)
    (h : sfree fuel s ptr = some r) : sfree (fuel + k) s ptr = some r := by
  unfold sfree at h ⊢
  split_ifs at h ⊢ with h1
  · exact h
  · exact sfree_walk_mono s ptr k _ _ _ _ _ h

theorem sfree_det (f1 f2 : Nat) (s : State) (ptr : Nat) (r1 r2 : State)
    (h1 : sfree f1 s ptr = some r1) (h2 : sfree f2 s ptr = some r2) : r1 = r2 := by
  have a := sfree_mono f1 f2 s ptr r1 h1
  have b := sfree_mono f2 f1 s ptr r2 h2
  rw [Nat.add_comm] at b
  rw [a] at b
  exact Option.some.inj b


/-! ## Reachable states satisfy the structural invariant -/

theorem walkBlocks_eq (m : Mem) (bs : List Blk) : ∀ (fuel a e : Nat), Tiles a bs e →
    (∀ b ∈ bs, HdrOK m b) → bs.length ≤ fuel → (bs = [] → 0 < fuel) →
    walkBlocks m fuel a e = bs := by
  induction bs with
  | nil =>
    intro fuel a e ht _ _ hf
    simp only [Tiles] at ht
    obtain ⟨k, rfl⟩ : ∃ k, fuel = k + 1 := ⟨fuel - 1, by have := hf rfl; omega⟩
    simp [walkBlocks, ht]
  | cons b bs ih =>
    intro fuel a e ht hh hf _
    obtain ⟨h1, h2, h3, h4⟩ := ht
    obtain ⟨k, rfl⟩ : ∃ k, fuel = k + 1 := ⟨fuel - 1, by simp at hf; omega⟩
    have hb := hh b (List.mem_cons_self _ _)
    have hle := Tiles_le _ _ _ h4
    obtain ⟨ba, bz, bf⟩ := b
    simp only at h1 h2 h3 h4 hle
    subst h1
    simp only [HdrOK] at hb
    have e1 : (rd32 m ba).toNat = bz := by rw [hb.1]; exact Int.toNat_natCast bz
    have e2 : decide (rd32 m (ba + 4) = 0) = bf := by
      rw [hb.2]; cases bf <;> simp
    have hlt : ba < e := by omega
    unfold walkBlocks
    rw [if_pos hlt, e1, e2]
    by_cases hbs : bs = []
    · subst hbs
      simp only [Tiles] at h4
      cases k with
      | zero => simp [walkBlocks]
      | succ k => simp [walkBlocks, h4]
    · rw [ih k (ba + bz) e h4 (fun x hx => hh x (List.mem_cons_of_mem _ hx))
        (by simp at hf; omega) (fun h => absurd h hbs)]

theorem blocksOf_eq {s : State} {bs : List Blk} {fl : List Nat} (h : Inv s bs fl)
    (hpos : 0 < s.heap_size) : blocksOf s = bs := by
  unfold blocksOf
  have h2 := Tiles_length _ _ _ h.tiles
  exact walkBlocks_eq _ _ _ _ _ h.tiles h.hdr (by omega) (fun _ => by omega)

theorem smalloc_take_globals (s : State) (r : SearchState) :
    (smalloc_take s r).heap_address = s.heap_address ∧
    (smalloc_take s r).heap_size = s.heap_size := by
  unfold smalloc_take
  split <;> exact ⟨rfl, rfl⟩

/-- The two outcomes of `smalloc` in a state that satisfies the structural
invariant: failure with the state unchanged, or the first fitting entry of the
free list is taken. -/
theorem smalloc_inv_cases (s : State) (bs : List Blk) (fl : List Nat) (n : Int)
    (hinv : Inv s bs fl) (hn1 : n < 2147483648) :
    ((n < 0 ∨ ∀ a ∈ fl, rd32 s.mem a < roundUp8 n + 24) ∧
      ∀ fuel, fl.length < fuel → smalloc fuel s n = some (0, ⟨0, -1, -1⟩, s)) ∨
    (0 ≤ n ∧ ∃ (xs ys : List Blk) (pre post : List Nat) (B F : Nat),
      bs = xs ++ ⟨B, F, true⟩ :: ys ∧ fl = pre ++ B :: post ∧
      (∀ a ∈ pre, rd32 s.mem a < roundUp8 n + 24) ∧ roundUp8 n + 24 ≤ (F : Int) ∧
      (∀ fuel, pre.length < fuel → smalloc fuel s n = some (B + 24,
        ⟨1, (B : Int) + 24 - (s.heap_address : Int), pre.length⟩,
        smalloc_take s (found n F B pre.length))) ∧
      Inv (smalloc_take s (found n F B pre.length)) (takeBlocks xs ys B F (roundUp8 n).toNat)
        (takeFree pre post B F (roundUp8 n).toNat)) := by
  by_cases hn : n < 0
  · exact Or.inl ⟨Or.inl hn, fun fuel _ => smalloc_neg s n hn fuel⟩
  · have hn0 : 0 ≤ n := not_lt.1 hn
    by_cases hex : ∃ a ∈ fl, roundUp8 n + 24 ≤ rd32 s.mem a
    · obtain ⟨pre, B, post, e, hpre, hB⟩ :=
        first_split (fun a => roundUp8 n + 24 ≤ rd32 s.mem a) fl hex
      obtain ⟨b, hb, hfree, hba, hsz, _, _, _⟩ := hinv.free_size B (by rw [e]; simp)
      obtain ⟨xs, ys, e2⟩ := List.append_of_mem hb
      obtain ⟨ba, F, bf⟩ := b
      simp only at hfree hba hsz
      subst hfree hba e e2
      rw [hsz] at hB
      have hpre2 : ∀ a ∈ pre, rd32 s.mem a < roundUp8 n + 24 := fun a ha => not_le.1 (hpre a ha)
      exact Or.inr ⟨hn0, xs, ys, pre, post, ba, F, rfl, rfl, hpre2, hB,
        fun fuel hf => smalloc_found s xs ys pre post ba F n hinv hn0 hn1 hpre2 hB fuel hf,
        smalloc_take_inv s xs ys pre post ba F pre.length n hinv hn0 hB⟩
    · have hno : ∀ a ∈ fl, rd32 s.mem a < roundUp8 n + 24 := fun a ha =>
        not_le.1 (fun h => hex ⟨a, ha, h⟩)
      exact Or.inl ⟨Or.inr hno, fun fuel hf => smalloc_none s bs fl n hinv hn0 hn1 hno fuel hf⟩

theorem smalloc_inv_step (s : State) (bs : List Blk) (fl : List Nat) (n : Int)
    (hinv : Inv s bs fl) (hn1 : n < 2147483648) (fuel : Nat) (r : Nat × Malloc_Status × State)
    (h : smalloc fuel s n = some r) :
    ∃ bs' fl', Inv r.2.2 bs' fl' ∧ r.2.2.heap_address = s.heap_address ∧
      r.2.2.heap_size = s.heap_size := by
  rcases smalloc_inv_cases s bs fl n hinv hn1 with ⟨_, h1⟩ |
    ⟨_, xs, ys, pre, post, B, F, _, _, _, _, h1, h2⟩
  · have := smalloc_det _ _ s n _ _ h (h1 (fl.length + 1) (Nat.lt_succ_self _))
    subst this
    exact ⟨bs, fl, hinv, rfl, rfl⟩
  · have := smalloc_det _ _ s n _ _ h (h1 (pre.length + 1) (Nat.lt_succ_self _))
    subst this
    exact ⟨_, _, h2, (smalloc_take_globals _ _).1, (smalloc_take_globals _ _).2⟩

theorem sfree_outside (s : State) (ptr : Nat) (h0 : 0 ≤ s.heap_size)
    (htop : (s.heap_address : Int) + s.heap_size < 18446744073709551616)
    (h : ptr = 0 ∨ ptr < s.heap_address ∨ s.heap_address + s.heap_size.toNat < ptr)
    (fuel : Nat) : sfree fuel s ptr = some s := by
  have e : padd s.heap_address s.heap_size = s.heap_address + s.heap_size.toNat := by
    unfold padd; omega
  unfold sfree
  rw [e, if_pos h]

theorem sfree_walk_globals (s : State) (ptr : Nat) : ∀ (fuel t nx : Nat) (h : Int) (r : State),
    sfree_walk s ptr fuel t nx h = some r →
    r.heap_address = s.heap_address ∧ r.heap_size = s.heap_size := by
  intro fuel
  induction fuel with
  | zero => intro t nx h r hr; simp [sfree_walk] at hr
  | succ f ih =>
    intro t nx h r hr
    unfold sfree_walk at hr
    simp only at hr
    by_cases h1 : ptr < t ∨ t = 0
    · rw [if_pos h1] at hr
      rw [← Option.some.inj hr]
      exact ⟨rfl, rfl⟩
    · rw [if_neg h1] at hr
      exact ih _ _ _ _ hr

theorem sfree_globals (fuel : Nat) (s : State) (ptr : Nat) (r : State)
    (h : sfree fuel s ptr = some r) :
    r.heap_address = s.heap_address ∧ r.heap_size = s.heap_size := by
  unfold sfree at h
  split_ifs at h with h1
  · rw [← Option.some.inj h]
    exact ⟨rfl, rfl⟩
  · exact sfree_walk_globals s ptr _ _ _ _ _ h

theorem sfree_inv_step (s : State) (bs : List Blk) (fl : List Nat) (b : Blk)
    (hinv : Inv s bs fl) (hb : b ∈ bs) (hf : b.free = false) (fuel : Nat) (s' : State)
    (h : sfree fuel s (b.addr + 24) = some s') :
    ∃ bs' fl', Inv s' bs' fl' ∧ s'.heap_address = s.heap_address ∧
      s'.heap_size = s.heap_size := by
  obtain ⟨s2, bs', fl', h1, h2⟩ := sfree_inv s bs fl b hinv hb hf
  have := sfree_det _ _ s _ _ _ h (h1 (fl.length + 1) (Nat.lt_succ_self _))
  subst this
  exact ⟨bs', fl', h2, (sfree_globals _ _ _ _ h).1, (sfree_globals _ _ _ _ h).2⟩

/-- Every reachable state has a block list and a free list that satisfy the
structural invariant, and its arena is not empty. -/
theorem reach_inv (s : State) (h : Reachable s) :
    ∃ bs fl, Inv s bs fl ∧ 0 < s.heap_size := by
  induction h with
  | init a r s0 hr hok =>
    have h1 := (my_init_wf a r s0 hr hok).2
    exact ⟨_, _, h1.1, hok.2.2.2.1⟩
  | alloc s n fuel r _ hn h ih =>
    obtain ⟨bs, fl, hinv, hpos⟩ := ih
    obtain ⟨bs', fl', h1, _, h3⟩ := smalloc_inv_step s bs fl n hinv hn.2 fuel r h
    exact ⟨bs', fl', h1, by rw [h3]; exact hpos⟩
  | release_outside s ptr fuel s' _ hp h ih =>
    obtain ⟨bs, fl, hinv, hpos⟩ := ih
    have := sfree_det _ _ s ptr _ _ h (sfree_outside s ptr hinv.size_nn hinv.top hp fuel)
    subst this
    exact ⟨bs, fl, hinv, hpos⟩
  | release s b fuel s' _ hb hf h ih =>
    obtain ⟨bs, fl, hinv, hpos⟩ := ih
    rw [blocksOf_eq hinv hpos] at hb
    obtain ⟨bs', fl', h1, _, h3⟩ := sfree_inv_step s bs fl b hinv hb hf fuel s' h
    exact ⟨bs', fl', h1, by rw [h3]; exact hpos⟩

theorem reach_blocks (s : State) (h : Reachable s) :
    ∃ fl, Inv s (blocksOf s) fl ∧ 0 < s.heap_size := by
  obtain ⟨bs, fl, hinv, hpos⟩ := reach_inv s h
  rw [blocksOf_eq hinv hpos]
  exact ⟨fl, hinv, hpos⟩

theorem Tiles_sum (bs : List Blk) : ∀ (a e : Nat), Tiles a bs e →
    a + (bs.map (fun b => b.size)).sum = e := by
  induction bs with
  | nil => intro a e h; simp only [Tiles] at h; simp [h]
  | cons b bs ih =>
    intro a e h
    obtain ⟨_, _, _, h4⟩ := h
    have := ih _ _ h4
    simp only [List.map_cons, List.sum_cons]
    omega

theorem fresh_reachable : Reachable fresh :=
  Reachable.init 4096 4096 arena0 (by decide) (by decide)

/-! ## Tiling -/

/-- C8: in every state reachable from a successful `my_init` by calls of
`smalloc` and of `sfree` (given `NULL`, an address outside the arena, or the
payload address of a currently allocated block), the blocks met when walking
from `heap_address` by the size fields lie end to end from `heap_address` to
`heap_address + heap_size` (no gap, no overlap, every size at least 24 and a
multiple of 8), and the sum of their sizes is `heap_size`. -/
theorem tiling (s : State) (h : Reachable s) :
    Tiles s.heap_address (blocksOf s) (s.heap_address + s.heap_size.toNat) ∧
    ((((blocksOf s).map (fun b => b.size)).sum : Nat) : Int) = s.heap_size ∧
    ∀ b ∈ blocksOf s, rd32 s.mem b.addr = (b.size : Int) := by
  obtain ⟨fl, hinv, hpos⟩ := reach_blocks s h
  have h1 := Tiles_sum _ _ _ hinv.tiles
  have h2 : ((blocksOf s).map (fun b => b.size)).sum = s.heap_size.toNat := by omega
  refine ⟨hinv.tiles, ?_, fun b hb => (hinv.hdr b hb).1⟩
  rw [h2]
  exact Int.toNat_of_nonneg hinv.size_nn

theorem tiling_witness :
    Tiles fresh.heap_address (blocksOf fresh) (fresh.heap_address + fresh.heap_size.toNat) ∧
    ((((blocksOf fresh).map (fun b => b.size)).sum : Nat) : Int) = fresh.heap_size ∧
    ∀ b ∈ blocksOf fresh, rd32 fresh.mem b.addr = (b.size : Int) :=
  tiling fresh (Reachable.init 4096 4096 arena0 (by decide) (by decide))


/-! ## Release outside the arena -/

/-- C11: for every state whose `heap_size` is not negative and every pointer
`ptr` (a 64-bit value) that is `NULL`, or below `heap_address`, or above
`heap_address + heap_size`, `sfree(ptr)` returns with the whole state (memory,
`heap_address`, `heap_size` and `free_list_head`) unchanged, whatever the
fuel. -/
theorem sfree_noop (s : State) (ptr fuel : Nat) (h0 : 0 ≤ s.heap_size)
    (hp : ptr < 18446744073709551616)
    (h : ptr = 0 ∨ ptr < s.heap_address ∨
      (s.heap_address : Int) + s.heap_size < (ptr : Int)) :
    sfree fuel s ptr = some s := by
  unfold sfree
  rw [if_pos]
  rcases h with h | h | h
  · exact Or.inl h
  · exact Or.inr (Or.inl h)
  · refine Or.inr (Or.inr ?_)
    unfold padd
    omega

theorem sfree_noop_witness :
    sfree 0 fresh 0 = some fresh ∧ sfree 0 fresh 4095 = some fresh ∧
      sfree 0 fresh 8193 = some fresh :=
  ⟨sfree_noop fresh 0 0 (by decide) (by decide) (Or.inl rfl),
   sfree_noop fresh 4095 0 (by decide) (by decide) (Or.inr (Or.inl (by decide))),
   sfree_noop fresh 8193 0 (by decide) (by decide) (Or.inr (Or.inr (by decide)))⟩

/-! ## The state after `my_init` -/

/-- C14: after every successful `my_init` (`mmap` returned a region) the call
returns 0, `free_list_head = heap_address` is the mapped address, the header
there has `size = heap_size`, `allocated = 0`, `next = NULL` and
`prev = NULL`, the arena consists of this single block, and the state is well
formed. -/
theorem my_init_state (a : Nat) (r : Int) (s0 : State) (hr : IsInt32 r)
    (hok : MmapOK a (my_init a r s0).2.heap_size) :
    (my_init a r s0).1 = 0 ∧ (my_init a r s0).2.heap_address = a ∧
    (my_init a r s0).2.free_list_head = a ∧
    rd32 (my_init a r s0).2.mem a = (my_init a r s0).2.heap_size ∧
    rd32 (my_init a r s0).2.mem (a + 4) = 0 ∧
    rd64 (my_init a r s0).2.mem (a + 8) = 0 ∧
    rd64 (my_init a r s0).2.mem (a + 16) = 0 ∧
    blocksOf (my_init a r s0).2 = [⟨a, (my_init a r s0).2.heap_size.toNat, true⟩] ∧
    WF (my_init a r s0).2 [⟨a, (my_init a r s0).2.heap_size.toNat, true⟩] := by
  obtain ⟨h1, h2⟩ := my_init_wf a r s0 hr hok
  have h3 := (my_init_size a r s0 hr).2.2
  have hpos : 0 < (my_init a r s0).2.heap_size := hok.2.2.2.1
  have hb := blocksOf_eq h2.1 hpos
  have hh := h2.1.hdr _ (List.mem_singleton.2 rfl)
  have hl := h2.1.links
  have hd := h2.1.head
  simp only [HdrOK, if_true] at hh
  simp only [freeAddrs, List.filter_cons, List.filter_nil, if_true, List.map_cons, List.map_nil,
    DL, List.headD_cons, List.headD_nil] at hl hd
  refine ⟨h1, h3, hd, ?_, hh.2, hl.2.1, hl.1, hb, h2⟩
  rw [hh.1]
  exact Int.toNat_of_nonneg (le_of_lt hpos)

theorem my_init_state_witness :
    (my_init 4096 4096 arena0).1 = 0 ∧ (my_init 4096 4096 arena0).2.heap_address = 4096 ∧
    (my_init 4096 4096 arena0).2.free_list_head = 4096 ∧
    rd32 (my_init 4096 4096 arena0).2.mem 4096 = (my_init 4096 4096 arena0).2.heap_size ∧
    rd32 (my_init 4096 4096 arena0).2.mem (4096 + 4) = 0 ∧
    rd64 (my_init 4096 4096 arena0).2.mem (4096 + 8) = 0 ∧
    rd64 (my_init 4096 4096 arena0).2.mem (4096 + 16) = 0 ∧
    blocksOf (my_init 4096 4096 arena0).2 =
      [⟨4096, (my_init 4096 4096 arena0).2.heap_size.toNat, true⟩] ∧
    WF (my_init 4096 4096 arena0).2
      [⟨4096, (my_init 4096 4096 arena0).2.heap_size.toNat, true⟩] :=
  my_init_state 4096 4096 arena0 (by decide) (by decide)

/-! ## Rounding of the region size -/

/-- C15, amended: for every requested size between 0 and `2^31 - 4096` the
`heap_size` stored by `my_init` is the least multiple of 4096 that is greater
than or equal to the requested size (whether or not `mmap` succeeds). -/
theorem my_init_rounding (a : Nat) (r : Int) (s0 : State) (h0 : 0 ≤ r) (h1 : r ≤ 2147479552) :
    (my_init a r s0).2.heap_size % 4096 = 0 ∧ r ≤ (my_init a r s0).2.heap_size ∧
    ∀ k : Int, k % 4096 = 0 → r ≤ k → (my_init a r s0).2.heap_size ≤ k := by
  have e : (my_init a r s0).2.heap_size =
      if r % 4096 ≠ 0 then wrap32 (r + wrap32 (4096 - r % 4096)) else r := by
    unfold my_init
    simp only [PAGE_SIZE, tmod_4096, if_pos h0]
    split <;> split <;> rfl
  rw [e]
  unfold wrap32
  split
  · refine ⟨by omega, by omega, fun k hk hrk => ?_⟩
    omega
  · refine ⟨by omega, le_refl _, fun k _ hrk => hrk⟩

theorem my_init_rounding_witness :
    (my_init 4096 100 arena0).2.heap_size % 4096 = 0 ∧
    (100 : Int) ≤ (my_init 4096 100 arena0).2.heap_size ∧
    ∀ k : Int, k % 4096 = 0 → 100 ≤ k → (my_init 4096 100 arena0).2.heap_size ≤ k :=
  my_init_rounding 4096 100 arena0 (by decide) (by decide)

/-- C15 as stated fails: for the requested size -1 the stored `heap_size` is
4096, although 0 is a smaller multiple of 4096 that is at least -1; and for
the requested size `2^31 - 1` the stored `heap_size` is `-2^31`, which is below
the requested size. -/
theorem my_init_rounding_counterexample :
    IsInt32 (-1) ∧ (my_init 4096 (-1) arena0).2.heap_size = 4096 ∧
    (0 : Int) % 4096 = 0 ∧ (-1 : Int) ≤ 0 ∧ ¬ ((4096 : Int) ≤ 0) ∧
    IsInt32 2147483647 ∧ (my_init 4096 2147483647 arena0).2.heap_size = -2147483648 := by
  decide


/-! ## Requests larger than the arena -/

theorem fits_over (n F : Int) (h0 : 0 ≤ n) (h1 : n < 2147483648) (hF : 24 ≤ F)
    (hF2 : F < 2147483648) (h : F - 24 < n) :
    fits (if Int.tmod n 8 ≠ 0 then wrap32 (n + wrap32 (8 - Int.tmod n 8)) else n) F = false := by
  have key : wrap32 (F - wrap32 ((if Int.tmod n 8 ≠ 0 then wrap32 (n + wrap32 (8 - Int.tmod n 8))
      else n) + 24)) < 0 := by
    rw [Int.tmod_eq_emod h0 (by norm_num)]
    unfold wrap32
    split <;> omega
  unfold fits
  simp only [Bool.and_eq_false_imp, decide_eq_true_eq]
  intro h2
  omega

theorem smalloc_fail_of_fits (s : State) (fl : List Nat) (n : Int) (hn0 : 0 ≤ n)
    (hc : NextChain s.mem s.free_list_head fl)
    (hno : ∀ a ∈ fl, fits (if Int.tmod n 8 ≠ 0 then wrap32 (n + wrap32 (8 - Int.tmod n 8))
      else n) (rd32 s.mem a) = false)
    (fuel : Nat) (hf : fl.length < fuel) :
    smalloc fuel s n = some (0, ⟨0, -1, -1⟩, s) := by
  obtain ⟨r, h1, h2⟩ := search_none s.mem _ fl s.free_list_head fuel 0 0 hc hno hf
  unfold smalloc
  rw [if_neg (not_lt.2 hn0)]
  simp only [h1, h2, if_true]

/-- C12: in every state whose free list is a chain of entries with sizes
between 24 and `heap_size`, every `int` request `n` with `n > heap_size - 24`
fails: `smalloc` returns `NULL` with `success = 0`, `payload_offset = -1`,
`hops = -1` (and leaves the state unchanged), the rounding of `n` and the
computation of `leftover` being done in wrapping 32-bit arithmetic. -/
theorem smalloc_over_capacity (s : State) (fl : List Nat) (n : Int) (hn : IsInt32 n)
    (hc : NextChain s.mem s.free_list_head fl)
    (hsz : ∀ a ∈ fl, 24 ≤ rd32 s.mem a ∧ rd32 s.mem a ≤ s.heap_size)
    (hbig : s.heap_size - 24 < n) (fuel : Nat) (hf : fl.length < fuel) :
    smalloc fuel s n = some (0, ⟨0, -1, -1⟩, s) := by
  by_cases h : n < 0
  · exact smalloc_neg s n h fuel
  · have hn0 : 0 ≤ n := not_lt.1 h
    refine smalloc_fail_of_fits s fl n hn0 hc (fun a ha => ?_) fuel hf
    have h1 := hsz a ha
    exact fits_over n _ hn0 hn.2 h1.1 (rd32_range _ _).2 (by omega)

theorem smalloc_over_capacity_witness :
    smalloc 2 fresh 2147483647 = some (0, ⟨0, -1, -1⟩, fresh) ∧
    smalloc 2 fresh 4073 = some (0, ⟨0, -1, -1⟩, fresh) :=
  ⟨smalloc_over_capacity fresh [4096] 2147483647 (by decide) (by decide) (by decide)
      (by decide) 2 (by decide),
   smalloc_over_capacity fresh [4096] 4073 (by decide) (by decide) (by decide)
      (by decide) 2 (by decide)⟩

/-! ## Termination of the two loops -/

theorem wrap32_succ_le (h : Int) (h0 : -2147483648 ≤ h) :
    wrap32 (h + 1) ≤ h + 1 ∧ -2147483648 ≤ wrap32 (h + 1) := by
  unfold wrap32; omega

theorem search_total (m : Mem) (P : Int) (fl : List Nat) : ∀ (h fuel : Nat) (hops lo : Int),
    NextChain m h fl → fl.length < fuel → -2147483648 ≤ hops →
    ∃ r, smalloc_search m fuel h P hops lo = some r ∧
      (r.free_block_found = true → r.hops < hops + fl.length) := by
  induction fl with
  | nil =>
    intro h fuel hops lo hc hf _
    simp only [NextChain] at hc
    obtain ⟨k, rfl⟩ : ∃ k, fuel = k + 1 := ⟨fuel - 1, by simp at hf; omega⟩
    subst hc
    exact ⟨⟨false, false, hops, lo, 0, P⟩, by simp [smalloc_search], by simp⟩
  | cons a rest ih =>
    intro h fuel hops lo hc hf hh
    obtain ⟨h1, h2, h3⟩ := hc
    obtain ⟨k, rfl⟩ : ∃ k, fuel = k + 1 := ⟨fuel - 1, by simp at hf; omega⟩
    subst h1
    have hw := wrap32_succ_le hops hh
    have hk : rest.length < k := by simp at hf; omega
    obtain ⟨r, hr1, hr2⟩ := ih (rd64 m (h + 8)) k (wrap32 (hops + 1))
      (wrap32 (rd32 m h - wrap32 (P + 24))) h3 hk hw.2
    unfold smalloc_search
    simp only [if_neg h2, List.length_cons, Nat.cast_add, Nat.cast_one]
    split_ifs
    · exact ⟨_, rfl, fun _ => by simp only; omega⟩
    · exact ⟨r, hr1, fun hf => by have := hr2 hf; omega⟩
    · exact ⟨_, rfl, fun _ => by simp only; omega⟩
    · exact ⟨r, hr1, fun hf => by have := hr2 hf; omega⟩

theorem walk_total (s : State) (ptr : Nat) (fl : List Nat) : ∀ (t fuel nx : Nat) (hops : Int),
    NextChain s.mem t fl → fl.length < fuel →
    ∃ r, sfree_walk s ptr fuel t nx hops = some r := by
  induction fl with
  | nil =>
    intro t fuel nx hops hc hf
    simp only [NextChain] at hc
    obtain ⟨k, rfl⟩ : ∃ k, fuel = k + 1 := ⟨fuel - 1, by simp at hf; omega⟩
    unfold sfree_walk
    simp only
    rw [if_pos (Or.inr hc)]
    exact ⟨_, rfl⟩
  | cons a rest ih =>
    intro t fuel nx hops hc hf
    obtain ⟨h1, h2, h3⟩ := hc
    obtain ⟨k, rfl⟩ : ∃ k, fuel = k + 1 := ⟨fuel - 1, by simp at hf; omega⟩
    subst h1
    have hk : rest.length < k := by simp at hf; omega
    have e : (if t = 0 then 0 else if (if t = 0 then 0 else t) ≠ 0 then
        rd64 s.mem ((if t = 0 then 0 else t) + 8) else 0) = rd64 s.mem (t + 8) := by
      rw [if_neg h2, if_neg h2, if_pos h2]
    unfold sfree_walk
    simp only
    by_cases hp : ptr < t ∨ t = 0
    · rw [if_pos hp]
      exact ⟨_, rfl⟩
    · rw [if_neg hp, e]
      exact ih _ k _ _ h3 hk

theorem smalloc_total (s : State) (fl : List Nat) (n : Int)
    (hc : NextChain s.mem s.free_list_head fl) (fuel : Nat) (hf : fl.length < fuel) :
    ∃ r, smalloc fuel s n = some r ∧ (r.2.1.success = 1 → r.2.1.hops < fl.length) := by
  unfold smalloc
  by_cases hn : n < 0
  · rw [if_pos hn]
    exact ⟨_, rfl, fun h => by simp at h⟩
  · rw [if_neg hn]
    obtain ⟨r, h1, h2⟩ := search_total s.mem
      (if Int.tmod n 8 ≠ 0 then wrap32 (n + wrap32 (8 - Int.tmod n 8)) else n) fl
      s.free_list_head fuel 0 0 hc hf (by norm_num)
    simp only [h1]
    by_cases hfd : r.free_block_found = false
    · rw [if_pos hfd]
      exact ⟨_, rfl, fun h => by simp at h⟩
    · rw [if_neg hfd]
      refine ⟨_, rfl, fun _ => ?_⟩
      have := h2 (by simpa using hfd)
      simpa using this

theorem sfree_total (s : State) (fl : List Nat) (ptr : Nat)
    (hc : NextChain s.mem s.free_list_head fl) (fuel : Nat) (hf : fl.length < fuel) :
    ∃ r, sfree fuel s ptr = some r := by
  unfold sfree
  split_ifs
  · exact ⟨_, rfl⟩
  · exact walk_total s ptr fl _ fuel _ _ hc hf

/-- C18: when the free list of a state is a chain of `k` entries from
`free_list_head` to `NULL`, the search loop of `smalloc` and the walk of
`sfree` both finish within `k + 1` iterations (every fuel above `k` gives a
result), for every request and every pointer; and a successful `smalloc`
reports `hops < k`. -/
theorem loops_terminate (s : State) (fl : List Nat)
    (hc : NextChain s.mem s.free_list_head fl) (fuel : Nat) (hf : fl.length + 1 ≤ fuel) :
    (∀ n : Int, ∃ r, smalloc fuel s n = some r ∧
      (r.2.1.success = 1 → r.2.1.hops < fl.length)) ∧
    (∀ ptr : Nat, ∃ r, sfree fuel s ptr = some r) :=
  ⟨fun n => smalloc_total s fl n hc fuel hf, fun ptr => sfree_total s fl ptr hc fuel hf⟩

theorem loops_terminate_witness :
    (∀ n : Int, ∃ r, smalloc 2 fresh n = some r ∧
      (r.2.1.success = 1 → r.2.1.hops < ([4096] : List Nat).length)) ∧
    (∀ ptr : Nat, ∃ r, sfree 2 fresh ptr = some r) :=
  loops_terminate fresh [4096] (by decide) 2 (by decide)


/-! ## Properties of reachable states -/

theorem Tiles_align (bs : List Blk) : ∀ (a e : Nat), Tiles a bs e → ∀ b ∈ bs,
    a ≤ b.addr ∧ (b.addr - a) % 8 = 0 := by
  induction bs with
  | nil => intro a e _ b hb; simp at hb
  | cons x xs ih =>
    intro a e h b hb
    obtain ⟨h1, h2, h3, h4⟩ := h
    rcases List.mem_cons.1 hb with rfl | hb
    · rw [h1]; simp
    · have := ih _ _ h4 b hb
      omega

theorem NextChain_unique (m : Mem) (l1 : List Nat) : ∀ (h : Nat) (l2 : List Nat),
    NextChain m h l1 → NextChain m h l2 → l1 = l2 := by
  induction l1 with
  | nil =>
    intro h l2 h1 h2
    simp only [NextChain] at h1
    cases l2 with
    | nil => rfl
    | cons b l2 => exact absurd (h2.1.symm.trans h1) h2.2.1
  | cons a l1 ih =>
    intro h l2 h1 h2
    cases l2 with
    | nil =>
      simp only [NextChain] at h2
      exact absurd (h1.1.symm.trans h2) h1.2.1
    | cons b l2 =>
      obtain ⟨e1, _, c1⟩ := h1
      obtain ⟨e2, _, c2⟩ := h2
      have : a = b := e1.symm.trans e2
      subst this
      rw [ih _ l2 c1 c2]

/-- C13: in every reachable state, a successful `smalloc` returns `B + 24` for
the header `B` of a free block of the arena that starts at a multiple of 8
from `heap_address`; the reported `payload_offset` is `B + 24 - heap_address`,
a multiple of 8 that is at least 24. -/
theorem payload_aligned (s : State) (h : Reachable s) (n : Int) (hn : IsInt32 n)
    (fuel : Nat) (r : Nat × Malloc_Status × State) (hr : smalloc fuel s n = some r)
    (hs : r.2.1.success = 1) :
    ∃ b ∈ blocksOf s, b.free = true ∧ r.1 = b.addr + 24 ∧ s.heap_address ≤ b.addr ∧
      (b.addr - s.heap_address) % 8 = 0 ∧
      r.2.1.payload_offset = (b.addr : Int) + 24 - (s.heap_address : Int) ∧
      r.2.1.payload_offset % 8 = 0 ∧ 24 ≤ r.2.1.payload_offset := by
  obtain ⟨fl, hinv, _⟩ := reach_blocks s h
  rcases smalloc_inv_cases s _ fl n hinv hn.2 with ⟨_, h1⟩ |
    ⟨_, xs, ys, pre, post, B, F, e1, _, _, _, h1, _⟩
  · have := smalloc_det _ _ s n _ _ hr (h1 (fl.length + 1) (Nat.lt_succ_self _))
    subst this
    simp at hs
  · have := smalloc_det _ _ s n _ _ hr (h1 (pre.length + 1) (Nat.lt_succ_self _))
    subst this
    have hb : (⟨B, F, true⟩ : Blk) ∈ blocksOf s := by rw [e1]; simp
    have ha := Tiles_align _ _ _ hinv.tiles _ hb
    simp only at ha
    refine ⟨⟨B, F, true⟩, hb, rfl, rfl, ha.1, ha.2, rfl, ?_, ?_⟩
    · simp only; omega
    · simp only; omega

theorem payload_aligned_witness :
    ∃ b ∈ blocksOf fresh, b.free = true ∧ (4120, (⟨1, 24, 0⟩ : Malloc_Status), afterZero).1
      = b.addr + 24 ∧ fresh.heap_address ≤ b.addr ∧
      (b.addr - fresh.heap_address) % 8 = 0 ∧
      (4120, (⟨1, 24, 0⟩ : Malloc_Status), afterZero).2.1.payload_offset
        = (b.addr : Int) + 24 - (fresh.heap_address : Int) ∧
      (4120, (⟨1, 24, 0⟩ : Malloc_Status), afterZero).2.1.payload_offset % 8 = 0 ∧
      24 ≤ (4120, (⟨1, 24, 0⟩ : Malloc_Status), afterZero).2.1.payload_offset :=
  payload_aligned fresh (Reachable.init 4096 4096 arena0 (by decide) (by decide)) 0
    (by decide) 1 (4120, ⟨1, 24, 0⟩, afterZero) afterZero_eq rfl

theorem round_mod8 (n : Int) (h0 : 0 ≤ n) :
    (if Int.tmod n 8 ≠ 0 then wrap32 (n + wrap32 (8 - Int.tmod n 8)) else n) % 8 = 0 := by
  rw [Int.tmod_eq_emod h0 (by norm_num)]
  unfold wrap32
  split <;> omega

theorem leftover_mod8 (n F : Int) (h0 : 0 ≤ n) (hF8 : F % 8 = 0) :
    0 ≤ wrap32 (F - wrap32 ((if Int.tmod n 8 ≠ 0 then wrap32 (n + wrap32 (8 - Int.tmod n 8))
      else n) + 24)) →
    Int.tmod (wrap32 (F - wrap32 ((if Int.tmod n 8 ≠ 0 then wrap32 (n + wrap32 (8 - Int.tmod n 8))
      else n) + 24))) 8 = 0 := by
  have hP := round_mod8 n h0
  generalize (if Int.tmod n 8 ≠ 0 then wrap32 (n + wrap32 (8 - Int.tmod n 8)) else n) = P at hP
  intro h
  rw [Int.tmod_eq_emod h (by norm_num)]
  unfold wrap32 at h ⊢
  omega

/-- C16: in every reachable state and for every request `n >= 0`, every entry
of the free list (every block the search loop can examine) whose `leftover` is
not negative has `leftover % 8 = 0`; so the loop's test of a block amounts to
`leftover >= 0`, and the branch that passes over a block large enough for the
request is never taken. -/
theorem mod8_check_dead (s : State) (h : Reachable s) (n : Int) (hn0 : 0 ≤ n)
    (fl : List Nat) (hc : NextChain s.mem s.free_list_head fl) (a : Nat) (ha : a ∈ fl) :
    (0 ≤ wrap32 (rd32 s.mem a - wrap32 ((if Int.tmod n 8 ≠ 0 then
        wrap32 (n + wrap32 (8 - Int.tmod n 8)) else n) + 24)) →
      Int.tmod (wrap32 (rd32 s.mem a - wrap32 ((if Int.tmod n 8 ≠ 0 then
        wrap32 (n + wrap32 (8 - Int.tmod n 8)) else n) + 24))) 8 = 0) ∧
    fits (if Int.tmod n 8 ≠ 0 then wrap32 (n + wrap32 (8 - Int.tmod n 8)) else n)
        (rd32 s.mem a) =
      decide (0 ≤ wrap32 (rd32 s.mem a - wrap32 ((if Int.tmod n 8 ≠ 0 then
        wrap32 (n + wrap32 (8 - Int.tmod n 8)) else n) + 24))) := by
  obtain ⟨fl0, hinv, _⟩ := reach_blocks s h
  have e := NextChain_unique _ _ _ _ hc hinv.nextChain
  subst e
  obtain ⟨b, _, _, _, hsz, _, h8, _⟩ := hinv.free_size a ha
  have hF8 : rd32 s.mem a % 8 = 0 := by rw [hsz]; omega
  have key := leftover_mod8 n (rd32 s.mem a) hn0 hF8
  refine ⟨key, ?_⟩
  unfold fits
  simp only
  by_cases hl : 0 ≤ wrap32 (rd32 s.mem a - wrap32 ((if Int.tmod n 8 ≠ 0 then
        wrap32 (n + wrap32 (8 - Int.tmod n 8)) else n) + 24))
  · simp only [hl, key hl, decide_True, Bool.true_and, Bool.or_true]
  · simp only [hl, decide_False, Bool.false_and]

theorem mod8_check_dead_witness :
    (0 ≤ wrap32 (rd32 fresh.mem 4096 - wrap32 ((if Int.tmod 4070 8 ≠ 0 then
        wrap32 (4070 + wrap32 (8 - Int.tmod 4070 8)) else 4070) + 24)) →
      Int.tmod (wrap32 (rd32 fresh.mem 4096 - wrap32 ((if Int.tmod 4070 8 ≠ 0 then
        wrap32 (4070 + wrap32 (8 - Int.tmod 4070 8)) else 4070) + 24))) 8 = 0) ∧
    fits (if Int.tmod 4070 8 ≠ 0 then wrap32 (4070 + wrap32 (8 - Int.tmod 4070 8)) else 4070)
        (rd32 fresh.mem 4096) =
      decide (0 ≤ wrap32 (rd32 fresh.mem 4096 - wrap32 ((if Int.tmod 4070 8 ≠ 0 then
        wrap32 (4070 + wrap32 (8 - Int.tmod 4070 8)) else 4070) + 24))) :=
  mod8_check_dead fresh (Reachable.init 4096 4096 arena0 (by decide) (by decide)) 4070
    (by decide) [4096] (by decide) 4096 (by decide)


/-- C17: in every reachable state the entries reached from `free_list_head`
along the `next` fields are exactly the blocks of the arena whose `allocated`
field is 0, no entry occurs twice, the `prev` field of the first entry is
`NULL` and every entry is the `prev` of its `next`. -/
theorem free_list_membership (s : State) (h : Reachable s) :
    ∃ fl, NextChain s.mem s.free_list_head fl ∧
      (∀ b ∈ blocksOf s, b.addr ∈ fl ↔ rd32 s.mem (b.addr + 4) = 0) ∧
      (∀ a ∈ fl, ∃ b ∈ blocksOf s, b.addr = a) ∧
      (∀ b ∈ blocksOf s, rd32 s.mem (b.addr + 4) = 0 → fl.count b.addr = 1) ∧
      fl.Nodup ∧ DL s.mem 0 fl 0 := by
  obtain ⟨fl, hinv, _⟩ := reach_blocks s h
  have hiff : ∀ b ∈ blocksOf s, b.addr ∈ fl ↔ rd32 s.mem (b.addr + 4) = 0 := by
    intro b hb
    have hh := (hinv.hdr b hb).2
    cases hf : b.free with
    | false =>
      rw [hf] at hh
      simp only [Bool.false_eq_true, if_false] at hh
      rw [hh]
      exact ⟨fun hm => absurd hm (hinv.not_free_not_mem b hb hf), fun h1 => by simp at h1⟩
    | true =>
      rw [hf] at hh
      simp only [if_true] at hh
      rw [hh]
      exact ⟨fun _ => rfl, fun _ => hinv.perm.mem_iff.2 ((mem_freeAddrs _ _).2 ⟨b, hb, hf, rfl⟩)⟩
  refine ⟨fl, hinv.nextChain, hiff, ?_, ?_, hinv.nodup, hinv.links⟩
  · intro a ha
    obtain ⟨b, hb, _, e⟩ := (mem_freeAddrs _ _).1 (hinv.perm.mem_iff.1 ha)
    exact ⟨b, hb, e⟩
  · intro b hb h0
    exact List.count_eq_one_of_mem hinv.nodup ((hiff b hb).2 h0)

theorem free_list_membership_witness :
    ∃ fl, NextChain fresh.mem fresh.free_list_head fl ∧
      (∀ b ∈ blocksOf fresh, b.addr ∈ fl ↔ rd32 fresh.mem (b.addr + 4) = 0) ∧
      (∀ a ∈ fl, ∃ b ∈ blocksOf fresh, b.addr = a) ∧
      (∀ b ∈ blocksOf fresh, rd32 fresh.mem (b.addr + 4) = 0 → fl.count b.addr = 1) ∧
      fl.Nodup ∧ DL fresh.mem 0 fl 0 :=
  free_list_membership fresh (Reachable.init 4096 4096 arena0 (by decide) (by decide))

/-! ## The payload handed out -/

theorem capacity_bound (n : Int) (F : Nat) (hn0 : 0 ≤ n) (hF8 : F % 8 = 0)
    (hB : roundUp8 n + 24 ≤ (F : Int)) :
    (24 ≤ F - ((roundUp8 n).toNat + 24) →
      n ≤ (((roundUp8 n).toNat + 24 : Nat) : Int) - 24 ∧
      (((roundUp8 n).toNat + 24 : Nat) : Int) - 24 < n + 24 ∧
      (roundUp8 n).toNat + 24 ≤ F) ∧
    (¬ 24 ≤ F - ((roundUp8 n).toNat + 24) → n ≤ (F : Int) - 24 ∧ (F : Int) - 24 < n + 24) := by
  unfold roundUp8 at *
  omega

/-- C20: for every well-formed state and every request `n >= 0` for which
`smalloc` succeeds with the block at `B`, the block is marked allocated, its
payload capacity `size(B) - 24` (size field after the call) is at least `n`
and less than `n + 24`, and the payload range, which starts at
`payload_offset = B + 24 - heap_address`, lies within `[0, heap_size]`. -/
theorem payload_capacity (s : State) (bs : List Blk) (n : Int) (hwf : WF s bs)
    (hn0 : 0 ≤ n) (hn1 : n < 2147483648) (fuel : Nat) (r : Nat × Malloc_Status × State)
    (hr : smalloc fuel s n = some r) (hs : r.2.1.success = 1) :
    ∃ B : Nat, r.1 = B + 24 ∧
      r.2.1.payload_offset = (B : Int) + 24 - (s.heap_address : Int) ∧
      rd32 r.2.2.mem (B + 4) = 1 ∧
      n ≤ rd32 r.2.2.mem B - 24 ∧ rd32 r.2.2.mem B - 24 < n + 24 ∧
      0 ≤ r.2.1.payload_offset ∧
      r.2.1.payload_offset + (rd32 r.2.2.mem B - 24) ≤ s.heap_size := by
  rcases smalloc_inv_cases s bs _ n hwf.1 hn1 with ⟨_, h1⟩ |
    ⟨_, xs, ys, pre, post, B, F, e1, _, _, hB, h1, h2⟩
  · have := smalloc_det _ _ s n _ _ hr (h1 _ (Nat.lt_succ_self _))
    subst this
    simp at hs
  · have := smalloc_det _ _ s n _ _ hr (h1 (pre.length + 1) (Nat.lt_succ_self _))
    subst this
    have hF := hwf.1.size_bound ⟨B, F, true⟩ (by rw [e1]; simp)
    simp only at hF
    have hcap := capacity_bound n F hn0 hF.2.2.2.2 hB
    have hg := smalloc_take_globals s (found n F B pre.length)
    have key : ∀ sz : Nat, (⟨B, sz, false⟩ : Blk) ∈ takeBlocks xs ys B F (roundUp8 n).toNat →
        (n ≤ (sz : Int) - 24 ∧ (sz : Int) - 24 < n + 24) →
        ∃ B' : Nat, B + 24 = B' + 24 ∧
          (B : Int) + 24 - (s.heap_address : Int) = (B' : Int) + 24 - (s.heap_address : Int) ∧
          rd32 (smalloc_take s (found n F B pre.length)).mem (B' + 4) = 1 ∧
          n ≤ rd32 (smalloc_take s (found n F B pre.length)).mem B' - 24 ∧
          rd32 (smalloc_take s (found n F B pre.length)).mem B' - 24 < n + 24 ∧
          0 ≤ (B : Int) + 24 - (s.heap_address : Int) ∧
          (B : Int) + 24 - (s.heap_address : Int) +
            (rd32 (smalloc_take s (found n F B pre.length)).mem B' - 24) ≤ s.heap_size := by
      intro sz hm hc
      have hh := h2.hdr _ hm
      have ht := Tiles_mem _ _ _ h2.tiles _ hm
      have hnn := h2.size_nn
      rw [hg.1, hg.2] at ht
      rw [hg.2] at hnn
      simp only [HdrOK, Bool.false_eq_true, if_false] at hh
      simp only at ht
      refine ⟨B, rfl, rfl, hh.2, ?_, ?_, ?_, ?_⟩
      · rw [hh.1]; exact hc.1
      · rw [hh.1]; exact hc.2
      · omega
      · rw [hh.1]; omega
    by_cases hsp : 24 ≤ F - ((roundUp8 n).toNat + 24)
    · exact key ((roundUp8 n).toNat + 24) (by unfold takeBlocks; rw [if_pos hsp]; simp)
        ⟨(hcap.1 hsp).1, (hcap.1 hsp).2.1⟩
    · exact key F (by unfold takeBlocks; rw [if_neg hsp]; simp) (hcap.2 hsp)

theorem payload_capacity_witness :
    ∃ B : Nat, (4120, (⟨1, 24, 0⟩ : Malloc_Status), afterZero).1 = B + 24 ∧
      (4120, (⟨1, 24, 0⟩ : Malloc_Status), afterZero).2.1.payload_offset
        = (B : Int) + 24 - (fresh.heap_address : Int) ∧
      rd32 (4120, (⟨1, 24, 0⟩ : Malloc_Status), afterZero).2.2.mem (B + 4) = 1 ∧
      0 ≤ rd32 (4120, (⟨1, 24, 0⟩ : Malloc_Status), afterZero).2.2.mem B - 24 ∧
      rd32 (4120, (⟨1, 24, 0⟩ : Malloc_Status), afterZero).2.2.mem B - 24 < 0 + 24 ∧
      0 ≤ (4120, (⟨1, 24, 0⟩ : Malloc_Status), afterZero).2.1.payload_offset ∧
      (4120, (⟨1, 24, 0⟩ : Malloc_Status), afterZero).2.1.payload_offset +
        (rd32 (4120, (⟨1, 24, 0⟩ : Malloc_Status), afterZero).2.2.mem B - 24)
        ≤ fresh.heap_size :=
  payload_capacity fresh [⟨4096, 4096, true⟩] 0 fresh_wf (by decide) (by decide) 1
    (4120, ⟨1, 24, 0⟩, afterZero) afterZero_eq rfl


/-! ## Allocating three blocks and releasing them -/

theorem payloads_mid_free (xs ys : List Blk) (B F F' : Nat) (b : Blk) (hb : b.free = false) :
    payloads (xs ++ ⟨B, F, true⟩ :: ys) = payloads xs ++ payloads ys ∧
    payloads (xs ++ b :: ys) = payloads xs ++ (b.addr + 24) :: payloads ys ∧
    payloads (xs ++ b :: ⟨B, F', true⟩ :: ys) = payloads xs ++ (b.addr + 24) :: payloads ys := by
  simp [payloads, allocBlks, hb]

theorem roundUp8_pos (n : Int) (h : 0 < n) : 8 ≤ (roundUp8 n).toNat := by
  unfold roundUp8; omega

theorem allocBlks_mem (bs : List Blk) (b : Blk) : b ∈ allocBlks bs ↔ b ∈ bs ∧ b.free = false := by
  simp [allocBlks]

/-- A successful `smalloc` of a positive size in a well-formed state adds one
allocated block, larger than a bare header, whose payload address is the
pointer returned. -/
theorem smalloc_wf_step (s : State) (bs : List Blk) (n : Int) (hwf : WF s bs)
    (hn0 : 0 < n) (hn1 : n < 2147483648) (fuel : Nat) (r : Nat × Malloc_Status × State)
    (hr : smalloc fuel s n = some r) (hs : r.2.1.success = 1)
    (hsz : ∀ b ∈ allocBlks bs, 24 < b.size) :
    ∃ bs', WF r.2.2 bs' ∧ (payloads bs').Perm (r.1 :: payloads bs) ∧
      (∀ b ∈ allocBlks bs', 24 < b.size) ∧
      r.2.2.heap_address = s.heap_address ∧ r.2.2.heap_size = s.heap_size := by
  rcases smalloc_wf_cases s bs n hwf (le_of_lt hn0) hn1 with ⟨_, h1⟩ |
    ⟨xs, ys, B, F, e, _, hB, h1, h2⟩
  · have := smalloc_det _ _ s n _ _ hr (h1 _ (Nat.lt_succ_self _))
    subst this
    simp at hs
  · have := smalloc_det _ _ s n _ _ hr (h1 _ (Nat.lt_succ_self _))
    subst this
    subst e
    have hP := roundUp8_pos n hn0
    have hP2 := (roundUp8_toNat n (le_of_lt hn0)).1
    have hg := smalloc_take_globals s (found n F B (freeAddrs xs).length)
    have hF : (roundUp8 n).toNat + 24 ≤ F := by omega
    have hsz1 : ∀ b ∈ allocBlks xs, 24 < b.size := fun b hb =>
      hsz b (by rw [allocBlks_mem] at hb ⊢; exact ⟨by simp [hb.1], hb.2⟩)
    have hsz2 : ∀ b ∈ allocBlks ys, 24 < b.size := fun b hb =>
      hsz b (by rw [allocBlks_mem] at hb ⊢; exact ⟨by simp [hb.1], hb.2⟩)
    refine ⟨takeBlocks xs ys B F (roundUp8 n).toNat, h2, ?_, ?_, hg.1, hg.2⟩
    · unfold takeBlocks
      rw [(payloads_mid_free xs ys B F 0 ⟨B, F, false⟩ rfl).1]
      split
      · rw [(payloads_mid_free xs ys (B + 24 + (roundUp8 n).toNat)
          F (F - ((roundUp8 n).toNat + 24)) ⟨B, (roundUp8 n).toNat + 24, false⟩ rfl).2.2]
        exact List.perm_middle
      · rw [(payloads_mid_free xs ys B F 0 ⟨B, F, false⟩ rfl).2.1]
        exact List.perm_middle
    · intro b hb
      unfold takeBlocks at hb
      split at hb
      · rw [allocBlks_mem] at hb
        obtain ⟨hb1, hb2⟩ := hb
        simp only [List.mem_append, List.mem_cons] at hb1
        rcases hb1 with hb1 | rfl | rfl | hb1
        · exact hsz1 b ((allocBlks_mem _ _).2 ⟨hb1, hb2⟩)
        · simp only; omega
        · simp at hb2
        · exact hsz2 b ((allocBlks_mem _ _).2 ⟨hb1, hb2⟩)
      · rw [allocBlks_mem] at hb
        obtain ⟨hb1, hb2⟩ := hb
        simp only [List.mem_append, List.mem_cons] at hb1
        rcases hb1 with hb1 | rfl | hb1
        · exact hsz1 b ((allocBlks_mem _ _).2 ⟨hb1, hb2⟩)
        · simp only; omega
        · exact hsz2 b ((allocBlks_mem _ _).2 ⟨hb1, hb2⟩)

theorem WF.fuel_ok {s : State} {bs : List Blk} (h : WF s bs) (xs ys : List Blk) (b : Blk)
    (e : bs = xs ++ b :: ys) (fuel : Nat) (hf : s.heap_size.toNat < fuel) :
    (freeAddrs xs).length < fuel := by
  have h2 := Tiles_length _ _ _ h.1.tiles
  have h1 : (freeAddrs xs).length ≤ xs.length := by
    unfold freeAddrs
    rw [List.length_map]
    exact List.length_filter_le _ _
  rw [e] at h2
  simp only [List.length_append, List.length_cons] at h2
  omega

/-- Releasing an allocated block that is larger than a bare header, in a
well-formed state, removes it from the allocated blocks and keeps the state
well formed. -/
theorem sfree_wf_step (s : State) (bs : List Blk) (x : Nat) (hwf : WF s bs)
    (hsz : ∀ b ∈ allocBlks bs, 24 < b.size) (hx : x ∈ payloads bs) :
    ∃ (s' : State) (bs' : List Blk),
      (∀ fuel, s.heap_size.toNat < fuel → sfree fuel s x = some s') ∧ WF s' bs' ∧
      (payloads bs).Perm (x :: payloads bs') ∧ (∀ b ∈ allocBlks bs', 24 < b.size) ∧
      s'.heap_address = s.heap_address ∧ s'.heap_size = s.heap_size := by
  obtain ⟨b, hb, rfl⟩ := List.mem_map.1 hx
  have hb24 := hsz b hb
  obtain ⟨hb1, hb2⟩ := (allocBlks_mem _ _).1 hb
  obtain ⟨xs, ys, e⟩ := List.append_of_mem hb1
  obtain ⟨H, S, fr⟩ := b
  simp only at hb2 hb24
  subst hb2
  have hfuel := fun fuel hf => WF.fuel_ok hwf xs ys _ e fuel hf
  subst e
  obtain ⟨s', bs', h1, h2, h3, h4, h5⟩ := sfree_wf s xs ys H S hwf (fun h => by omega)
  refine ⟨s', bs', fun fuel hf => h1 fuel (hfuel fuel hf), h2, ?_, ?_, h4, h5⟩
  · rw [(payloads_mid_free xs ys 0 0 0 ⟨H, S, false⟩ rfl).2.1]
    unfold payloads
    rw [h3, List.map_append]
    exact List.perm_middle
  · intro b hb
    rw [h3] at hb
    rcases List.mem_append.1 hb with hb | hb
    · exact hsz b (by rw [allocBlks_mem] at hb ⊢; exact ⟨by simp [hb.1], hb.2⟩)
    · exact hsz b (by rw [allocBlks_mem] at hb ⊢; exact ⟨by simp [hb.1], hb.2⟩)

theorem release_three (s : State) (bs : List Blk) (x y z : Nat) (hwf : WF s bs)
    (hsz : ∀ b ∈ allocBlks bs, 24 < b.size) (hp : (payloads bs).Perm [x, y, z]) :
    ∃ (s' : State) (bs' : List Blk),
      (∀ g1 g2 g3 : Nat, s.heap_size.toNat < g1 → s.heap_size.toNat < g2 →
        s.heap_size.toNat < g3 →
        (sfree g1 s x).bind (fun s4 => (sfree g2 s4 y).bind (fun s5 => sfree g3 s5 z))
          = some s') ∧
      WF s' bs' ∧ payloads bs' = [] ∧
      s'.heap_address = s.heap_address ∧ s'.heap_size = s.heap_size := by
  obtain ⟨s4, bs4, r1, w1, p1, z1, ga1, gs1⟩ :=
    sfree_wf_step s bs x hwf hsz (hp.mem_iff.2 (by simp))
  have q1 : (payloads bs4).Perm [y, z] := (List.perm_cons x).1 (p1.symm.trans hp)
  obtain ⟨s5, bs5, r2, w2, p2, z2, ga2, gs2⟩ :=
    sfree_wf_step s4 bs4 y w1 z1 (q1.mem_iff.2 (by simp))
  have q2 : (payloads bs5).Perm [z] := (List.perm_cons y).1 (p2.symm.trans q1)
  obtain ⟨s6, bs6, r3, w3, p3, z3, ga3, gs3⟩ :=
    sfree_wf_step s5 bs5 z w2 z2 (q2.mem_iff.2 (by simp))
  have q3 : (payloads bs6).Perm [] := (List.perm_cons z).1 (p3.symm.trans q2)
  refine ⟨s6, bs6, ?_, w3, List.Perm.eq_nil q3, by rw [ga3, ga2, ga1],
    by rw [gs3, gs2, gs1]⟩
  intro g1 g2 g3 h1 h2 h3
  rw [r1 g1 h1]
  simp only [Option.some_bind]
  rw [r2 g2 (by rw [gs1]; exact h2)]
  simp only [Option.some_bind]
  exact r3 g3 (by rw [gs2, gs1]; exact h3)

theorem all_free_single (s : State) (bs : List Blk) (hwf : WF s bs) (hp : payloads bs = [])
    (hpos : 0 < s.heap_size) : bs = [⟨s.heap_address, s.heap_size.toNat, true⟩] := by
  have hall : ∀ b ∈ bs, b.free = true := by
    intro b hb
    by_contra hf
    have : b ∈ allocBlks bs := (allocBlks_mem _ _).2 ⟨hb, by simpa using hf⟩
    have h2 : b.addr + 24 ∈ payloads bs := List.mem_map.2 ⟨b, this, rfl⟩
    rw [hp] at h2
    simp at h2
  have ht := hwf.1.tiles
  have hadj := hwf.2
  cases bs with
  | nil =>
    simp only [Tiles] at ht
    omega
  | cons b rest =>
    cases rest with
    | nil =>
      obtain ⟨t1, _, _, t4⟩ := ht
      simp only [Tiles] at t4
      have hf := hall b (by simp)
      obtain ⟨ba, bz, bf⟩ := b
      simp only at t1 t4 hf
      subst t1 hf
      have : bz = s.heap_size.toNat := by omega
      subst this
      rfl
    | cons c rest =>
      unfold NoAdjFree at hadj
      rw [List.chain'_cons] at hadj
      exact absurd ⟨hall b (by simp), hall c (by simp)⟩ hadj.1

theorem perm3_rev (x y z p1 p2 p3 : Nat) (h : [x, y, z].Perm [p1, p2, p3]) :
    [p3, p2, p1].Perm [x, y, z] :=
  ((List.reverse_perm [p1, p2, p3]).trans h.symm)

/-- C10: starting from the arena left by a successful `my_init`, when three
allocations of positive sizes succeed with payload addresses `p1`, `p2`, `p3`
and these are then released in any of their six orders `x`, `y`, `z`, the
three releases return (for every fuel above the arena length) and the final
arena consists of exactly one block, free, at offset 0 with size `heap_size`,
with `free_list_head = heap_address` and `next = NULL`. -/
theorem release_all (a : Nat) (r : Int) (s0 : State) (hr : IsInt32 r)
    (hok : MmapOK a (my_init a r s0).2.heap_size)
    (n1 n2 n3 : Int) (hn1 : 0 < n1 ∧ n1 < 2147483648) (hn2 : 0 < n2 ∧ n2 < 2147483648)
    (hn3 : 0 < n3 ∧ n3 < 2147483648) (f1 f2 f3 p1 p2 p3 : Nat)
    (st1 st2 st3 : Malloc_Status) (s1 s2 s3 : State)
    (ha : smalloc f1 (my_init a r s0).2 n1 = some (p1, st1, s1)) (hsa : st1.success = 1)
    (hb : smalloc f2 s1 n2 = some (p2, st2, s2)) (hsb : st2.success = 1)
    (hc : smalloc f3 s2 n3 = some (p3, st3, s3)) (hsc : st3.success = 1)
    (x y z : Nat) (hperm : [x, y, z].Perm [p1, p2, p3]) :
    ∃ s6 : State,
      (∀ g1 g2 g3 : Nat, (my_init a r s0).2.heap_size.toNat < g1 →
        (my_init a r s0).2.heap_size.toNat < g2 → (my_init a r s0).2.heap_size.toNat < g3 →
        (sfree g1 s3 x).bind (fun s4 => (sfree g2 s4 y).bind (fun s5 => sfree g3 s5 z))
          = some s6) ∧
      blocksOf s6 = [⟨a, (my_init a r s0).2.heap_size.toNat, true⟩] ∧
      s6.heap_address = a ∧ s6.heap_size = (my_init a r s0).2.heap_size ∧
      s6.free_list_head = a ∧ rd64 s6.mem (a + 8) = 0 ∧
      rd32 s6.mem a = (my_init a r s0).2.heap_size ∧ rd32 s6.mem (a + 4) = 0 ∧
      WF s6 [⟨a, (my_init a r s0).2.heap_size.toNat, true⟩] := by
  have w0 := (my_init_wf a r s0 hr hok).2
  have ga0 := (my_init_size a r s0 hr).2.2
  have hpos : 0 < (my_init a r s0).2.heap_size := hok.2.2.2.1
  generalize (my_init a r s0).2 = t0 at *
  obtain ⟨bs1, w1, q1, z1, ga1, gs1⟩ := smalloc_wf_step t0 _ n1 w0 hn1.1 hn1.2 f1 _ ha hsa
    (by simp [allocBlks])
  obtain ⟨bs2, w2, q2, z2, ga2, gs2⟩ := smalloc_wf_step s1 _ n2 w1 hn2.1 hn2.2 f2 _ hb hsb z1
  obtain ⟨bs3, w3, q3, z3, ga3, gs3⟩ := smalloc_wf_step s2 _ n3 w2 hn3.1 hn3.2 f3 _ hc hsc z2
  simp only at w1 q1 z1 ga1 gs1 w2 q2 z2 ga2 gs2 w3 q3 z3 ga3 gs3
  have e0 : payloads [(⟨a, t0.heap_size.toNat, true⟩ : Blk)] = [] := by
    simp [payloads, allocBlks]
  rw [e0] at q1
  have q : (payloads bs3).Perm [x, y, z] :=
    (q3.trans ((q2.trans (q1.cons p2)).cons p3)).trans (perm3_rev x y z p1 p2 p3 hperm)
  have gs : s3.heap_size = t0.heap_size := by rw [gs3, gs2, gs1]
  have ga : s3.heap_address = a := by rw [ga3, ga2, ga1, ga0]
  obtain ⟨s6, bs6, run, w6, p6, ga6, gs6⟩ := release_three s3 bs3 x y z w3 z3 q
  rw [gs] at run gs6
  rw [ga] at ga6
  have hpos6 : 0 < s6.heap_size := by rw [gs6]; exact hpos
  have e6 := all_free_single s6 bs6 w6 p6 hpos6
  rw [ga6, gs6] at e6
  subst e6
  have hb6 := blocksOf_eq w6.1 hpos6
  have hh := w6.1.hdr _ (List.mem_singleton.2 rfl)
  have hl := w6.1.links
  have hd := w6.1.head
  simp only [HdrOK, if_true] at hh
  simp only [freeAddrs, List.filter_cons, List.filter_nil, if_true, List.map_cons, List.map_nil,
    DL, List.headD_cons, List.headD_nil] at hl hd
  refine ⟨s6, run, hb6, ga6, gs6, hd, hl.2.1, ?_, hh.2, w6⟩
  rw [hh.1]
  exact Int.toNat_of_nonneg (le_of_lt hpos)

theorem afterA_eq : smalloc 1 fresh 40 = some (4120, ⟨1, 24, 0⟩, afterA) :=
  (smalloc_wf_found fresh [] [] 4096 4096 40 fresh_wf (by decide) (by decide)
    (by simp) (by decide)).1 1 (by decide)

theorem afterA_wf : WF afterA [⟨4096, 64, false⟩, ⟨4160, 4032, true⟩] :=
  (smalloc_wf_found fresh [] [] 4096 4096 40 fresh_wf (by decide) (by decide)
    (by simp) (by decide)).2

theorem afterB_eq : smalloc 1 afterA 40 = some (4184, ⟨1, 88, 0⟩, afterB) :=
  (smalloc_wf_found afterA [⟨4096, 64, false⟩] [] 4160 4032 40 afterA_wf (by decide)
    (by decide) (by simp) (by decide)).1 1 (by decide)

theorem afterB_wf : WF afterB [⟨4096, 64, false⟩, ⟨4160, 64, false⟩, ⟨4224, 3968, true⟩] :=
  (smalloc_wf_found afterA [⟨4096, 64, false⟩] [] 4160 4032 40 afterA_wf (by decide)
    (by decide) (by simp) (by decide)).2

theorem afterC_eq : smalloc 1 afterB 40 = some (4248, ⟨1, 152, 0⟩, afterC) :=
  (smalloc_wf_found afterB [⟨4096, 64, false⟩, ⟨4160, 64, false⟩] [] 4224 3968 40 afterB_wf
    (by decide) (by decide) (by simp) (by decide)).1 1 (by decide)

/-- Witness for C10: length 4096, three `smalloc(40)` with payload addresses
4120, 4184 and 4248, released in the order first, third, second. -/
theorem release_all_witness :
    ∃ s6 : State,
      (∀ g1 g2 g3 : Nat, (my_init 4096 4096 arena0).2.heap_size.toNat < g1 →
        (my_init 4096 4096 arena0).2.heap_size.toNat < g2 →
        (my_init 4096 4096 arena0).2.heap_size.toNat < g3 →
        (sfree g1 afterC 4120).bind (fun s4 => (sfree g2 s4 4248).bind
          (fun s5 => sfree g3 s5 4184)) = some s6) ∧
      blocksOf s6 = [⟨4096, (my_init 4096 4096 arena0).2.heap_size.toNat, true⟩] ∧
      s6.heap_address = 4096 ∧ s6.heap_size = (my_init 4096 4096 arena0).2.heap_size ∧
      s6.free_list_head = 4096 ∧ rd64 s6.mem (4096 + 8) = 0 ∧
      rd32 s6.mem 4096 = (my_init 4096 4096 arena0).2.heap_size ∧
      rd32 s6.mem (4096 + 4) = 0 ∧
      WF s6 [⟨4096, (my_init 4096 4096 arena0).2.heap_size.toNat, true⟩] :=
  release_all 4096 4096 arena0 (by decide) (by decide) 40 40 40 (by decide) (by decide)
    (by decide) 1 1 1 4120 4184 4248 ⟨1, 24, 0⟩ ⟨1, 88, 0⟩ ⟨1, 152, 0⟩ afterA afterB afterC
    afterA_eq rfl afterB_eq rfl afterC_eq rfl 4120 4248 4184
    (List.Perm.cons 4120 (List.Perm.swap 4184 4248 []))


/-! ## The bytes written by `smalloc` and `sfree` -/

theorem wr32_out (m : Mem) (a : Nat) (v : Int) (x : Nat) (h : x < a ∨ a + 4 ≤ x) :
    wr32 m a v x = m x := by
  unfold wr32 wrBytes
  rw [if_neg (by omega)]

theorem wr64_out (m : Mem) (a v x : Nat) (h : x < a ∨ a + 8 ≤ x) :
    wr64 m a v x = m x := by
  unfold wr64 wrBytes
  rw [if_neg (by omega)]

theorem take_frame (s : State) (r : SearchState) (x : Nat)
    (hB : x < r.block_head ∨ r.block_head + 8 ≤ x)
    (hN : r.split_block = true → x < padd (padd r.block_head 24) r.size_of_payload ∨
      padd (padd r.block_head 24) r.size_of_payload + 24 ≤ x)
    (hp : rd64 s.mem (r.block_head + 16) ≠ 0 → x < rd64 s.mem (r.block_head + 16) ∨
      rd64 s.mem (r.block_head + 16) + 24 ≤ x)
    (hn : rd64 s.mem (r.block_head + 8) ≠ 0 → x < rd64 s.mem (r.block_head + 8) ∨
      rd64 s.mem (r.block_head + 8) + 24 ≤ x) :
    (smalloc_take s r).mem x = s.mem x := by
  unfold smalloc_take
  simp only
  rw [wr32_out _ _ _ _ (by omega), wr32_out _ _ _ _ (by omega)]
  by_cases hs : r.split_block = true
  · have hN' := hN hs
    simp only [hs, if_true]
    rw [wr64_out _ _ _ _ (by omega), wr64_out _ _ _ _ (by omega)]
    by_cases h1 : rd64 s.mem (r.block_head + 16) = 0 <;>
      by_cases h2 : rd64 s.mem (r.block_head + 8) = 0
    · simp only [h1, h2, ne_eq, not_true_eq_false, if_false]
      rw [wr32_out _ _ _ _ (by omega), wr32_out _ _ _ _ (by omega)]
    · have := hn h2
      simp only [h1, h2, ne_eq, not_true_eq_false, not_false_eq_true, if_false, if_true]
      rw [wr64_out _ _ _ _ (by omega), wr32_out _ _ _ _ (by omega), wr32_out _ _ _ _ (by omega)]
    · have := hp h1
      simp only [h1, h2, ne_eq, not_true_eq_false, not_false_eq_true, if_false, if_true]
      rw [wr64_out _ _ _ _ (by omega), wr32_out _ _ _ _ (by omega), wr32_out _ _ _ _ (by omega)]
    · have := hp h1
      have := hn h2
      simp only [h1, h2, ne_eq, not_true_eq_false, not_false_eq_true, if_false, if_true]
      rw [wr64_out _ _ _ _ (by omega), wr64_out _ _ _ _ (by omega),
        wr32_out _ _ _ _ (by omega), wr32_out _ _ _ _ (by omega)]
  · have hs' : r.split_block = false := by simpa using hs
    simp only [hs', Bool.false_eq_true, if_false]
    by_cases h1 : rd64 s.mem (r.block_head + 16) = 0 <;>
      by_cases h2 : rd64 s.mem (r.block_head + 8) = 0
    · simp only [h1, h2, ne_eq, not_true_eq_false, if_false]
    · have := hn h2
      simp only [h1, h2, ne_eq, not_true_eq_false, not_false_eq_true, if_false, if_true]
      rw [wr64_out _ _ _ _ (by omega)]
    · have := hp h1
      simp only [h1, h2, ne_eq, not_true_eq_false, not_false_eq_true, if_false, if_true]
      rw [wr64_out _ _ _ _ (by omega)]
    · have := hp h1
      have := hn h2
      simp only [h1, h2, ne_eq, not_true_eq_false, not_false_eq_true, if_false, if_true]
      rw [wr64_out _ _ _ _ (by omega), wr64_out _ _ _ _ (by omega)]

theorem insert_frame (s : State) (H L R NN T x : Nat)
    (hH : x < H ∨ H + 24 ≤ x) (hL : L ≠ 0 → x < L ∨ L + 24 ≤ x)
    (hR : R ≠ 0 → x < R ∨ R + 24 ≤ x) (hNN : NN ≠ 0 → x < NN ∨ NN + 24 ≤ x) :
    (sfree_insert s H L R NN T).mem x = s.mem x := by
  unfold sfree_insert
  simp only
  by_cases hL0 : L = 0 <;> by_cases hR0 : R = 0 <;> by_cases hN0 : NN = 0
  all_goals
    first
    | have hL' := hL hL0
    | skip
  all_goals
    first
    | have hR' := hR hR0
    | skip
  all_goals
    first
    | have hN' := hNN hN0
    | skip
  all_goals simp only [hL0, hR0, hN0, ne_eq, not_true_eq_false, not_false_eq_true,
    decide_False, decide_True, Bool.false_and, Bool.and_false, Bool.true_and,
    Bool.false_eq_true, if_false, if_true]
  all_goals
    first
    | split_ifs
    | skip
  all_goals
    first
    | rfl
    | simp (disch := omega) only [wr32_out, wr64_out]

theorem Inv.free_hdr_out {s : State} {bs : List Blk} {fl : List Nat} (h : Inv s bs fl)
    (x : Nat) (hW : ∀ b ∈ bs, b.free = true → x < b.addr ∨ b.addr + 24 ≤ x)
    (a : Nat) (ha : a ≠ 0) (hm : a = 0 ∨ a ∈ fl) : x < a ∨ a + 24 ≤ x := by
  rcases hm with hm | hm
  · exact absurd hm ha
  · obtain ⟨b, hb, hf, e, _⟩ := h.free_size a hm
    rw [← e]
    exact hW b hb hf

theorem lastD_zero_or_mem (l : List Nat) : lastD l 0 = 0 ∨ lastD l 0 ∈ l := by
  rcases lastD_cases l 0 with h | h
  · exact Or.inl h.2
  · exact Or.inr h.2

theorem headD_zero_or_mem (l : List Nat) : l.headD 0 = 0 ∨ l.headD 0 ∈ l := by
  rcases headD_cases l 0 with h | h
  · exact Or.inl h.2
  · exact Or.inr h.2

/-- A byte outside the headers of the free blocks and outside the block that is
handed out is not changed by `smalloc`. -/
theorem smalloc_frame (s : State) (bs : List Blk) (fl : List Nat) (n : Int)
    (hinv : Inv s bs fl) (hn1 : n < 2147483648) (fuel : Nat)
    (r : Nat × Malloc_Status × State) (hr : smalloc fuel s n = some r) (x : Nat)
    (hW : ∀ b ∈ bs, b.free = true → x < b.addr ∨ b.addr + 24 ≤ x)
    (hWB : ∀ b ∈ bs, b.free = true → r.1 = b.addr + 24 → x < b.addr ∨ b.addr + b.size ≤ x) :
    r.2.2.mem x = s.mem x := by
  rcases smalloc_inv_cases s bs fl n hinv hn1 with ⟨_, h1⟩ |
    ⟨hn0, xs, ys, pre, post, B, F, e1, e2, _, hB, h1, _⟩
  · have := smalloc_det _ _ s n _ _ hr (h1 _ (Nat.lt_succ_self _))
    subst this
    rfl
  · have := smalloc_det _ _ s n _ _ hr (h1 _ (Nat.lt_succ_self _))
    subst this
    have hbm : (⟨B, F, true⟩ : Blk) ∈ bs := by rw [e1]; simp
    have hx1 := hW _ hbm rfl
    have hx2 := hWB _ hbm rfl rfl
    have hsb := hinv.size_bound _ hbm
    simp only at hx1 hx2 hsb
    have hl := hinv.links
    rw [e2] at hl
    obtain ⟨_, d2⟩ := (DL_append _ _ _ _ _).1 hl
    obtain ⟨d3, d4, _⟩ := d2
    have hprev : rd64 s.mem (B + 16) = 0 ∨ rd64 s.mem (B + 16) ∈ fl := by
      rw [d3, e2]
      rcases lastD_zero_or_mem pre with h | h
      · exact Or.inl h
      · exact Or.inr (List.mem_append_left _ h)
    have hnext : rd64 s.mem (B + 8) = 0 ∨ rd64 s.mem (B + 8) ∈ fl := by
      rw [d4, e2]
      rcases headD_zero_or_mem post with h | h
      · exact Or.inl h
      · exact Or.inr (List.mem_append_right _ (List.mem_cons_of_mem _ h))
    have hP := (roundUp8_toNat n hn0).1
    have hnf : padd (padd B 24) (roundUp8 n) = B + 24 + (roundUp8 n).toNat := by
      have h3 := padd_nat (B + 24) (roundUp8 n).toNat (by omega)
      rw [hP] at h3
      rw [padd_24 B (by omega)]
      exact h3
    show (smalloc_take s (found n F B pre.length)).mem x = s.mem x
    unfold found
    split
    · refine take_frame s _ x (by simp only; omega) (fun _ => ?_)
        (fun h => hinv.free_hdr_out x hW _ h hprev) (fun h => hinv.free_hdr_out x hW _ h hnext)
      simp only
      rw [hnf]
      omega
    · exact take_frame s _ x (by simp only; omega) (fun h => by simp at h)
        (fun h => hinv.free_hdr_out x hW _ h hprev) (fun h => hinv.free_hdr_out x hW _ h hnext)

/-- A byte outside the headers of the free blocks and outside the header of
the block that is released is not changed by `sfree`. -/
theorem sfree_frame (s : State) (bs : List Blk) (fl : List Nat) (b : Blk)
    (hinv : Inv s bs fl) (hb : b ∈ bs) (hf : b.free = false) (fuel : Nat) (s' : State)
    (h : sfree fuel s (b.addr + 24) = some s') (x : Nat)
    (hH : x < b.addr ∨ b.addr + 24 ≤ x)
    (hW : ∀ c ∈ bs, c.free = true → x < c.addr ∨ c.addr + 24 ≤ x) :
    s'.mem x = s.mem x := by
  obtain ⟨xs, ys, e⟩ := List.append_of_mem hb
  obtain ⟨H, S, fr⟩ := b
  simp only at hf hH
  subst hf
  obtain ⟨pre, post, e2, hpre, hpost⟩ := split_while (fun a => H + 24 < a) fl
  have hinv' := hinv
  rw [e, e2] at hinv'
  have hrun := sfree_run s xs ys pre post H S hinv' hpre hpost (pre.length + 1)
    (Nat.lt_succ_self _)
  have := sfree_det _ _ s _ _ _ h hrun
  subst this
  have hL : lastD pre 0 = 0 ∨ lastD pre 0 ∈ fl := by
    rw [e2]
    rcases lastD_zero_or_mem pre with h | h
    · exact Or.inl h
    · exact Or.inr (List.mem_append_left _ h)
  have hR : post.headD 0 = 0 ∨ post.headD 0 ∈ fl := by
    rw [e2]
    rcases headD_zero_or_mem post with h | h
    · exact Or.inl h
    · exact Or.inr (List.mem_append_right _ h)
  have hNN : post.tail.headD 0 = 0 ∨ post.tail.headD 0 ∈ fl := by
    rw [e2]
    rcases headD_zero_or_mem post.tail with h | h
    · exact Or.inl h
    · exact Or.inr (List.mem_append_right _ (List.mem_of_mem_tail h))
  exact insert_frame s H _ _ _ _ x hH
    (fun h => hinv.free_hdr_out x hW _ h hL) (fun h => hinv.free_hdr_out x hW _ h hR)
    (fun h => hinv.free_hdr_out x hW _ h hNN)

theorem rd32_congr (m m' : Mem) (a : Nat) (h : ∀ x, a ≤ x → x < a + 4 → m x = m' x) :
    rd32 m a = rd32 m' a := by
  unfold rd32
  rw [rdBytes_congr m m' 4 a h]

/-- A memory that agrees with the old one outside the other blocks leaves the
block `c` as it was: all of its bytes, hence its size field and its flag. -/
theorem block_kept (s : State) (bs : List Blk) (fl : List Nat) (hinv : Inv s bs fl) (m' : Mem)
    (c : Blk) (hc : c ∈ bs)
    (hfr : ∀ x, (∀ b ∈ bs, b ≠ c → x < b.addr ∨ b.addr + b.size ≤ x) → m' x = s.mem x) :
    (∀ x, c.addr ≤ x → x < c.addr + c.size → m' x = s.mem x) ∧
    rd32 m' c.addr = rd32 s.mem c.addr ∧ rd32 m' (c.addr + 4) = rd32 s.mem (c.addr + 4) := by
  have hsz := (Tiles_mem _ _ _ hinv.tiles c hc).2.2.1
  have key : ∀ x, c.addr ≤ x → x < c.addr + c.size → m' x = s.mem x := by
    intro x h1 h2
    refine hfr x (fun b hb hne => ?_)
    rcases Tiles_sep _ _ _ hinv.tiles b c hb hc with e | e | e
    · exact absurd e hne
    · omega
    · omega
  exact ⟨key, rd32_congr _ _ _ (fun x h1 h2 => key x h1 (by omega)),
    rd32_congr _ _ _ (fun x h1 h2 => key x (by omega) (by omega))⟩

/-- C19: in a well-formed state, `smalloc` changes only bytes in the headers
of free blocks and bytes of the free block it hands out, and `sfree` of the
payload address of an allocated block changes only bytes in the headers of
free blocks and in the header of the block released; in both cases every other
allocated block keeps all of its bytes, so its size field, its allocated flag
and its payload are unchanged. -/
theorem live_blocks_untouched (s : State) (bs : List Blk) (hwf : WF s bs) :
    (∀ (n : Int) (fuel : Nat) (r : Nat × Malloc_Status × State), IsInt32 n →
      smalloc fuel s n = some r →
      (∀ x, r.2.2.mem x ≠ s.mem x → ∃ b ∈ bs, b.free = true ∧ b.addr ≤ x ∧
        (x < b.addr + 24 ∨ (r.1 = b.addr + 24 ∧ x < b.addr + b.size))) ∧
      (∀ c ∈ bs, c.free = false →
        (∀ x, c.addr ≤ x → x < c.addr + c.size → r.2.2.mem x = s.mem x) ∧
        rd32 r.2.2.mem c.addr = rd32 s.mem c.addr ∧
        rd32 r.2.2.mem (c.addr + 4) = rd32 s.mem (c.addr + 4))) ∧
    (∀ b ∈ bs, b.free = false → ∀ (fuel : Nat) (s' : State),
      sfree fuel s (b.addr + 24) = some s' →
      (∀ x, s'.mem x ≠ s.mem x → (b.addr ≤ x ∧ x < b.addr + 24) ∨
        ∃ c ∈ bs, c.free = true ∧ c.addr ≤ x ∧ x < c.addr + 24) ∧
      (∀ c ∈ bs, c.free = false → c ≠ b →
        (∀ x, c.addr ≤ x → x < c.addr + c.size → s'.mem x = s.mem x) ∧
        rd32 s'.mem c.addr = rd32 s.mem c.addr ∧
        rd32 s'.mem (c.addr + 4) = rd32 s.mem (c.addr + 4))) := by
  have hinv := hwf.1
  constructor
  · intro n fuel r hn hr
    constructor
    · intro x hne
      by_contra hno
      refine hne (smalloc_frame s bs _ n hinv hn.2 fuel r hr x (fun b hb hf => ?_)
        (fun b hb hf hp => ?_))
      · by_contra hc
        exact hno ⟨b, hb, hf, by omega, Or.inl (by omega)⟩
      · by_contra hc
        exact hno ⟨b, hb, hf, by omega, Or.inr ⟨hp, by omega⟩⟩
    · intro c hc hcf
      refine block_kept s bs _ hinv _ c hc (fun x hx => ?_)
      have hne : ∀ b ∈ bs, b.free = true → b ≠ c := fun b _ hf e => by
        rw [e, hcf] at hf; exact absurd hf (by simp)
      refine smalloc_frame s bs _ n hinv hn.2 fuel r hr x (fun b hb hf => ?_)
        (fun b hb hf _ => hx b hb (hne b hb hf))
      have h24 := (Tiles_mem _ _ _ hinv.tiles b hb).2.2.1
      have := hx b hb (hne b hb hf)
      omega
  · intro b hb hbf fuel s' hs
    constructor
    · intro x hne
      by_contra hno
      refine hne (sfree_frame s bs _ b hinv hb hbf fuel s' hs x ?_ (fun c hc hf => ?_))
      · by_contra hc
        exact hno (Or.inl (by omega))
      · by_contra hc'
        exact hno (Or.inr ⟨c, hc, hf, by omega, by omega⟩)
    · intro c hc hcf hcb
      refine block_kept s bs _ hinv _ c hc (fun x hx => ?_)
      have hne : ∀ d ∈ bs, d.free = true → d ≠ c := fun d _ hf e => by
        rw [e, hcf] at hf; exact absurd hf (by simp)
      refine sfree_frame s bs _ b hinv hb hbf fuel s' hs x ?_ (fun d hd hf => ?_)
      · have h24 := (Tiles_mem _ _ _ hinv.tiles b hb).2.2.1
        have := hx b hb (fun e => hcb e.symm)
        omega
      · have h24 := (Tiles_mem _ _ _ hinv.tiles d hd).2.2.1
        have := hx d hd (hne d hd hf)
        omega

theorem live_blocks_untouched_witness :
    (∀ (n : Int) (fuel : Nat) (r : Nat × Malloc_Status × State), IsInt32 n →
      smalloc fuel afterB n = some r →
      (∀ x, r.2.2.mem x ≠ afterB.mem x →
        ∃ b ∈ [(⟨4096, 64, false⟩ : Blk), ⟨4160, 64, false⟩, ⟨4224, 3968, true⟩],
          b.free = true ∧ b.addr ≤ x ∧
          (x < b.addr + 24 ∨ (r.1 = b.addr + 24 ∧ x < b.addr + b.size))) ∧
      (∀ c ∈ [(⟨4096, 64, false⟩ : Blk), ⟨4160, 64, false⟩, ⟨4224, 3968, true⟩],
        c.free = false →
        (∀ x, c.addr ≤ x → x < c.addr + c.size → r.2.2.mem x = afterB.mem x) ∧
        rd32 r.2.2.mem c.addr = rd32 afterB.mem c.addr ∧
        rd32 r.2.2.mem (c.addr + 4) = rd32 afterB.mem (c.addr + 4))) ∧
    (∀ b ∈ [(⟨4096, 64, false⟩ : Blk), ⟨4160, 64, false⟩, ⟨4224, 3968, true⟩],
      b.free = false → ∀ (fuel : Nat) (s' : State),
      sfree fuel afterB (b.addr + 24) = some s' →
      (∀ x, s'.mem x ≠ afterB.mem x → (b.addr ≤ x ∧ x < b.addr + 24) ∨
        ∃ c ∈ [(⟨4096, 64, false⟩ : Blk), ⟨4160, 64, false⟩, ⟨4224, 3968, true⟩],
          c.free = true ∧ c.addr ≤ x ∧ x < c.addr + 24) ∧
      (∀ c ∈ [(⟨4096, 64, false⟩ : Blk), ⟨4160, 64, false⟩, ⟨4224, 3968, true⟩],
        c.free = false → c ≠ b →
        (∀ x, c.addr ≤ x → x < c.addr + c.size → s'.mem x = afterB.mem x) ∧
        rd32 s'.mem c.addr = rd32 afterB.mem c.addr ∧
        rd32 s'.mem (c.addr + 4) = rd32 afterB.mem (c.addr + 4))) :=
  live_blocks_untouched afterB [⟨4096, 64, false⟩, ⟨4160, 64, false⟩, ⟨4224, 3968, true⟩]
    afterB_wf

/-! ## The free list of a reachable state -/

/-- In every reachable state the free list is a chain from `free_list_head` to
`NULL` of fewer than `2^31` entries whose sizes are multiples of 8 and at least
24. -/
theorem reach_free_list (s : State) (h : Reachable s) :
    ∃ fl, NextChain s.mem s.free_list_head fl ∧ fl.length < 2147483648 ∧
      ∀ a ∈ fl, 24 ≤ rd32 s.mem a ∧ rd32 s.mem a % 8 = 0 := by
  obtain ⟨bs, fl, hinv, _⟩ := reach_inv s h
  refine ⟨fl, hinv.nextChain, hinv.length_lt, fun a ha => ?_⟩
  obtain ⟨b, _, _, _, e, h24, h8, _⟩ := hinv.free_size a ha
  rw [e]
  omega

end MyMalloc
